import Mathlib

/-!
# Textract response parser: a shallow embedding

Embedding of `src/textractparser/textract_types.go` and of
`src/textractparser/textract_writer.go`, with the storage helper the writer calls, and of
the text chunker and the object name parser of
`src/lambda/comprehend_processor/comprehend_processor.go`.

Conventions of the embedding.

* A Go pointer that may be nil (`*string`, `*int64`, `*float64`, a pointer field
  of an SDK struct, `Page.Geometry`, `Field.Key`, `Field.Value`) is an `Option`.
  Dereferencing it is a bind in the `Option` monad, so a builder that returns `none`
  stands for a run that stops with a nil-pointer fault.
* A pointer that the constructors of the package always set to a freshly allocated
  object (`Word.Geometry`, `FieldKey.Text`, `Cell.Text`, `Page.Form`, the rows of a
  table) is the object itself.
* The elements of `[]*Block` and `[]*Relationship` are the structs; the elements of a
  `[]*string` and of `[]*Point` keep their nil case.
* A Go map is an association list read with `List.lookup`; an assignment `m[k] = v`
  puts `(k, v)` in front, so a later assignment shadows an earlier one.
* A `for ... range` loop is a `List.foldlM` (or `List.foldl`) of its body.
* `float64` values are only copied by the code, never computed with.
* `json.Marshal` is a parameter of the writer (`json.Marshal`): for each value it either
  returns the bytes or an error, and which values it refuses is left open.
* A Go string that the code only concatenates, compares or splits at a separator is a
  `String`; the text that `chunkUpTheText` measures and slices at byte offsets is the list
  of its bytes.
-/

set_option autoImplicit false

/-- Stand-in for `float64`: the code copies these values and never inspects them. -/
abbrev Float64 := Int

/-! ## The SDK types (`github.com/aws/aws-sdk-go/service/textract`) -/

namespace textract

/-- SDK type `textract.BoundingBox`. -/
structure BoundingBox where
  Height : Option Float64
  Left : Option Float64
  Top : Option Float64
  Width : Option Float64
deriving DecidableEq, Repr

/-- SDK type `textract.Point`. -/
structure Point where
  X : Option Float64
  Y : Option Float64
deriving DecidableEq, Repr

/-- SDK type `textract.Geometry`; `Polygon` is a `[]*Point`, whose elements may be nil. -/
structure Geometry where
  BoundingBox : Option BoundingBox
  Polygon : List (Option Point)
deriving DecidableEq, Repr

/-- SDK type `textract.Relationship`. -/
structure Relationship where
  Ids : List (Option String)
  /-- Field `Type` of the SDK struct (the name is reserved in Lean). -/
  Type_ : Option String
deriving DecidableEq, Repr

/-- SDK type `textract.Block` (the fields the parser reads or copies); the defaults are
Go's zero values. -/
structure Block where
  BlockType : Option String := none
  ColumnIndex : Option Int := none
  ColumnSpan : Option Int := none
  Confidence : Option Float64 := none
  EntityTypes : List (Option String) := []
  Geometry : Option Geometry := none
  Id : Option String := none
  Relationships : List Relationship := []
  RowIndex : Option Int := none
  RowSpan : Option Int := none
  SelectionStatus : Option String := none
  Text : Option String := none
deriving DecidableEq, Repr

/-- SDK type `textract.AnalyzeDocumentOutput` (its block list). -/
structure AnalyzeDocumentOutput where
  Blocks : List Block
deriving DecidableEq, Repr

end textract

/-! ## `textract_types.go` -/

namespace textractparser

/-- Go type `map[string]*textract.Block`. -/
abbrev BlockMap := List (String × textract.Block)

/-- Go type `BoundingBox` of the parser. -/
structure BoundingBox where
  Width : Option Float64
  Height : Option Float64
  Left : Option Float64
  Top : Option Float64
deriving DecidableEq, Repr

/-- Go type `Polygon` of the parser (one point). -/
structure Polygon where
  X : Option Float64
  Y : Option Float64
deriving DecidableEq, Repr

/-- Go type `Geometry` of the parser. -/
structure Geometry where
  BoundingBox : BoundingBox
  Polygon : List Polygon
deriving DecidableEq, Repr

/-- Go function `NewGeometry`: faults when `geo` or `geo.BoundingBox` is nil, and when a
point of `geo.Polygon` is nil (`pg.X`). -/
def NewGeometry (geo : Option textract.Geometry) : Option Geometry := do
  let g ← geo
  let b ← g.BoundingBox
  let bb : BoundingBox := ⟨b.Width, b.Height, b.Left, b.Top⟩
  let pgs ← g.Polygon.foldlM
    (fun pgs pg => do
      let point ← pg
      pure (pgs ++ [Polygon.mk point.X point.Y])) []
  pure { BoundingBox := bb, Polygon := pgs }

/-- Go type `Word`. -/
structure Word where
  Block : textract.Block
  Confidence : Option Float64
  Geometry : Geometry
  Id : Option String
  Text : Option String
deriving DecidableEq, Repr

/-- Go function `NewWord`. -/
def NewWord (block : textract.Block) : Option Word := do
  let g ← NewGeometry block.Geometry
  pure { Block := block, Confidence := block.Confidence, Geometry := g,
         Id := block.Id, Text := block.Text }

/-- Go type `Line`. -/
structure Line where
  Block : textract.Block
  Confidence : Option Float64
  Geometry : Geometry
  Id : Option String
  Text : Option String
  Words : List Word
deriving DecidableEq, Repr

/-- Body of the inner loop of `NewLine`, over the identifiers of one relationship. -/
def NewLine.idStep (blockMap : BlockMap) (words : List Word) (cid : Option String) :
    Option (List Word) := do
  let c ← cid
  match blockMap.lookup c with
  | some b =>
    let bt ← b.BlockType
    if bt = "WORD" then
      let w ← NewWord b
      pure (words ++ [w])
    else pure words
  | none => pure words

/-- Body of the outer loop of `NewLine`, over the relationships of the block. -/
def NewLine.relStep (blockMap : BlockMap) (words : List Word) (rs : textract.Relationship) :
    Option (List Word) := do
  let ty ← rs.Type_
  if ty = "CHILD" then rs.Ids.foldlM (NewLine.idStep blockMap) words
  else pure words

/-- Go function `NewLine`. -/
def NewLine (block : textract.Block) (blockMap : BlockMap) : Option Line := do
  let words ← block.Relationships.foldlM (NewLine.relStep blockMap) []
  let g ← NewGeometry block.Geometry
  pure { Block := block, Confidence := block.Confidence, Geometry := g,
         Id := block.Id, Text := block.Text, Words := words }

/-- Go type `SelectionElement`. -/
structure SelectionElement where
  Block : textract.Block
  Confidence : Option Float64
  Geometry : Geometry
  Id : Option String
  SelectionStatus : Option String
deriving DecidableEq, Repr

/-- Go function `NewSelectionElement`. -/
def NewSelectionElement (block : textract.Block) : Option SelectionElement := do
  let g ← NewGeometry block.Geometry
  pure { Block := block, Confidence := block.Confidence, Geometry := g,
         Id := block.Id, SelectionStatus := block.SelectionStatus }

/-- An element of a `[]interface{}` content slice of a field value or of a cell:
a `*Word` or a `*SelectionElement`. -/
inductive Item where
  | word (w : Word)
  | selection (se : SelectionElement)
deriving DecidableEq, Repr

/-- Go type `FieldKey`. -/
structure FieldKey where
  Block : textract.Block
  Content : List Word
  Confidence : Option Float64
  Geometry : Geometry
  Id : Option String
  Text : String
deriving DecidableEq, Repr

/-- Body of the loop of `NewFieldKey`; the state is `(content, t)`. -/
def NewFieldKey.step (blockMap : BlockMap) (st : List Word × List String)
    (eid : Option String) : Option (List Word × List String) := do
  let e ← eid
  match blockMap.lookup e with
  | some b =>
    let bt ← b.BlockType
    if bt = "WORD" then
      let w ← NewWord b
      let txt ← w.Text
      pure (st.1 ++ [w], st.2 ++ [txt])
    else pure st
  | none => pure st

/-- Go function `NewFieldKey`; `strings.Join(t, " ")` is `String.intercalate " " t`. -/
def NewFieldKey (block : textract.Block) (children : List (Option String))
    (blockMap : BlockMap) : Option FieldKey := do
  let st ← children.foldlM (NewFieldKey.step blockMap) ([], [])
  let g ← NewGeometry block.Geometry
  pure { Block := block, Content := st.1, Confidence := block.Confidence, Geometry := g,
         Id := block.Id, Text := String.intercalate " " st.2 }

/-- Go type `FieldValue`. -/
structure FieldValue where
  Block : textract.Block
  Content : List Item
  Confidence : Option Float64
  Geometry : Geometry
  Id : Option String
  Text : String
deriving DecidableEq, Repr

/-- Body of the loop of `NewFieldValue`; the state is `(content, t)`. -/
def NewFieldValue.step (blockMap : BlockMap) (st : List Item × List String)
    (eid : Option String) : Option (List Item × List String) := do
  let e ← eid
  match blockMap.lookup e with
  | some b =>
    let bt ← b.BlockType
    if bt = "WORD" then
      let w ← NewWord b
      let txt ← w.Text
      pure (st.1 ++ [Item.word w], st.2 ++ [txt])
    else if bt = "SELECTION_ELEMENT" then
      let se ← NewSelectionElement b
      let status ← se.SelectionStatus
      pure (st.1 ++ [Item.selection se], st.2 ++ [status])
    else pure st
  | none => pure st

/-- Go function `NewFieldValue`. -/
def NewFieldValue (block : textract.Block) (children : List (Option String))
    (blockMap : BlockMap) : Option FieldValue := do
  let st ← children.foldlM (NewFieldValue.step blockMap) ([], [])
  let g ← NewGeometry block.Geometry
  pure { Block := block, Content := st.1, Confidence := block.Confidence, Geometry := g,
         Id := block.Id, Text := String.intercalate " " st.2 }

/-- Go function `refsContainValue`: the loop returns at the first match and
dereferences every element it passes. -/
def refsContainValue : List (Option String) → String → Option Bool
  | [], _ => some false
  | v :: rest, val => do
    let s ← v
    if s = val then pure true else refsContainValue rest val

/-- Go type `Field`. -/
structure Field where
  Key : Option FieldKey
  Value : Option FieldValue
deriving DecidableEq, Repr

/-- Innermost loop of `NewField`, over the relationships of the value block. -/
def NewField.valueRelStep (vkvs : textract.Block) (blockMap : BlockMap)
    (value : Option FieldValue) (vitem : textract.Relationship) : Option (Option FieldValue) := do
  let ty ← vitem.Type_
  if ty = "CHILD" then
    let v ← NewFieldValue vkvs vitem.Ids blockMap
    pure (some v)
  else pure value

/-- Loop of `NewField` over the identifiers of a `VALUE` relationship. -/
def NewField.valueIdStep (blockMap : BlockMap) (value : Option FieldValue)
    (eid : Option String) : Option (Option FieldValue) := do
  let e ← eid
  match blockMap.lookup e with
  | some vkvs =>
    let isValue ← refsContainValue vkvs.EntityTypes "VALUE"
    if isValue then vkvs.Relationships.foldlM (NewField.valueRelStep vkvs blockMap) value
    else pure value
  | none => pure value

/-- Body of the outer loop of `NewField`; the state is `(key, value)`. -/
def NewField.relStep (block : textract.Block) (blockMap : BlockMap)
    (st : Option FieldKey × Option FieldValue) (item : textract.Relationship) :
    Option (Option FieldKey × Option FieldValue) := do
  let ty ← item.Type_
  if ty = "CHILD" then
    let k ← NewFieldKey block item.Ids blockMap
    pure (some k, st.2)
  else if ty = "VALUE" then
    let v ← item.Ids.foldlM (NewField.valueIdStep blockMap) st.2
    pure (st.1, v)
  else pure st

/-- Go function `NewField`. -/
def NewField (block : textract.Block) (blockMap : BlockMap) : Option Field := do
  let st ← block.Relationships.foldlM (NewField.relStep block blockMap) (none, none)
  pure { Key := st.1, Value := st.2 }

/-- Go type `Form`; `FieldsMap` is a `map[string]*Field`. -/
structure Form where
  Fields : List Field
  FieldsMap : List (String × Field)
deriving DecidableEq, Repr

/-- Go function `NewForm`. -/
def NewForm : Form := { Fields := [], FieldsMap := [] }

/-- Go method `Form.AddField`: faults when the field has no key. -/
def Form.AddField (f : Form) (field : Field) : Option Form := do
  let k ← field.Key
  pure { Fields := f.Fields ++ [field], FieldsMap := (k.Text, field) :: f.FieldsMap }

/-- Go method `Form.GetFieldByKey`: the entry of the map, or the empty `&Field{}`. -/
def Form.GetFieldByKey (f : Form) (key : String) : Field :=
  match f.FieldsMap.lookup key with
  | some field => field
  | none => { Key := none, Value := none }

/-- Go type `Cell`. -/
structure Cell where
  Block : textract.Block
  Confidence : Option Float64
  RowIndex : Option Int
  ColumnIndex : Option Int
  RowSpan : Option Int
  ColumnSpan : Option Int
  Geometry : Geometry
  Id : Option String
  Content : List Item
  Text : String
deriving DecidableEq, Repr

/-- Body of the inner loop of `NewCell`; the state is `(content, text)`. -/
def NewCell.idStep (blockMap : BlockMap) (st : List Item × String) (cid : Option String) :
    Option (List Item × String) := do
  let c ← cid
  match blockMap.lookup c with
  | some b =>
    let bt ← b.BlockType
    if bt = "WORD" then
      let w ← NewWord b
      let txt ← w.Text
      pure (st.1 ++ [Item.word w], st.2 ++ txt ++ " ")
    else if bt = "SELECTION_ELEMENT" then
      let se ← NewSelectionElement b
      let status ← se.SelectionStatus
      pure (st.1 ++ [Item.selection se], st.2 ++ status ++ ", ")
    else pure st
  | none => pure st

/-- Body of the outer loop of `NewCell`. -/
def NewCell.relStep (blockMap : BlockMap) (st : List Item × String)
    (item : textract.Relationship) : Option (List Item × String) := do
  let ty ← item.Type_
  if ty = "CHILD" then item.Ids.foldlM (NewCell.idStep blockMap) st
  else pure st

/-- Go function `NewCell`. -/
def NewCell (block : textract.Block) (blockMap : BlockMap) : Option Cell := do
  let st ← block.Relationships.foldlM (NewCell.relStep blockMap) ([], "")
  let g ← NewGeometry block.Geometry
  pure { Block := block, Confidence := block.Confidence, RowIndex := block.RowIndex,
         ColumnIndex := block.ColumnIndex, RowSpan := block.RowSpan,
         ColumnSpan := block.ColumnSpan, Geometry := g, Id := block.Id,
         Content := st.1, Text := st.2 }

/-- Go type `Row`. -/
structure Row where
  Cells : List Cell
deriving DecidableEq, Repr

/-- Go function `NewRow`. -/
def NewRow : Row := { Cells := [] }

/-- Go type `Table`. -/
structure Table where
  Block : textract.Block
  Confidence : Option Float64
  Geometry : Geometry
  Id : Option String
  Rows : List Row
deriving DecidableEq, Repr

/-- The local state of `NewTable` while it runs.

`table.Rows` holds pointers to rows, and the row that `row` points to is still
written (`row.Cells = append(row.Cells, cell)`) after the end of a `CHILD`
relationship has appended the pointer to `table.Rows`, so every copy of that pointer
shows the cells added later. The pointers to the open row are always the last entries of
`table.Rows`: `closed` is the entries before them (rows that are no longer written),
`pending` is how many entries point to the open row, `row` is the open row and `ri` the
current row index. -/
structure NewTable.State where
  closed : List Row
  pending : Nat
  row : Row
  ri : Int
deriving DecidableEq, Repr

/-- The value of `table.Rows` seen through the pointers. -/
def NewTable.State.Rows (st : NewTable.State) : List Row :=
  st.closed ++ List.replicate st.pending st.row

/-- Body of the inner loop of `NewTable`, over the identifiers of one relationship. -/
def NewTable.idStep (blockMap : BlockMap) (st : NewTable.State) (cid : Option String) :
    Option NewTable.State := do
  let c ← cid
  match blockMap.lookup c with
  | some b =>
    let cell ← NewCell b blockMap
    let rowIndex ← cell.RowIndex
    let st1 : NewTable.State :=
      if rowIndex > st.ri then
        { closed := st.closed ++ List.replicate (st.pending + 1) st.row, pending := 0,
          row := NewRow, ri := rowIndex }
      else st
    pure { st1 with row := { Cells := st1.row.Cells ++ [cell] } }
  | none => pure st

/-- Body of the outer loop of `NewTable`. The test `row != nil && row.Cells != nil`
always holds (`NewRow` makes `Cells` with `make`), so the end of each `CHILD` relationship
appends the pointer to the open row. -/
def NewTable.relStep (blockMap : BlockMap) (st : NewTable.State)
    (rs : textract.Relationship) : Option NewTable.State := do
  let ty ← rs.Type_
  if ty = "CHILD" then
    let st1 ← rs.Ids.foldlM (NewTable.idStep blockMap) st
    pure { st1 with pending := st1.pending + 1 }
  else pure st

/-- Go function `NewTable`. -/
def NewTable (block : textract.Block) (blockMap : BlockMap) : Option Table := do
  let g ← NewGeometry block.Geometry
  let st ← block.Relationships.foldlM (NewTable.relStep blockMap)
    { closed := [], pending := 0, row := NewRow, ri := 1 }
  pure { Block := block, Confidence := block.Confidence, Geometry := g, Id := block.Id,
         Rows := st.Rows }

/-- An element of `Page.Content` (`[]interface{}`): a `*Line`, a `*Table` or a `*Field`. -/
inductive PageContent where
  | line (l : Line)
  | table (t : Table)
  | field (f : Field)
deriving DecidableEq, Repr

/-- Go type `Page`. -/
structure Page where
  Blocks : List textract.Block
  Text : String
  Lines : List Line
  Form : Form
  Tables : List Table
  Content : List PageContent
  Geometry : Option Geometry
  Id : Option String
deriving DecidableEq, Repr

/-- Body of the loop of `Page.parse`. -/
def Page.parseStep (blockMap : BlockMap) (p : Page) (item : textract.Block) : Option Page := do
  let bt ← item.BlockType
  if bt = "PAGE" then
    let g ← NewGeometry item.Geometry
    pure { p with Geometry := some g, Id := item.Id }
  else if bt = "LINE" then
    let l ← NewLine item blockMap
    let txt ← l.Text
    pure { p with Lines := p.Lines ++ [l], Content := p.Content ++ [PageContent.line l],
                  Text := p.Text ++ txt ++ "\n" }
  else if bt = "TABLE" then
    let t ← NewTable item blockMap
    pure { p with Tables := p.Tables ++ [t], Content := p.Content ++ [PageContent.table t] }
  else if bt = "KEY_VALUE_SET" then
    let isKey ← refsContainValue item.EntityTypes "KEY"
    if isKey then
      let f ← NewField item blockMap
      if f.Key.isSome then
        let form ← p.Form.AddField f
        pure { p with Form := form, Content := p.Content ++ [PageContent.field f] }
      else pure p
    else pure p
  else pure p

/-- Go method `Page.parse`. -/
def Page.parse (p : Page) (blockMap : BlockMap) : Option Page :=
  p.Blocks.foldlM (Page.parseStep blockMap) p

/-- Go function `NewPage`. -/
def NewPage (blocks : List textract.Block) (blockMap : BlockMap) : Option Page :=
  Page.parse { Blocks := blocks, Text := "", Lines := [], Form := NewForm, Tables := [],
               Content := [], Geometry := none, Id := none } blockMap

/-- The local state of `parseDocumentPagesAndBlockMap`. -/
structure ParseState where
  blockMap : BlockMap
  documentPages : List (List textract.Block)
  documentPage : List textract.Block
deriving DecidableEq, Repr

/-- Body of the inner loop of `parseDocumentPagesAndBlockMap`. -/
def parseDocumentPagesAndBlockMap.step (st : ParseState) (block : textract.Block) :
    Option ParseState := do
  let blockMap :=
    match block.BlockType, block.Id with
    | some _, some id => (id, block) :: st.blockMap
    | _, _ => st.blockMap
  let bt ← block.BlockType
  if bt = "PAGE" then
    let documentPages :=
      if st.documentPage.length > 0 then st.documentPages ++ [st.documentPage]
      else st.documentPages
    pure { blockMap := blockMap, documentPages := documentPages, documentPage := [block] }
  else
    pure { blockMap := blockMap, documentPages := st.documentPages,
           documentPage := st.documentPage ++ [block] }

/-- Go method `Document.parseDocumentPagesAndBlockMap`, as a function of
`d.ResponsePages`. -/
def parseDocumentPagesAndBlockMap (responsePages : List textract.AnalyzeDocumentOutput) :
    Option (List (List textract.Block) × BlockMap) := do
  let st ← responsePages.foldlM
    (fun st page => page.Blocks.foldlM parseDocumentPagesAndBlockMap.step st)
    { blockMap := [], documentPages := [], documentPage := [] }
  let documentPages :=
    if st.documentPage.length > 0 then st.documentPages ++ [st.documentPage]
    else st.documentPages
  pure (documentPages, st.blockMap)

/-- Go type `Document`. -/
structure Document where
  ResponsePages : List textract.AnalyzeDocumentOutput
  Pages : List Page
  ResponseDocumentPages : List (List textract.Block)
  BlockMap : BlockMap
deriving DecidableEq, Repr

/-- Go function `NewDocument`. -/
def NewDocument (response : textract.AnalyzeDocumentOutput) : Option Document := do
  let responsePages := [response]
  let (documentPages, blockMap) ← parseDocumentPagesAndBlockMap responsePages
  let pages ← documentPages.foldlM
    (fun pages documentPage => do
      let page ← NewPage documentPage blockMap
      pure (pages ++ [page])) []
  pure { ResponsePages := responsePages, Pages := pages,
         ResponseDocumentPages := documentPages, BlockMap := blockMap }

end textractparser

/-! ## The storage collaborator (`src/awshelper/s3helper.go`) -/

namespace awshelper

/-- What a write hands to the store. The bytes that `json.Marshal` returns are kept as the
value it serialises, and the CSV writers as the rows they encode. -/
inductive Body where
  | text (content : String)
  | blocksJson (blocks : List textract.Block)
  | responseJson (response : textract.AnalyzeDocumentOutput)
  | csv (fieldNames : List String) (csvData : List (List String))
  | csvRaw (csvData : List (List String))
deriving DecidableEq, Repr

/-- One `PutObject` request. -/
structure PutObject where
  body : Body
  bucketName : String
  s3FileName : String
  tagging : Option String
deriving DecidableEq, Repr

/-- Go type `S3Helper` with the store behind it: `respond` is the error (or `none`) the
store answers to a request after the requests in `calls`, and `calls` is the requests
issued so far. -/
structure S3Helper where
  respond : List PutObject → PutObject → Option String
  calls : List PutObject

/-- Issue one request: its error, and the helper with the request recorded. -/
def S3Helper.put (s : S3Helper) (c : PutObject) : Option String × S3Helper :=
  (s.respond s.calls c, { s with calls := s.calls ++ [c] })

/-- Go method `S3Helper.WriteToS3`. -/
def S3Helper.WriteToS3 (s : S3Helper) (content : Body) (bucketName s3FileName : String)
    (taggingStr : Option String) : Option String × S3Helper :=
  s.put { body := content, bucketName := bucketName, s3FileName := s3FileName,
          tagging := taggingStr }

/-- Go method `S3Helper.WriteCSV`: the header row and the data rows, encoded as CSV, in
one request without tags. -/
def S3Helper.WriteCSV (s : S3Helper) (fieldNames : List String) (csvData : List (List String))
    (bucketName s3FileName : String) : Option String × S3Helper :=
  s.WriteToS3 (Body.csv fieldNames csvData) bucketName s3FileName none

/-- Go method `S3Helper.WriteCSVRaw`: the rows, encoded as CSV, in one request without
tags. -/
def S3Helper.WriteCSVRaw (s : S3Helper) (csvData : List (List String))
    (bucketName s3FileName : String) : Option String × S3Helper :=
  s.WriteToS3 (Body.csvRaw csvData) bucketName s3FileName none

end awshelper

/-! ## `encoding/json` -/

namespace json

/-- Go's `json.Marshal` on the two kinds of value that the writer serialises: the error it
returns, `none` when it returns the bytes. Which values it refuses is left open; the bytes
it returns are kept as the value serialised (`awshelper.Body`). -/
structure Marshal where
  blocks : List textract.Block → Option String
  response : textract.AnalyzeDocumentOutput → Option String

end json

/-! ## `textract_writer.go` -/

namespace textractparser

/-- Go type `OutputGenerator`. -/
structure OutputGenerator where
  s3 : awshelper.S3Helper
  Response : textract.AnalyzeDocumentOutput
  DocumentId : String
  BucketName : String
  ObjectName : String
  IsForms : Bool
  IsTables : Bool
  OutputPath : String
  Document : Document

/-- Go function `NewOutputGenerator`. -/
def NewOutputGenerator (s3 : awshelper.S3Helper) (response : textract.AnalyzeDocumentOutput)
    (documentId bucketName objectName : String) (isForms isTables : Bool) :
    Option OutputGenerator := do
  let outputPath := objectName ++ "/ocr-analysis"
  let document ← NewDocument response
  pure { s3 := s3, Response := response, DocumentId := documentId, BucketName := bucketName,
         ObjectName := objectName, IsForms := isForms, IsTables := isTables,
         OutputPath := outputPath, Document := document }

/-- Go method `OutputGenerator.OutputText`: the returned pair `(string, error)` and the
helper after the call. -/
def OutputGenerator.OutputText (o : OutputGenerator) (page : Page) (p : Int) (noWrite : Bool) :
    (String × Option String) × awshelper.S3Helper :=
  let text := page.Text
  if noWrite then ((text, none), o.s3)
  else
    let opath := o.OutputPath ++ "/page-" ++ toString p ++ "/text.txt"
    match o.s3.WriteToS3 (awshelper.Body.text text) o.BucketName opath none with
    | (some err, s3) => (("", some err), s3)
    | (none, s3) => (("", none), s3)

/-- The row of `OutputForm` for one field; a nil key or value gives the empty string. -/
def OutputGenerator.OutputForm.csvItem (field : Field) : List String :=
  let csvItem : List String := []
  let csvItem :=
    match field.Key with
    | some k => csvItem ++ [k.Text]
    | none => csvItem ++ [""]
  match field.Value with
  | some v => csvItem ++ [v.Text]
  | none => csvItem ++ [""]

/-- Go method `OutputGenerator.OutputForm`: the returned pair `([][]string, error)`, a nil
slice being the empty list, and the helper after the call. -/
def OutputGenerator.OutputForm (o : OutputGenerator) (page : Page) (p : Int) (noWrite : Bool) :
    (List (List String) × Option String) × awshelper.S3Helper :=
  let csvData := page.Form.Fields.foldl
    (fun csvData field => csvData ++ [OutputGenerator.OutputForm.csvItem field]) []
  if noWrite then ((csvData, none), o.s3)
  else
    let csvFieldNames := ["Key", "Value"]
    let opath := o.OutputPath ++ "/page-" ++ toString p ++ "/forms.csv"
    match o.s3.WriteCSV csvFieldNames csvData o.BucketName opath with
    | (some err, s3) => (([], some err), s3)
    | (none, s3) => (([], none), s3)

/-- Body of the loop of `OutputTable` over the tables of the page. -/
def OutputGenerator.OutputTable.tableStep (csvData : List (List String)) (table : Table) :
    List (List String) :=
  let csvData := csvData ++ [["Table"]]
  let csvData := table.Rows.foldl
    (fun csvData row =>
      csvData ++ [row.Cells.foldl (fun csvRow cell => csvRow ++ [cell.Text]) []]) csvData
  let csvData := csvData ++ [[]]
  csvData ++ [[]]

/-- Go method `OutputGenerator.OutputTable`. -/
def OutputGenerator.OutputTable (o : OutputGenerator) (page : Page) (p : Int) (noWrite : Bool) :
    (List (List String) × Option String) × awshelper.S3Helper :=
  let csvData := page.Tables.foldl OutputGenerator.OutputTable.tableStep []
  if noWrite then ((csvData, none), o.s3)
  else
    let opath := o.OutputPath ++ "/page-" ++ toString p ++ "/tables.csv"
    match o.s3.WriteCSVRaw csvData o.BucketName opath with
    | (some err, s3) => (([], some err), s3)
    | (none, s3) => (([], none), s3)

/-- The Go idiom `if err != nil { return err }`: go on with `next` unless the step
returned an error. -/
def orReturn (r : Option String × awshelper.S3Helper)
    (next : awshelper.S3Helper → Option String × awshelper.S3Helper) :
    Option String × awshelper.S3Helper :=
  match r with
  | (some err, s3) => (some err, s3)
  | (none, s3) => next s3

/-- Body of the loop of `WriteTextractOutputs` for the page `page` with number `p`, from
the helper `s3` on: the error it returns with, if any, and the helper after it. An error
of `json.Marshal` on the blocks of the page is returned before any request for the page. -/
def OutputGenerator.WriteTextractOutputs.pageStep (marshal : json.Marshal)
    (o : OutputGenerator) (taggingStr : Option String) (s3 : awshelper.S3Helper) (page : Page)
    (p : Int) : Option String × awshelper.S3Helper :=
  let opath := o.OutputPath ++ "/page-" ++ toString p ++ "/response.json"
  orReturn (marshal.blocks page.Blocks, s3) fun s3 =>
  orReturn (s3.WriteToS3 (awshelper.Body.blocksJson page.Blocks) o.BucketName opath taggingStr)
    fun s3 =>
  let r := OutputGenerator.OutputText { o with s3 := s3 } page p false
  orReturn (r.1.2, r.2) fun s3 =>
  orReturn
    (if o.IsForms then
      let r := OutputGenerator.OutputForm { o with s3 := s3 } page p false
      (r.1.2, r.2)
    else (none, s3)) fun s3 =>
  orReturn
    (if o.IsTables then
      let r := OutputGenerator.OutputTable { o with s3 := s3 } page p false
      (r.1.2, r.2)
    else (none, s3)) fun s3 =>
  (none, s3)

/-- The loop of `WriteTextractOutputs` over the pages, `p` counting from the given number;
it stops at the first error. -/
def OutputGenerator.WriteTextractOutputs.pages (marshal : json.Marshal) (o : OutputGenerator)
    (taggingStr : Option String) : List Page → Int → awshelper.S3Helper →
    Option String × awshelper.S3Helper
  | [], _, s3 => (none, s3)
  | page :: rest, p, s3 =>
    orReturn (OutputGenerator.WriteTextractOutputs.pageStep marshal o taggingStr s3 page p)
      fun s3 =>
    OutputGenerator.WriteTextractOutputs.pages marshal o taggingStr rest (p + 1) s3

/-- Go method `OutputGenerator.WriteTextractOutputs`: the returned error and the helper
after the call. An error of `json.Marshal` on the response is returned before the request
for the whole response. -/
def OutputGenerator.WriteTextractOutputs (marshal : json.Marshal) (o : OutputGenerator)
    (taggingStr : Option String) : Option String × awshelper.S3Helper :=
  if o.Document.Pages.length = 0 then
    (some ("no pages found in document " ++ o.DocumentId), o.s3)
  else
    orReturn
      (OutputGenerator.WriteTextractOutputs.pages marshal o taggingStr o.Document.Pages 1 o.s3)
      fun s3 =>
    orReturn (marshal.response o.Response, s3) fun s3 =>
    let opath := o.OutputPath ++ "/fullresponse.json"
    orReturn (s3.WriteToS3 (awshelper.Body.responseJson o.Response) o.BucketName opath taggingStr)
      fun s3 =>
    (none, s3)

end textractparser

/-! ## The text chunker and the object name parser
(`src/lambda/comprehend_processor/comprehend_processor.go`) -/

namespace strings

/-- Loop of Go's `strings.Split` for a separator that is not empty, over the characters
still to read: `skip` is how many of them belong to a separator already found, and `cur`
is the piece read since the last separator. The separators taken are the leftmost ones
that do not overlap. -/
def Split.go (sep : List Char) : List Char → Nat → List Char → List (List Char)
  | [], _, cur => [cur]
  | _ :: cs, skip + 1, cur => Split.go sep cs skip cur
  | c :: cs, 0, cur =>
    if sep.isPrefixOf (c :: cs) then cur :: Split.go sep cs (sep.length - 1) []
    else Split.go sep cs 0 (cur ++ [c])

/-- Go's `strings.Split(s, sep)` for a separator that is not empty: the pieces of `s`
between the occurrences of `sep`, one piece (`s` itself) when `sep` does not occur. -/
def Split (s sep : String) : List String :=
  (Split.go sep.data s.data 0 []).map String.mk

/-- Go's `strings.Join(elems, sep)`: the elements in order with `sep` between them. -/
def Join : List String → String → String
  | [], _ => ""
  | [a], _ => a
  | a :: b :: rest, sep => a ++ sep ++ Join (b :: rest) sep

end strings

namespace comprehend_processor

/-- A byte of a Go string. `len`, indexing and slicing of a Go string count bytes, so the
function that slices its text at byte offsets takes the text as its bytes. -/
abbrev byte := Fin 256

/-- Go constant `COMPREHEND_CHARACTER_LIMIT`. -/
def COMPREHEND_CHARACTER_LIMIT : Nat := 4096

/-- Go method `handler.dissectObjectName`. An index expression on a slice faults when the
index is out of range, hence the `Option`. -/
def dissectObjectName (objectName : String) : Option (String × String) := do
  let objectParts := strings.Split objectName "/ocr-analysis/"
  let objectPart ← objectParts[0]?
  let objectPath := strings.Split objectPart "/"
  let documentId ← objectPath[0]?
  let documentName := strings.Join (objectPath.drop 1) "/"
  pure (documentId, documentName)

/-- The inner loop of `chunkUpTheText`,
`for text[indexSnip:indexSnip+1] != " " { indexSnip += 1 }`, its first argument being
`text[indexSnip:]`: the slice expression faults when that is empty (then `indexSnip+1`
is above `len(text)`), and the loop ends when its first byte is a space. The result is the
final `indexSnip`. -/
def chunkUpTheText.scan : List byte → Nat → Option Nat
  | [], _ => none
  | c :: rest, indexSnip =>
    if c = 32 then some indexSnip else chunkUpTheText.scan rest (indexSnip + 1)

/-- The outer loop of `chunkUpTheText`, from the chunks collected so far and the text that
remains. It ends because every iteration cuts at an offset of at least
`COMPREHEND_CHARACTER_LIMIT`. -/
def chunkUpTheText.loop (chunksOfText : List (List byte)) (text : List byte) :
    Option (List (List byte)) :=
  if text.length > COMPREHEND_CHARACTER_LIMIT then
    match hs : chunkUpTheText.scan (text.drop COMPREHEND_CHARACTER_LIMIT)
        COMPREHEND_CHARACTER_LIMIT with
    | none => none
    | some indexSnip =>
      chunkUpTheText.loop (chunksOfText ++ [text.take indexSnip]) (text.drop indexSnip)
  else some (chunksOfText ++ [text])
termination_by text.length
decreasing_by
  have hge : ∀ (l : List byte) (i j : Nat), chunkUpTheText.scan l i = some j → i ≤ j := by
    intro l
    induction l with
    | nil => intro i j h; simp [chunkUpTheText.scan] at h
    | cons c rest ih =>
      intro i j h
      by_cases hc : c = 32
      · simp [chunkUpTheText.scan, hc] at h; omega
      · simp only [chunkUpTheText.scan, hc, if_false] at h
        have := ih (i + 1) j h
        omega
  have h1 := hge _ _ _ hs
  have h2 : text.length > COMPREHEND_CHARACTER_LIMIT := by assumption
  simp only [COMPREHEND_CHARACTER_LIMIT] at h1 h2
  simp only [List.length_drop]
  omega

/-- Go method `handler.chunkUpTheText`. -/
def chunkUpTheText (text : List byte) : Option (List (List byte)) :=
  chunkUpTheText.loop [] text

end comprehend_processor

/-! ## Definitions used to state the properties -/

namespace textractparser
open textract

/-- A `PAGE` block is found in a group at its head only. -/
def PageOnlyAtHead (g : List Block) : Prop := ∀ b ∈ g.tail, b.BlockType ≠ some "PAGE"

/-- Invariant of the loop of `parseDocumentPagesAndBlockMap` after the blocks `seen`. -/
structure ParseInv (st : ParseState) (seen : List Block) : Prop where
  joined : st.documentPages.flatten ++ st.documentPage = seen
  nonempty : ∀ g ∈ st.documentPages, g ≠ []
  closedHead : ∀ g ∈ st.documentPages, PageOnlyAtHead g
  openHead : PageOnlyAtHead st.documentPage

/-- What one block of a page group contributes to the page. -/
inductive Contribution where
  | page (g : Geometry) (id : Option String)
  | line (l : Line) (txt : String)
  | table (t : Table)
  | field (f : Field) (k : FieldKey)
  | nothing

/-- The contribution of a block, by the same dispatch as `Page.parseStep`. -/
def contribution (m : BlockMap) (item : Block) : Option Contribution :=
  match item.BlockType with
  | none => none
  | some bt =>
    if bt = "PAGE" then (NewGeometry item.Geometry).map fun g => Contribution.page g item.Id
    else if bt = "LINE" then
      (NewLine item m).bind fun l => l.Text.map fun txt => Contribution.line l txt
    else if bt = "TABLE" then (NewTable item m).map Contribution.table
    else if bt = "KEY_VALUE_SET" then
      (refsContainValue item.EntityTypes "KEY").bind fun isKey =>
        if isKey then
          (NewField item m).map fun f =>
            match f.Key with
            | some k => Contribution.field f k
            | none => Contribution.nothing
        else some Contribution.nothing
    else some Contribution.nothing

/-- The page after a contribution. -/
def Contribution.apply (p : Page) : Contribution → Page
  | .page g id => { p with Geometry := some g, Id := id }
  | .line l txt => { p with Lines := p.Lines ++ [l], Content := p.Content ++ [PageContent.line l],
                            Text := p.Text ++ txt ++ "\n" }
  | .table t => { p with Tables := p.Tables ++ [t], Content := p.Content ++ [PageContent.table t] }
  | .field f k =>
    { p with Form := { Fields := p.Form.Fields ++ [f], FieldsMap := (k.Text, f) :: p.Form.FieldsMap },
             Content := p.Content ++ [PageContent.field f] }
  | .nothing => p

/-- The blocks that the identifiers resolve to in the index, in the order of the
identifiers; an identifier absent from the index resolves to nothing. -/
def resolve (m : BlockMap) (ids : List (Option String)) : List Block :=
  ids.filterMap fun cid => cid.bind fun c => m.lookup c

/-- The block is of the given kind. -/
def isKind (kind : String) (b : Block) : Bool := b.BlockType == some kind

/-- The relationship is of the given type. -/
def isRel (ty : String) (rs : Relationship) : Bool := rs.Type_ == some ty

/-- The identifiers of all `CHILD` relationships of a block, in relationship order. -/
def childIds (b : Block) : List (Option String) :=
  (b.Relationships.filter (isRel "CHILD")).flatMap fun rs => rs.Ids

/-- The block has a geometry with a bounding box. -/
abbrev HasBoundingBox (b : Block) : Prop :=
  (b.Geometry.bind fun g => g.BoundingBox).isSome = true

/-- No point of the polygon of the block is nil. -/
abbrev PolygonOk (b : Block) : Prop :=
  ∀ pg ∈ (b.Geometry.map fun g => g.Polygon).getD [], pg.isSome = true

/-- The block has a geometry that `NewGeometry` reads: a bounding box, and polygon points
that are not nil. -/
abbrev HasBox (b : Block) : Prop := HasBoundingBox b ∧ PolygonOk b

/-- Every relationship of the block has a type and its identifiers are not nil. -/
abbrev RelsOk (b : Block) : Prop :=
  ∀ rs ∈ b.Relationships, rs.Type_.isSome = true ∧ ∀ cid ∈ rs.Ids, cid.isSome = true

/-- A block as the documented input has it: a kind, a geometry with a bounding box and
polygon points that are not nil, relationships with a type and identifiers, entity types
that are not nil, a text when it is a `WORD` or a `LINE`, and a selection status when it is
a `SELECTION_ELEMENT`. -/
abbrev BlockOk (b : Block) : Prop :=
  b.BlockType.isSome = true ∧ HasBox b ∧ RelsOk b ∧
  (∀ e ∈ b.EntityTypes, e.isSome = true) ∧
  (b.BlockType = some "WORD" → b.Text.isSome = true) ∧
  (b.BlockType = some "LINE" → b.Text.isSome = true) ∧
  (b.BlockType = some "SELECTION_ELEMENT" → b.SelectionStatus.isSome = true)

/-- Every block of the index is well formed. -/
abbrev IndexOk (m : BlockMap) : Prop := ∀ kv ∈ m, BlockOk kv.2

/-- Every block of the index has a kind and a geometry with a bounding box and polygon
points that are not nil, as the documented input shape requires of every block. -/
abbrev IndexShapeOk (m : BlockMap) : Prop :=
  ∀ kv ∈ m, kv.2.BlockType.isSome = true ∧ HasBox kv.2

/-- The block is a `WORD` or a `SELECTION_ELEMENT`. -/
def isItemKind (b : Block) : Bool := isKind "WORD" b || isKind "SELECTION_ELEMENT" b

/-- The content item built from a `WORD` or `SELECTION_ELEMENT` block. -/
def buildItem (b : Block) : Option Item :=
  if isKind "WORD" b then (NewWord b).map Item.word
  else (NewSelectionElement b).map Item.selection

/-- What a content item contributes to a derived text: a word its text, a selection
element its selection status. -/
def Item.text : Item → Option String
  | Item.word w => w.Text
  | Item.selection se => se.SelectionStatus

/-- The state of `NewTable` before the first relationship. -/
def NewTable.init : NewTable.State := { closed := [], pending := 0, row := NewRow, ri := 1 }

/-- Every cell of the first row has a smaller row index than every cell of the second. -/
def RowBefore (r1 r2 : Row) : Prop :=
  ∀ c1 ∈ r1.Cells, ∀ c2 ∈ r2.Cells,
    ∃ i j : Int, c1.RowIndex = some i ∧ c2.RowIndex = some j ∧ i < j

/-- All cells of the row have the row index `i`. -/
def RowAt (i : Int) (r : Row) : Prop := ∀ c ∈ r.Cells, c.RowIndex = some i

/-- Invariant of the loop of `NewTable` over the cells of a single `CHILD` relationship
whose row indices do not decrease. -/
structure RowsInv (st : NewTable.State) : Prop where
  pending : st.pending = 0
  nonempty : ∀ row ∈ st.closed, row.Cells ≠ []
  closedAt : ∀ row ∈ st.closed, ∃ i, i < st.ri ∧ RowAt i row
  increasing : st.closed.Pairwise RowBefore
  openAt : RowAt st.ri st.row

/-- The identifier list without the identifier `x`. -/
def eraseId (x : String) (ids : List (Option String)) : List (Option String) :=
  ids.filter fun cid => cid != some x

/-- The relationship with `x` deleted from its identifiers. -/
def eraseRelId (x : String) (rs : Relationship) : Relationship :=
  { rs with Ids := eraseId x rs.Ids }

/-- The block with `x` deleted from the identifier list of every relationship. -/
def eraseBlockId (x : String) (b : Block) : Block :=
  { b with Relationships := b.Relationships.map (eraseRelId x) }

/-- The block carries the entity role. -/
def hasRole (role : String) (b : Block) : Bool := b.EntityTypes.contains (some role)

/-- The block has a relationship of type `CHILD`. -/
def hasChildRel (b : Block) : Bool := b.Relationships.any (isRel "CHILD")

/-- The source blocks of the form fields of a page: the `KEY_VALUE_SET` blocks with the
`KEY` role, those without a `CHILD` relationship (whose field has no key) left out. -/
def isFieldSource (b : Block) : Bool :=
  isKind "KEY_VALUE_SET" b && hasRole "KEY" b && hasChildRel b

/-- The source blocks of `Page.Content`. -/
def isContentSource (b : Block) : Bool :=
  isKind "LINE" b || isKind "TABLE" b || isFieldSource b

/-- The content element built from a source block: the `Line` of a `LINE` block, the
`Table` of a `TABLE` block, the `Field` of another block. -/
def buildContent (m : BlockMap) (b : Block) : Option PageContent :=
  if isKind "LINE" b then (NewLine b m).map PageContent.line
  else if isKind "TABLE" b then (NewTable b m).map PageContent.table
  else (NewField b m).map PageContent.field

/-- The entry of `FieldsMap` that a field is stored under. -/
def fieldEntry (f : Field) : Option (String × Field) := f.Key.map fun k => (k.Text, f)

/-- The input of `NewPage` as the documented input has it: well-formed blocks and index,
and a row index on every block that a `CHILD` relationship of a `TABLE` resolves to. -/
abbrev PageInputOk (blocks : List Block) (m : BlockMap) : Prop :=
  (∀ b ∈ blocks, BlockOk b) ∧ IndexOk m ∧
  ∀ b ∈ blocks, isKind "TABLE" b = true → ∀ rs ∈ b.Relationships,
    isRel "CHILD" rs = true → ∀ v ∈ resolve m rs.Ids, v.RowIndex.isSome = true

/-! ### Sample inputs -/

namespace Example

/-- A geometry with a bounding box and two polygon points. -/
def box : textract.Geometry :=
  { BoundingBox := some { Height := none, Left := none, Top := none, Width := none },
    Polygon := [some { X := some 0, Y := some 0 }, some { X := some 1, Y := some 1 }] }

/-- A block of the given kind and identifier. -/
def block (kind id : String) : Block :=
  { BlockType := some kind, Id := some id, Geometry := some box }

/-- A `WORD` block. -/
def word (id text : String) : Block := { block "WORD" id with Text := some text }

/-- A `LINE` block with child identifiers. -/
def line (id text : String) (children : List String) : Block :=
  { block "LINE" id with
    Text := some text, Relationships := [{ Ids := children.map some, Type_ := some "CHILD" }] }

/-- A `SELECTION_ELEMENT` block. -/
def selection (id status : String) : Block :=
  { block "SELECTION_ELEMENT" id with SelectionStatus := some status }

/-- A `CHILD` relationship. -/
def child (ids : List String) : Relationship := { Ids := ids.map some, Type_ := some "CHILD" }

/-- A `VALUE` relationship. -/
def value (ids : List String) : Relationship := { Ids := ids.map some, Type_ := some "VALUE" }

/-- A `KEY_VALUE_SET` block with the given role and relationships. -/
def keyValueSet (id role : String) (rels : List Relationship) : Block :=
  { block "KEY_VALUE_SET" id with EntityTypes := [some role], Relationships := rels }

/-- A `CELL` block at a row and column, with spans and child identifiers. -/
def cell (id : String) (row col rowSpan colSpan : Int) (children : List String) : Block :=
  { block "CELL" id with
    RowIndex := some row, ColumnIndex := some col, RowSpan := some rowSpan,
    ColumnSpan := some colSpan, Relationships := [child children] }

/-- A `TABLE` block with one `CHILD` relationship. -/
def table (id : String) (cells : List String) : Block :=
  { block "TABLE" id with Relationships := [child cells] }

/-- The index of a block list: every block under its identifier. -/
def index (blocks : List Block) : BlockMap :=
  blocks.filterMap fun b => b.Id.map fun id => (id, b)

/-- A response with a block before the first `PAGE` block and two pages. -/
def twoPages : AnalyzeDocumentOutput :=
  { Blocks := [line "l0" "stray" [], block "PAGE" "p1", line "l1" "one" [],
               block "PAGE" "p2", line "l2" "two" []] }

/-- A page group: a `PAGE` block and two lines. -/
def helloWorld : List Block := [block "PAGE" "p1", line "l1" "Hello" [], line "l2" "World" []]

/-- The blocks of a form field: key words, the key, the value and its word. -/
def nameField : List Block :=
  [word "w1" "First", word "w2" "Name", word "w3" "Jane",
   keyValueSet "k1" "KEY" [child ["w1", "w2"], value ["v1"]],
   keyValueSet "v1" "VALUE" [child ["w3"]]]

/-- The key block of `nameField`. -/
def nameKey : Block := keyValueSet "k1" "KEY" [child ["w1", "w2"], value ["v1"]]

/-- The value block of `nameField`. -/
def nameValue : Block := keyValueSet "v1" "VALUE" [child ["w3"]]

/-- The blocks of a check box field: the key word, the key, the value and its selection
element. -/
def checkField : List Block :=
  [word "w1" "Agree", selection "s1" "SELECTED",
   keyValueSet "k1" "KEY" [child ["w1"], value ["v1"]],
   keyValueSet "v1" "VALUE" [child ["s1"]]]

/-- The key block of `checkField`. -/
def checkKey : Block := keyValueSet "k1" "KEY" [child ["w1"], value ["v1"]]

/-- The value block of `checkField`. -/
def checkValue : Block := keyValueSet "v1" "VALUE" [child ["s1"]]

/-- A `KEY` block whose `CHILD` relationship has no identifier. -/
def emptyKey : Block := keyValueSet "k1" "KEY" [child []]

/-- A `KEY` block without a `CHILD` relationship. -/
def noKey : Block := keyValueSet "k2" "KEY" [value ["v9"]]

/-- The cells of a two by two table, in row-major order. -/
def gridCells : List Block :=
  [cell "c11" 1 1 1 1 [], cell "c12" 1 2 1 1 [], cell "c21" 2 1 1 1 [], cell "c22" 2 2 1 1 []]

/-- The table of `gridCells`. -/
def grid : Block := table "t1" ["c11", "c12", "c21", "c22"]

/-- Cells out of row order, the first one spanning two rows and two columns. -/
def looseCells : List Block :=
  [cell "a" 2 1 2 2 [], cell "b" 1 1 1 1 [], cell "c" 3 1 1 1 []]

/-- The table of `looseCells`, with a reference that is not in the index. -/
def loose : Block := table "t2" ["a", "ghost", "b", "c"]

/-- A line that refers to a word and to an identifier that is not in the index. -/
def ghostLine : Block := line "l1" "Hello" ["w1", "ghost"]

/-- A page group with a line, a value block, a key block and a table. -/
def mixedPage : List Block :=
  [block "PAGE" "p1", line "l1" "Hello" [], nameValue, nameKey, noKey, grid]

end Example

/-- The field has the key text `k`. -/
def hasKeyText (k : String) (f : Field) : Bool := f.Key.map (fun key => key.Text) == some k

/-- The index entry of a block: the block under its identifier, when it has one. -/
def blockEntry (b : Block) : Option (String × Block) := b.Id.map fun id => (id, b)

/-- The row of the form projection for a field: its key text and its value text, the
empty string standing for a missing key or value. -/
def formRow (f : Field) : List String :=
  [(f.Key.map fun k => k.Text).getD "", (f.Value.map fun v => v.Text).getD ""]

/-- The rows of the table projection for one table: the marker row, one row per table
row with the texts of its cells, and two empty rows. -/
def tableRows (t : Table) : List (List String) :=
  [["Table"]] ++ t.Rows.map (fun row => row.Cells.map fun c => c.Text) ++ [[], []]

/-- The requests that `WriteTextractOutputs` has for the page `page` with number `p`: the
raw block list, the text, the form CSV when `IsForms` is set and the table CSV when
`IsTables` is set. -/
def pageWrites (o : OutputGenerator) (taggingStr : Option String) (page : Page) (p : Int) :
    List awshelper.PutObject :=
  [{ body := awshelper.Body.blocksJson page.Blocks, bucketName := o.BucketName,
     s3FileName := o.OutputPath ++ "/page-" ++ toString p ++ "/response.json",
     tagging := taggingStr },
   { body := awshelper.Body.text page.Text, bucketName := o.BucketName,
     s3FileName := o.OutputPath ++ "/page-" ++ toString p ++ "/text.txt", tagging := none }] ++
  (if o.IsForms then
    [{ body := awshelper.Body.csv ["Key", "Value"] (page.Form.Fields.map formRow),
       bucketName := o.BucketName,
       s3FileName := o.OutputPath ++ "/page-" ++ toString p ++ "/forms.csv", tagging := none }]
   else []) ++
  (if o.IsTables then
    [{ body := awshelper.Body.csvRaw (page.Tables.flatMap tableRows),
       bucketName := o.BucketName,
       s3FileName := o.OutputPath ++ "/page-" ++ toString p ++ "/tables.csv", tagging := none }]
   else [])

/-- The per-page requests for the pages in order, numbered from `p` on. -/
def pagesWrites (o : OutputGenerator) (taggingStr : Option String) :
    List Page → Int → List awshelper.PutObject
  | [], _ => []
  | page :: rest, p => pageWrites o taggingStr page p ++ pagesWrites o taggingStr rest (p + 1)

/-- The request that stores the whole response. -/
def fullWrite (o : OutputGenerator) (taggingStr : Option String) : awshelper.PutObject :=
  { body := awshelper.Body.responseJson o.Response, bucketName := o.BucketName,
    s3FileName := o.OutputPath ++ "/fullresponse.json", tagging := taggingStr }

/-- The requests of the pages that come before the first page whose block list
`json.Marshal` refuses, and the error of that serialisation, `none` when every block list
is serialised. -/
def pagesPlan (marshal : json.Marshal) (o : OutputGenerator) (taggingStr : Option String) :
    List Page → Int → List awshelper.PutObject × Option String
  | [], _ => ([], none)
  | page :: rest, p =>
    match marshal.blocks page.Blocks with
    | some err => ([], some err)
    | none =>
      ((pageWrites o taggingStr page p) ++ (pagesPlan marshal o taggingStr rest (p + 1)).1,
        (pagesPlan marshal o taggingStr rest (p + 1)).2)

/-- The requests that `WriteTextractOutputs` has before the first serialisation that
fails, and the error of that serialisation: all the requests of the pages and the request
for the whole response, and no error, when `json.Marshal` refuses nothing. -/
def writePlan (marshal : json.Marshal) (o : OutputGenerator) (taggingStr : Option String) :
    List awshelper.PutObject × Option String :=
  match (pagesPlan marshal o taggingStr o.Document.Pages 1).2, marshal.response o.Response with
  | some err, _ => ((pagesPlan marshal o taggingStr o.Document.Pages 1).1, some err)
  | none, some err => ((pagesPlan marshal o taggingStr o.Document.Pages 1).1, some err)
  | none, none =>
    ((pagesPlan marshal o taggingStr o.Document.Pages 1).1 ++ [fullWrite o taggingStr], none)

/-- The request writes the whole-response object. -/
def isFullResponse (o : OutputGenerator) (c : awshelper.PutObject) : Prop :=
  c.s3FileName = o.OutputPath ++ "/fullresponse.json"

/-- Issue the requests in order and stop at the first one that fails: the error
returned, if any, and the helper afterwards. -/
def runWrites (s : awshelper.S3Helper) : List awshelper.PutObject →
    Option String × awshelper.S3Helper
  | [] => (none, s)
  | c :: cs => orReturn (s.put c) fun s1 => runWrites s1 cs

/-- Issue the requests of a plan in order, stop at the first one that fails, and return
the error of the plan when none fails. -/
def runPlan (s : awshelper.S3Helper) (plan : List awshelper.PutObject × Option String) :
    Option String × awshelper.S3Helper :=
  orReturn (runWrites s plan.1) fun s1 => (plan.2, s1)

/-- The requests issued by `runWrites`, each with the answer of the store. -/
def traceOf (s : awshelper.S3Helper) : List awshelper.PutObject →
    List (awshelper.PutObject × Option String)
  | [] => []
  | c :: cs =>
    match s.respond s.calls c with
    | some err => [(c, some err)]
    | none => (c, none) :: traceOf (s.put c).2 cs

/-- The answers of the store to a sequence of requests issued one after another. -/
def answers (s : awshelper.S3Helper) : List awshelper.PutObject → List (Option String)
  | [] => []
  | c :: cs => s.respond s.calls c :: answers (s.put c).2 cs

/-- The store accepts every request. -/
def AcceptsAll (s : awshelper.S3Helper) : Prop := ∀ history c, s.respond history c = none

/-- The documented input shape of a block: an identifier, a kind and a geometry (with its
bounding box and polygon points); relationships, when present, have a type and identifiers,
entity roles are not nil; text, confidence, table position and selection status are
optional. -/
abbrev ShapeOk (b : Block) : Prop :=
  b.Id.isSome = true ∧ b.BlockType.isSome = true ∧ HasBox b ∧ RelsOk b ∧
  ∀ e ∈ b.EntityTypes, e.isSome = true

/-- A block list on which the assembly does not fault: well-formed blocks, and a row index
on every block whose identifier a `CHILD` relationship of a `TABLE` block refers to. -/
abbrev DocumentInputOk (blocks : List Block) : Prop :=
  (∀ b ∈ blocks, BlockOk b) ∧
  ∀ b ∈ blocks, isKind "TABLE" b = true → ∀ rs ∈ b.Relationships, isRel "CHILD" rs = true →
    ∀ v ∈ blocks, v.Id ∈ rs.Ids → v.RowIndex.isSome = true

namespace Example

/-- A store that accepts every request. -/
def acceptAll : awshelper.S3Helper := { respond := fun _ _ => none, calls := [] }

/-- A `json.Marshal` that serialises every value. -/
def marshalAll : json.Marshal := { blocks := fun _ => none, response := fun _ => none }

/-- A `json.Marshal` that serialises the block lists and refuses the response. -/
def marshalPages : json.Marshal :=
  { blocks := fun _ => none, response := fun _ => some "json: unsupported value: NaN" }

/-- A store that refuses the second request it gets. -/
def refuseSecond : awshelper.S3Helper :=
  { respond := fun history _ => if history.length = 1 then some "AccessDenied" else none,
    calls := [] }

/-- The document without pages. -/
def emptyDocument : Document :=
  { ResponsePages := [{ Blocks := [] }], Pages := [], ResponseDocumentPages := [],
    BlockMap := [] }

/-- The generator that `NewOutputGenerator` builds for a response, the document being the
empty one when `NewDocument` faults. -/
def generator (s3 : awshelper.S3Helper) (response : AnalyzeDocumentOutput)
    (isForms isTables : Bool) : OutputGenerator :=
  { s3 := s3, Response := response, DocumentId := "doc1", BucketName := "bucket",
    ObjectName := "doc1/scan.png", IsForms := isForms, IsTables := isTables,
    OutputPath := "doc1/scan.png/ocr-analysis",
    Document := (NewDocument response).getD emptyDocument }

/-- The response of `helloWorld`. -/
def helloResponse : AnalyzeDocumentOutput := { Blocks := helloWorld }

/-- A response with a form field and a table on one page. -/
def formResponse : AnalyzeDocumentOutput :=
  { Blocks := [block "PAGE" "p1", line "l1" "Hello" []] ++ nameField ++ [grid] ++ gridCells }

/-- Three fields, the first and the last with the same key text. -/
def sameKeyFields : List Field :=
  [{ Key := NewFieldKey nameKey [some "w1", some "w2"] (index nameField), Value := none },
   { Key := NewFieldKey checkKey [some "w1"] (index checkField),
     Value := NewFieldValue checkValue [some "s1"] (index checkField) },
   { Key := NewFieldKey nameKey [some "w1", some "w2"] (index nameField),
     Value := NewFieldValue nameValue [some "w3"] (index nameField) }]

/-- The page without blocks. -/
def emptyPage : Page :=
  { Blocks := [], Text := "", Lines := [], Form := NewForm, Tables := [], Content := [],
    Geometry := none, Id := none }

/-- The page that `NewPage` builds from the blocks of `formResponse`. -/
def formPage : Page :=
  (NewPage formResponse.Blocks (index formResponse.Blocks)).getD emptyPage

/-- Two responses in which the identifier `w1` is carried by two blocks. -/
def collidingResponses : List AnalyzeDocumentOutput :=
  [{ Blocks := [block "PAGE" "p1", word "w1" "old"] },
   { Blocks := [word "w1" "new", { BlockType := some "WORD" }] }]

/-- A page group whose `LINE` block has an identifier, a kind and a geometry, and no
text. -/
def untextedResponse : AnalyzeDocumentOutput :=
  { Blocks := [block "PAGE" "p1", block "LINE" "l1"] }

/-- A `CELL` block whose children are the words "Hello" and "World". -/
def wordCell : Block := cell "c1" 1 1 1 1 ["w1", "w2"]

/-- The index of the words of `wordCell`. -/
def wordCellIndex : BlockMap := index [word "w1" "Hello", word "w2" "World"]

/-- A key block whose `VALUE` relationship refers to a block that has the `VALUE` role
and is not a `KEY_VALUE_SET` block. -/
def strayKey : Block := keyValueSet "k1" "KEY" [child ["w1"], value ["x1"]]

/-- A `CELL` block with the `VALUE` role and a child word. -/
def roleCell : Block :=
  { block "CELL" "x1" with EntityTypes := [some "VALUE"], Relationships := [child ["w3"]] }

/-- The index of `strayKey`. -/
def strayIndex : BlockMap := index [word "w1" "Name", word "w3" "Jane", roleCell]

/-- A key block whose `VALUE` relationship refers to a block without the `VALUE` role and
to an identifier that is not in the index. -/
def lonelyKey : Block := keyValueSet "k1" "KEY" [child ["w1"], value ["w3", "ghost"]]

end Example

/-- The number of page groups that the grouping rule gives for a block list: one for each
`PAGE` block, and one more when the list is not empty and does not begin with a `PAGE`
block. -/
def expectedPages (blocks : List Block) : Nat :=
  (blocks.filter (isKind "PAGE")).length +
    (match blocks with
     | [] => 0
     | b :: _ => if isKind "PAGE" b then 0 else 1)

/-- Invariant of the loop of `parseDocumentPagesAndBlockMap` for the number of groups: the
closed groups and the open one, when it is not empty, are as many as `expectedPages` of the
blocks seen, and the open group is empty before the first block only. -/
structure CountInv (st : ParseState) (seen : List Block) : Prop where
  atStart : seen = [] → st.documentPages = [] ∧ st.documentPage = []
  later : seen ≠ [] → st.documentPage ≠ []
  count : st.documentPages.length + (if st.documentPage.length > 0 then 1 else 0) =
    expectedPages seen

/-- The block is one that `Page.parse` builds from: a `PAGE`, `LINE` or `TABLE` block, or a
`KEY_VALUE_SET` block with the `KEY` role. -/
def isDispatched (b : Block) : Bool :=
  isKind "PAGE" b || isKind "LINE" b || isKind "TABLE" b ||
    (isKind "KEY_VALUE_SET" b && hasRole "KEY" b)

/-- The row index of a cell that has one. -/
def Cell.rowIndex (c : Cell) : Int := c.RowIndex.getD 0

/-- The state of the reference fold for table rows: the rows appended so far, the open row
and the current row index. -/
structure RowFold where
  rows : List Row
  openRow : Row
  current : Int
deriving DecidableEq, Repr

/-- One step of the reference fold, after the specification: a cell whose row index is
strictly greater than the current index has the open row appended and a new one opened,
the current index becoming the row index of the cell; the cell is then appended to the open
row. -/
def referenceStep (s : RowFold) (c : Cell) : RowFold :=
  let s1 : RowFold :=
    if c.rowIndex > s.current then
      { rows := s.rows ++ [s.openRow], openRow := NewRow, current := c.rowIndex }
    else s
  { s1 with openRow := { Cells := s1.openRow.Cells ++ [c] } }

/-- The reference fold, after the specification: start with the current row index 1 and one
open empty row, take the cells in order, and append the open row at the end. -/
def referenceRows (cells : List Cell) : List Row :=
  let s := cells.foldl referenceStep { rows := [], openRow := NewRow, current := 1 }
  s.rows ++ [s.openRow]

/-- The number of cells that strictly raise the running row index, which is `current`
before the first cell. -/
def raisingCells : Int → List Cell → Nat
  | _, [] => 0
  | current, c :: cs =>
    if c.rowIndex > current then 1 + raisingCells c.rowIndex cs else raisingCells current cs

/-- An identifier is carried by one block of the list. -/
def UniqueIds (blocks : List Block) : Prop :=
  ∀ x ∈ blocks, ∀ y ∈ blocks, x.Id.isSome = true → x.Id = y.Id → x = y

namespace Example

/-- A response of two pages in which the line of the first page refers to a word that
lies in the group of the second page. -/
def crossPages : AnalyzeDocumentOutput :=
  { Blocks := [block "PAGE" "p1", line "l1" "Hello" ["w1"], block "PAGE" "p2",
               word "w1" "Hello"] }

end Example

/-- A block list in which every block has a kind and a geometry with a bounding box, every
relationship a type and identifiers that are not nil, every `LINE` block a text, every
`WORD` block with an identifier a text, every `SELECTION_ELEMENT` block with an identifier a
selection status, and every block whose identifier a `CHILD` relationship of a `TABLE`
block refers to a row index. Entity roles and polygon points are not constrained. -/
abbrev IndexedInputOk (blocks : List Block) : Prop :=
  (∀ b ∈ blocks, b.BlockType.isSome = true ∧ HasBoundingBox b ∧ RelsOk b ∧
    (b.BlockType = some "LINE" → b.Text.isSome = true)) ∧
  (∀ b ∈ blocks, b.Id.isSome = true →
    (b.BlockType = some "WORD" → b.Text.isSome = true) ∧
    (b.BlockType = some "SELECTION_ELEMENT" → b.SelectionStatus.isSome = true)) ∧
  ∀ b ∈ blocks, isKind "TABLE" b = true → ∀ rs ∈ b.Relationships, isRel "CHILD" rs = true →
    ∀ v ∈ blocks, v.Id ∈ rs.Ids → v.RowIndex.isSome = true

/-- No entity role of a block of the list is nil. -/
abbrev RolesOk (blocks : List Block) : Prop :=
  ∀ b ∈ blocks, ∀ e ∈ b.EntityTypes, e.isSome = true

namespace Example

/-- A response whose `PAGE` block has a nil polygon point. -/
def nilPointResponse : AnalyzeDocumentOutput :=
  { Blocks := [{ block "PAGE" "p1" with
                 Geometry := some { box with Polygon := [none] } }] }

/-- A page group with a block that has no kind. -/
def noKindGroup : List Block :=
  [block "PAGE" "p1", line "l1" "Hello" [], { Id := some "x", Geometry := some box }]

/-- A response whose `KEY_VALUE_SET` block has a nil entity role. -/
def nilRoleResponse : AnalyzeDocumentOutput :=
  { Blocks := [block "PAGE" "p1",
               { block "KEY_VALUE_SET" "k1" with EntityTypes := [none] }] }

/-- A response with a line and a word that has no identifier and no text. -/
def looseWordResponse : AnalyzeDocumentOutput :=
  { Blocks := [block "PAGE" "p1", line "l1" "Hello" ["w1"], word "w1" "Hello",
               { BlockType := some "WORD", Geometry := some box }] }

end Example

/-- The line of a content element that is a `*Line`. -/
def PageContent.asLine : PageContent → Option Line
  | .line l => some l
  | _ => none

/-- The table of a content element that is a `*Table`. -/
def PageContent.asTable : PageContent → Option Table
  | .table t => some t
  | _ => none

/-- The field of a content element that is a `*Field`. -/
def PageContent.asField : PageContent → Option Field
  | .field f => some f
  | _ => none

/-- Invariant of the loop of `Page.parse` on the lists of the page. -/
structure PageInv (p : Page) : Prop where
  length : p.Content.length = p.Lines.length + p.Tables.length + p.Form.Fields.length
  lines : p.Lines = p.Content.filterMap PageContent.asLine
  tables : p.Tables = p.Content.filterMap PageContent.asTable
  fields : p.Form.Fields = p.Content.filterMap PageContent.asField
  keys : ∀ f ∈ p.Form.Fields, f.Key.isSome = true
  entries : ∀ k f, (k, f) ∈ p.Form.FieldsMap →
    f ∈ p.Form.Fields ∧ f.Key.map (fun key => key.Text) = some k

/-- The identifiers of all `VALUE` relationships of a block, in relationship order. -/
def valueIds (b : Block) : List (Option String) :=
  (b.Relationships.filter (isRel "VALUE")).flatMap fun rs => rs.Ids

/-- The block is one that `NewField` builds a value from when a `VALUE` relationship refers
to it: it has the `VALUE` role and a `CHILD` relationship. -/
def isValueSource (v : Block) : Bool := hasRole "VALUE" v && hasChildRel v

/-- The blocks that `NewField` builds a value from, in the order it meets them: what the
identifiers of the `VALUE` relationships of the key block resolve to, the blocks without the
`VALUE` role or without a `CHILD` relationship left out. -/
def valueSources (m : BlockMap) (b : Block) : List Block :=
  (resolve m (valueIds b)).filter isValueSource

/-- The identifiers of the last `CHILD` relationship of a block. -/
def lastChildIds (v : Block) : List (Option String) :=
  ((v.Relationships.filter (isRel "CHILD")).getLast?.map fun rs => rs.Ids).getD []

/-- The value after `NewField` has met the value sources `cs`, from the value before: the
same when there is none, and else the value built from the last `CHILD` relationship of the
last one. -/
def ValueFrom (m : BlockMap) (cs : List Block) (value value' : Option FieldValue) : Prop :=
  (cs = [] → value' = value) ∧
  ∀ V, cs.getLast? = some V →
    ∃ val, value' = some val ∧ NewFieldValue V (lastChildIds V) m = some val

namespace Example

/-- A key block whose `VALUE` relationship refers to two value blocks. -/
def twoValueKey : Block := keyValueSet "k1" "KEY" [child ["w1"], value ["v1", "v2"]]

/-- The first value block of `twoValueKey`, with the word "Jane". -/
def janeValue : Block := keyValueSet "v1" "VALUE" [child ["w3"]]

/-- The second value block of `twoValueKey`, with the word "Doe". -/
def doeValue : Block := keyValueSet "v2" "VALUE" [child ["w4"]]

/-- The index of `twoValueKey`. -/
def twoValueIndex : BlockMap :=
  index [word "w1" "Name", word "w3" "Jane", word "w4" "Doe", janeValue, doeValue]

/-- A key block whose `VALUE` relationship refers to an identifier that is not in the index
and then to the value block of `checkField`. -/
def ghostValueKey : Block := keyValueSet "k1" "KEY" [child ["w1"], value ["ghost", "v1"]]

end Example

end textractparser

namespace strings

/-- The text contains the substring, as Go's `strings.Contains(s, substr)` tells. -/
def Contains (s substr : String) : Bool :=
  s.data.tails.any fun t => substr.data.isPrefixOf t

end strings

namespace comprehend_processor

/-- The text is longer than the limit and has no space at any offset from the limit on. -/
def NoSpaceFromLimit (text : List byte) : Prop :=
  text.length > COMPREHEND_CHARACTER_LIMIT ∧
    ∀ i, COMPREHEND_CHARACTER_LIMIT ≤ i → text[i]? ≠ some 32

/-- One outer iteration: from a text longer than the limit, what remains is the text from
its first space at an offset from the limit on. -/
def NextText (text rest : List byte) : Prop :=
  text.length > COMPREHEND_CHARACTER_LIMIT ∧
    ∃ i, COMPREHEND_CHARACTER_LIMIT ≤ i ∧ text[i]? = some 32 ∧
      (∀ j, COMPREHEND_CHARACTER_LIMIT ≤ j → j < i → text[j]? ≠ some 32) ∧
      rest = text.drop i

/-- The text that remains at the start of some outer iteration. -/
inductive RemainingText : List byte → List byte → Prop
  | start (text : List byte) : RemainingText text text
  | step (text rest last : List byte) :
      NextText text rest → RemainingText rest last → RemainingText text last

namespace Example

/-- A text of 4096 letters, a space and two letters. -/
def longText : List byte := List.replicate 4096 97 ++ [32, 98, 99]

/-- A text of 5000 letters without a space. -/
def solidText : List byte := List.replicate 5000 97

end Example

namespace Example

/-- A document name that begins with the name of the output folder. -/
def folderName : String := "ocr-analysis/scan.png"

end Example

end comprehend_processor

/-! ## Theorems -/

namespace textractparser
open textract

/-! ### The well-formedness conditions, by name -/

theorem BlockOk.kind {b : Block} (h : BlockOk b) : b.BlockType.isSome = true := h.1

theorem BlockOk.box {b : Block} (h : BlockOk b) : HasBox b := h.2.1

theorem BlockOk.rels {b : Block} (h : BlockOk b) : RelsOk b := h.2.2.1

theorem BlockOk.entities {b : Block} (h : BlockOk b) : ∀ e ∈ b.EntityTypes, e.isSome = true :=
  h.2.2.2.1

theorem BlockOk.wordText {b : Block} (h : BlockOk b) :
    b.BlockType = some "WORD" → b.Text.isSome = true := h.2.2.2.2.1

theorem BlockOk.lineText {b : Block} (h : BlockOk b) :
    b.BlockType = some "LINE" → b.Text.isSome = true := h.2.2.2.2.2.1

theorem BlockOk.status {b : Block} (h : BlockOk b) :
    b.BlockType = some "SELECTION_ELEMENT" → b.SelectionStatus.isSome = true := h.2.2.2.2.2.2

theorem PageInputOk.blocksOk {blocks : List Block} {m : BlockMap} (h : PageInputOk blocks m) :
    ∀ b ∈ blocks, BlockOk b := h.1

theorem PageInputOk.indexOk {blocks : List Block} {m : BlockMap} (h : PageInputOk blocks m) :
    IndexOk m := h.2.1

theorem PageInputOk.cellsOk {blocks : List Block} {m : BlockMap} (h : PageInputOk blocks m) :
    ∀ b ∈ blocks, isKind "TABLE" b = true → ∀ rs ∈ b.Relationships,
      isRel "CHILD" rs = true → ∀ v ∈ resolve m rs.Ids, v.RowIndex.isSome = true := h.2.2

/-! ### Page groups (`parseDocumentPagesAndBlockMap`) -/

theorem parse_step_inv (st : ParseState) (seen : List Block) (b : Block)
    (hb : b.BlockType ≠ none) (inv : ParseInv st seen) :
    ∃ st', parseDocumentPagesAndBlockMap.step st b = some st' ∧ ParseInv st' (seen ++ [b]) := by
  obtain ⟨bt, hbt⟩ := Option.ne_none_iff_exists'.mp hb
  by_cases hp : bt = "PAGE"
  · by_cases hlen : st.documentPage.length > 0
    · refine ⟨_, by simp [parseDocumentPagesAndBlockMap.step, hbt, hp, hlen]; rfl, ?_⟩
      constructor
      · simp [← inv.joined]
      · intro g hg
        rcases List.mem_append.mp hg with h | h
        · exact inv.nonempty g h
        · rw [List.mem_singleton.mp h]; exact List.ne_nil_of_length_pos hlen
      · intro g hg
        rcases List.mem_append.mp hg with h | h
        · exact inv.closedHead g h
        · rw [List.mem_singleton.mp h]; exact inv.openHead
      · intro x hx; simp at hx
    · have hnil : st.documentPage = [] := by
        cases h : st.documentPage with
        | nil => rfl
        | cons a l => simp [h] at hlen
      refine ⟨_, by simp [parseDocumentPagesAndBlockMap.step, hbt, hp, hlen]; rfl, ?_⟩
      constructor
      · simp [← inv.joined, hnil]
      · exact inv.nonempty
      · exact inv.closedHead
      · intro x hx; simp at hx
  · refine ⟨_, by simp [parseDocumentPagesAndBlockMap.step, hbt, hp]; rfl, ?_⟩
    constructor
    · simp [← inv.joined]
    · exact inv.nonempty
    · exact inv.closedHead
    · intro x hx
      have hx' : x ∈ st.documentPage.tail ∨ x = b := by
        cases h : st.documentPage with
        | nil => simp [h] at hx
        | cons a l => simp [h] at hx ⊢; exact hx
      rcases hx' with h | h
      · exact inv.openHead x h
      · rw [h, hbt]; simpa using hp

theorem parse_blocks_inv (bs : List Block) :
    ∀ (st : ParseState) (seen : List Block), (∀ b ∈ bs, b.BlockType ≠ none) → ParseInv st seen →
    ∃ st', bs.foldlM parseDocumentPagesAndBlockMap.step st = some st' ∧
      ParseInv st' (seen ++ bs) := by
  induction bs with
  | nil => intro st seen _ inv; exact ⟨st, rfl, by simpa using inv⟩
  | cons b bs ih =>
    intro st seen hk inv
    obtain ⟨st1, h1, inv1⟩ := parse_step_inv st seen b (hk b (List.mem_cons_self _ _)) inv
    obtain ⟨st2, h2, inv2⟩ := ih st1 (seen ++ [b])
      (fun x hx => hk x (List.mem_cons_of_mem _ hx)) inv1
    exact ⟨st2, by simp [List.foldlM_cons, h1, h2], by simpa using inv2⟩




theorem parseStep_eq (m : BlockMap) (p : Page) (item : Block) :
    Page.parseStep m p item = (contribution m item).map (Contribution.apply p) := by
  unfold Page.parseStep contribution
  cases hbt : item.BlockType with
  | none => rfl
  | some bt =>
    simp only [Option.bind_eq_bind, Option.some_bind, Option.pure_def]
    by_cases h1 : bt = "PAGE"
    · simp only [h1, if_true]
      cases NewGeometry item.Geometry <;> rfl
    by_cases h2 : bt = "LINE"
    · simp only [h1, h2, if_true, if_false]
      cases hl : NewLine item m with
      | none => rfl
      | some l => cases hlt : l.Text <;> simp [hlt, Contribution.apply]
    by_cases h3 : bt = "TABLE"
    · simp only [h1, h2, h3, if_true, if_false]
      cases NewTable item m <;> rfl
    by_cases h4 : bt = "KEY_VALUE_SET"
    · simp only [h1, h2, h3, h4, if_true, if_false]
      cases refsContainValue item.EntityTypes "KEY" with
      | none => rfl
      | some isKey =>
        cases isKey with
        | false => rfl
        | true =>
          cases hf : NewField item m with
          | none => rfl
          | some f =>
            cases hk : f.Key <;> simp [hk, Form.AddField, Contribution.apply]
    · simp [h1, h2, h3, h4, Contribution.apply]

theorem Contribution.apply_blocks (p : Page) (c : Contribution) : (c.apply p).Blocks = p.Blocks := by
  cases c <;> rfl

theorem parse_fold_blocks (m : BlockMap) (bs : List Block) :
    ∀ p p' : Page, bs.foldlM (Page.parseStep m) p = some p' → p'.Blocks = p.Blocks := by
  induction bs with
  | nil => intro p p' h; simp at h; rw [← h]
  | cons b bs ih =>
    intro p p' h
    rw [List.foldlM_cons, parseStep_eq] at h
    cases hc : contribution m b with
    | none => simp [hc] at h
    | some c =>
      simp only [hc, Option.map_some', Option.bind_eq_bind, Option.some_bind] at h
      rw [ih _ _ h, Contribution.apply_blocks]

theorem NewPage_blocks (blocks : List Block) (m : BlockMap) (p : Page)
    (h : NewPage blocks m = some p) : p.Blocks = blocks :=
  parse_fold_blocks m blocks _ p h

theorem pages_fold_blocks (m : BlockMap) (gs : List (List Block)) :
    ∀ acc pages : List Page,
      gs.foldlM (fun pages documentPage => do
        let page ← NewPage documentPage m
        pure (pages ++ [page])) acc = some pages →
      pages.map Page.Blocks = acc.map Page.Blocks ++ gs := by
  induction gs with
  | nil => intro acc pages h; simp at h; simp [← h]
  | cons g gs ih =>
    intro acc pages h
    rw [List.foldlM_cons] at h
    cases hp : NewPage g m with
    | none => simp [hp] at h
    | some p =>
      simp only [hp, Option.bind_eq_bind, Option.some_bind, Option.pure_def] at h
      rw [ih _ _ h]
      simp [NewPage_blocks g m p hp]

/-- C1. When every block of the response has a kind, `parseDocumentPagesAndBlockMap` returns
page groups that are an ordered partition of the block list: the groups concatenated in order
are the block list, every group is non-empty, and a `PAGE` block is found in a group at
position 0 only. `NewDocument` stores these groups as `ResponseDocumentPages` and as the
`Blocks` of its pages, in the same order. -/
theorem parseDocumentPagesAndBlockMap_partition (response : AnalyzeDocumentOutput)
    (hkind : ∀ b ∈ response.Blocks, b.BlockType ≠ none) :
    ∃ groups m, parseDocumentPagesAndBlockMap [response] = some (groups, m) ∧
      groups.flatten = response.Blocks ∧
      (∀ g ∈ groups, g ≠ []) ∧
      (∀ g ∈ groups, ∀ (i : Nat) (hi : i < g.length),
        (g.get ⟨i, hi⟩).BlockType = some "PAGE" → i = 0) ∧
      (∀ d, NewDocument response = some d →
        d.ResponseDocumentPages = groups ∧ d.Pages.map Page.Blocks = groups) := by
  obtain ⟨st, hst, inv⟩ := parse_blocks_inv response.Blocks
    { blockMap := [], documentPages := [], documentPage := [] } [] hkind
    ⟨rfl, by simp, by simp, by intro x hx; simp at hx⟩
  simp only [List.nil_append] at inv
  have hparse : parseDocumentPagesAndBlockMap [response] =
      some (if st.documentPage.length > 0 then st.documentPages ++ [st.documentPage]
            else st.documentPages, st.blockMap) := by
    simp [parseDocumentPagesAndBlockMap, hst]
  refine ⟨_, _, hparse, ?_, ?_, ?_, ?_⟩
  · by_cases hlen : st.documentPage.length > 0
    · simp [hlen, inv.joined]
    · have hnil : st.documentPage = [] := by
        cases h : st.documentPage with
        | nil => rfl
        | cons a l => simp [h] at hlen
      have := inv.joined
      simp [hlen, hnil] at this ⊢
      exact this
  · intro g hg
    by_cases hlen : st.documentPage.length > 0
    · simp only [hlen, if_true] at hg
      rcases List.mem_append.mp hg with h | h
      · exact inv.nonempty g h
      · rw [List.mem_singleton.mp h]; exact List.ne_nil_of_length_pos hlen
    · simp only [hlen, if_false] at hg
      exact inv.nonempty g hg
  · intro g hg i hi hpage
    have hhead : PageOnlyAtHead g := by
      by_cases hlen : st.documentPage.length > 0
      · simp only [hlen, if_true] at hg
        rcases List.mem_append.mp hg with h | h
        · exact inv.closedHead g h
        · rw [List.mem_singleton.mp h]; exact inv.openHead
      · simp only [hlen, if_false] at hg
        exact inv.closedHead g hg
    cases i with
    | zero => rfl
    | succ j =>
      exfalso
      cases g with
      | nil => simp at hi
      | cons a l =>
        apply hhead _ _ hpage
        simp only [List.tail_cons, List.get_cons_succ]
        exact List.get_mem _ _ _
  · intro d hd
    simp only [NewDocument, hparse, Option.bind_eq_bind, Option.some_bind, Option.pure_def,
      Option.bind_eq_some] at hd
    obtain ⟨pages, hpages, hd⟩ := hd
    have := pages_fold_blocks _ _ _ _ hpages
    cases hd
    exact ⟨rfl, by simpa using this⟩

/-! ### Resolution of children and `NewLine` -/

theorem NewGeometry_points (pts : List (Option Point))
    (h : ∀ pg ∈ pts, pg.isSome = true) :
    ∀ acc : List Polygon, ∃ pgs, pts.foldlM
      (fun pgs pg => do
        let point ← pg
        pure (pgs ++ [Polygon.mk point.X point.Y])) acc = some pgs := by
  induction pts with
  | nil => intro acc; exact ⟨acc, rfl⟩
  | cons pg rest ih =>
    intro acc
    obtain ⟨point, hpoint⟩ := Option.isSome_iff_exists.mp (h pg (List.mem_cons_self _ _))
    obtain ⟨pgs, hpgs⟩ := ih (fun x hx => h x (List.mem_cons_of_mem _ hx))
      (acc ++ [Polygon.mk point.X point.Y])
    exact ⟨pgs, by simp only [List.foldlM_cons, hpoint, Option.bind_eq_bind, Option.some_bind,
      Option.pure_def]; simpa only [Option.bind_eq_bind, Option.pure_def] using hpgs⟩

theorem NewGeometry_isSome (b : Block) (h : HasBox b) : ∃ g, NewGeometry b.Geometry = some g := by
  obtain ⟨hbox, hpoly⟩ := h
  cases hg : b.Geometry with
  | none => simp [HasBoundingBox, hg] at hbox
  | some g =>
    cases hb : g.BoundingBox with
    | none => simp [HasBoundingBox, hg, hb] at hbox
    | some bb =>
      have hpts : ∀ pg ∈ g.Polygon, pg.isSome = true := by
        simpa [PolygonOk, hg] using hpoly
      obtain ⟨pgs, hpgs⟩ := NewGeometry_points g.Polygon hpts []
      simp only [Option.bind_eq_bind, Option.pure_def] at hpgs
      exact ⟨_, by simp [NewGeometry, hb, hpgs]; rfl⟩

theorem NewWord_isSome (b : Block) (h : HasBox b) : ∃ w, NewWord b = some w ∧ w.Text = b.Text := by
  obtain ⟨g, hg⟩ := NewGeometry_isSome b h
  exact ⟨_, by simp [NewWord, hg]; rfl, rfl⟩

theorem NewWord_text (b : Block) (w : Word) (h : NewWord b = some w) : w.Text = b.Text := by
  simp only [NewWord, Option.bind_eq_bind, Option.pure_def, Option.bind_eq_some] at h
  obtain ⟨g, -, h⟩ := h
  cases h; rfl

theorem lookup_mem (m : BlockMap) (c : String) (v : Block) (h : m.lookup c = some v) :
    (c, v) ∈ m := by
  induction m with
  | nil => simp at h
  | cons kv m ih =>
    obtain ⟨k, v'⟩ := kv
    by_cases hk : c = k
    · subst hk; simp at h; simp [h]
    · have : (c == k) = false := by simpa using hk
      rw [List.lookup_cons, this] at h
      exact List.mem_cons_of_mem _ (ih h)

theorem resolve_cons (m : BlockMap) (cid : Option String) (ids : List (Option String)) :
    resolve m (cid :: ids) = resolve m [cid] ++ resolve m ids := by
  simp only [resolve, List.filterMap_cons, List.filterMap_nil]
  cases cid.bind fun c => m.lookup c <;> rfl

theorem NewLine_idStep_sound (m : BlockMap) (words words' : List Word) (cid : Option String)
    (h : NewLine.idStep m words cid = some words') :
    words'.map some = words.map some ++ ((resolve m [cid]).filter (isKind "WORD")).map NewWord := by
  unfold NewLine.idStep at h
  cases cid with
  | none => simp at h
  | some c =>
    cases hl : m.lookup c with
    | none => simp [hl] at h; simp [resolve, hl, h]
    | some v =>
      cases hbt : v.BlockType with
      | none => simp [hl, hbt] at h
      | some bt =>
        by_cases hw : bt = "WORD"
        · cases hn : NewWord v with
          | none => simp [hl, hbt, hw, hn] at h
          | some w =>
            simp [hl, hbt, hw, hn] at h
            simp [resolve, hl, isKind, hbt, hw, hn, ← h]
        · simp [hl, hbt, hw] at h
          simp [resolve, hl, isKind, hbt, hw, h]

theorem resolve_append (m : BlockMap) (xs ys : List (Option String)) :
    resolve m (xs ++ ys) = resolve m xs ++ resolve m ys := by
  simp [resolve, List.filterMap_append]

theorem NewLine_ids_sound (m : BlockMap) (ids : List (Option String)) :
    ∀ words words' : List Word, ids.foldlM (NewLine.idStep m) words = some words' →
      words'.map some =
        words.map some ++ ((resolve m ids).filter (isKind "WORD")).map NewWord := by
  induction ids with
  | nil => intro words words' h; simp at h; simp [resolve, h]
  | cons cid ids ih =>
    intro words words' h
    rw [List.foldlM_cons] at h
    simp only [Option.bind_eq_bind, Option.bind_eq_some] at h
    obtain ⟨w1, h1, h2⟩ := h
    rw [ih _ _ h2, NewLine_idStep_sound m _ _ _ h1, resolve_cons m cid ids]
    simp

theorem NewLine_relStep_sound (m : BlockMap) (words words' : List Word) (rs : Relationship)
    (h : NewLine.relStep m words rs = some words') :
    words'.map some = words.map some ++
      ((resolve m (if isRel "CHILD" rs then rs.Ids else [])).filter (isKind "WORD")).map NewWord := by
  unfold NewLine.relStep at h
  cases hty : rs.Type_ with
  | none => simp [hty] at h
  | some ty =>
    by_cases hc : ty = "CHILD"
    · simp [hty, hc] at h
      simp [isRel, hty, hc, NewLine_ids_sound m _ _ _ h]
    · simp [hty, hc] at h
      simp [isRel, hty, hc, h, resolve]

theorem NewLine_rels_sound (m : BlockMap) (rels : List Relationship) :
    ∀ words words' : List Word, rels.foldlM (NewLine.relStep m) words = some words' →
      words'.map some = words.map some ++
        ((resolve m ((rels.filter (isRel "CHILD")).flatMap fun rs => rs.Ids)).filter
          (isKind "WORD")).map NewWord := by
  induction rels with
  | nil => intro words words' h; simp at h; simp [resolve, h]
  | cons rs rels ih =>
    intro words words' h
    rw [List.foldlM_cons] at h
    simp only [Option.bind_eq_bind, Option.bind_eq_some] at h
    obtain ⟨w1, h1, h2⟩ := h
    rw [ih _ _ h2, NewLine_relStep_sound m _ _ _ h1]
    by_cases hc : isRel "CHILD" rs = true
    · simp [hc, List.filter_cons, resolve_append]
    · simp [hc, List.filter_cons, resolve]

theorem NewLine_sound (b : Block) (m : BlockMap) (l : Line) (h : NewLine b m = some l) :
    l.Text = b.Text ∧
      l.Words.map some = ((resolve m (childIds b)).filter (isKind "WORD")).map NewWord := by
  simp only [NewLine, Option.bind_eq_bind, Option.pure_def, Option.bind_eq_some] at h
  obtain ⟨words, hw, g, -, h⟩ := h
  cases h
  exact ⟨rfl, by simpa [childIds] using NewLine_rels_sound m _ _ _ hw⟩

theorem IndexOk_lookup (m : BlockMap) (hm : IndexOk m) (c : String) (v : Block)
    (h : m.lookup c = some v) : BlockOk v :=
  hm (c, v) (lookup_mem m c v h)

theorem NewLine_idStep_total (m : BlockMap) (hm : IndexShapeOk m) (words : List Word)
    (cid : Option String) (hc : cid.isSome = true) :
    ∃ words', NewLine.idStep m words cid = some words' := by
  unfold NewLine.idStep
  cases cid with
  | none => simp at hc
  | some c =>
    cases hl : m.lookup c with
    | none => exact ⟨words, by simp [hl]⟩
    | some v =>
      have ok : v.BlockType.isSome = true ∧ HasBox v := hm (c, v) (lookup_mem m c v hl)
      obtain ⟨bt, hbt⟩ := Option.isSome_iff_exists.mp ok.1
      obtain ⟨w, hw, -⟩ := NewWord_isSome v ok.2
      by_cases hwd : bt = "WORD"
      · exact ⟨words ++ [w], by simp [hl, hbt, hwd, hw]⟩
      · exact ⟨words, by simp [hl, hbt, hwd]⟩

theorem NewLine_ids_total (m : BlockMap) (hm : IndexShapeOk m) (ids : List (Option String)) :
    ∀ words : List Word, (∀ cid ∈ ids, cid.isSome = true) →
      ∃ words', ids.foldlM (NewLine.idStep m) words = some words' := by
  induction ids with
  | nil => intro words _; exact ⟨words, rfl⟩
  | cons cid ids ih =>
    intro words hc
    obtain ⟨w1, h1⟩ := NewLine_idStep_total m hm words cid (hc cid (List.mem_cons_self _ _))
    obtain ⟨w2, h2⟩ := ih w1 (fun x hx => hc x (List.mem_cons_of_mem _ hx))
    exact ⟨w2, by simp [List.foldlM_cons, h1, h2]⟩

theorem NewLine_rels_total (m : BlockMap) (hm : IndexShapeOk m) (rels : List Relationship) :
    ∀ words : List Word,
      (∀ rs ∈ rels, rs.Type_.isSome = true ∧ ∀ cid ∈ rs.Ids, cid.isSome = true) →
      ∃ words', rels.foldlM (NewLine.relStep m) words = some words' := by
  induction rels with
  | nil => intro words _; exact ⟨words, rfl⟩
  | cons rs rels ih =>
    intro words hr
    obtain ⟨hty, hids⟩ := hr rs (List.mem_cons_self _ _)
    obtain ⟨ty, hty⟩ := Option.isSome_iff_exists.mp hty
    have h1 : ∃ w1, NewLine.relStep m words rs = some w1 := by
      unfold NewLine.relStep
      by_cases hc : ty = "CHILD"
      · obtain ⟨w1, h1⟩ := NewLine_ids_total m hm rs.Ids words hids
        exact ⟨w1, by simp [hty, hc, h1]⟩
      · exact ⟨words, by simp [hty, hc]⟩
    obtain ⟨w1, h1⟩ := h1
    obtain ⟨w2, h2⟩ := ih w1 (fun x hx => hr x (List.mem_cons_of_mem _ hx))
    exact ⟨w2, by simp [List.foldlM_cons, h1, h2]⟩

theorem NewLine_total (b : Block) (m : BlockMap) (hbox : HasBox b) (hrels : RelsOk b)
    (hm : IndexShapeOk m) : ∃ l, NewLine b m = some l := by
  obtain ⟨words, hw⟩ := NewLine_rels_total m hm b.Relationships [] hrels
  obtain ⟨g, hg⟩ := NewGeometry_isSome b hbox
  exact ⟨_, by simp [NewLine, hw, hg]; rfl⟩

/-- C10. `NewLine` returns when the block and the blocks of the index have the documented
shape (a kind, a geometry with a bounding box, typed relationships), and the line it returns
has the text field of the block, unchanged, as its `Text`, and as its `Words` the words
built from the identifiers of the `CHILD` relationships of the block that resolve in the
index to `WORD` blocks, in relationship order; identifiers that resolve to blocks of another
kind are left out. -/
theorem NewLine_text_verbatim_words_resolved (b : Block) (m : BlockMap) :
    (HasBox b → RelsOk b → IndexShapeOk m → ∃ l, NewLine b m = some l) ∧
    (∀ l, NewLine b m = some l →
      l.Text = b.Text ∧
      l.Words.map some = ((resolve m (childIds b)).filter (isKind "WORD")).map NewWord) :=
  ⟨fun hbox hrels hm => NewLine_total b m hbox hrels hm, fun l h => NewLine_sound b m l h⟩

/-! ### Fields (`NewFieldKey`, `NewFieldValue`, `NewField`) -/

theorem NewSelectionElement_isSome (b : Block) (h : HasBox b) :
    ∃ se, NewSelectionElement b = some se ∧ se.SelectionStatus = b.SelectionStatus := by
  obtain ⟨g, hg⟩ := NewGeometry_isSome b h
  exact ⟨_, by simp [NewSelectionElement, hg]; rfl, rfl⟩

theorem NewFieldKey_step_sound (m : BlockMap) (st st' : List Word × List String)
    (eid : Option String) (h : NewFieldKey.step m st eid = some st') :
    st'.1.map some = st.1.map some ++ ((resolve m [eid]).filter (isKind "WORD")).map NewWord ∧
    ∃ texts, st'.1.map Word.Text = st.1.map Word.Text ++ texts.map some ∧
      st'.2 = st.2 ++ texts := by
  unfold NewFieldKey.step at h
  cases eid with
  | none => simp at h
  | some c =>
    cases hl : m.lookup c with
    | none =>
      simp [hl] at h
      exact ⟨by simp [resolve, hl, h], [], by simp [h]⟩
    | some v =>
      cases hbt : v.BlockType with
      | none => simp [hl, hbt] at h
      | some bt =>
        by_cases hw : bt = "WORD"
        · cases hn : NewWord v with
          | none => simp [hl, hbt, hw, hn] at h
          | some w =>
            cases ht : w.Text with
            | none => simp [hl, hbt, hw, hn, ht] at h
            | some txt =>
              simp [hl, hbt, hw, hn, ht] at h
              exact ⟨by simp [resolve, hl, isKind, hbt, hw, hn, ← h], [txt], by simp [← h, ht]⟩
        · simp [hl, hbt, hw] at h
          exact ⟨by simp [resolve, hl, isKind, hbt, hw, h], [], by simp [h]⟩

theorem NewFieldKey_ids_sound (m : BlockMap) (ids : List (Option String)) :
    ∀ st st' : List Word × List String, ids.foldlM (NewFieldKey.step m) st = some st' →
      st'.1.map some = st.1.map some ++ ((resolve m ids).filter (isKind "WORD")).map NewWord ∧
      ∃ texts, st'.1.map Word.Text = st.1.map Word.Text ++ texts.map some ∧
        st'.2 = st.2 ++ texts := by
  induction ids with
  | nil => intro st st' h; simp at h; exact ⟨by simp [resolve, h], [], by simp [h]⟩
  | cons cid ids ih =>
    intro st st' h
    rw [List.foldlM_cons] at h
    simp only [Option.bind_eq_bind, Option.bind_eq_some] at h
    obtain ⟨s1, h1, h2⟩ := h
    obtain ⟨hc1, t1, ht1, hs1⟩ := NewFieldKey_step_sound m _ _ _ h1
    obtain ⟨hc2, t2, ht2, hs2⟩ := ih _ _ h2
    refine ⟨?_, t1 ++ t2, ?_, ?_⟩
    · rw [hc2, hc1, resolve_cons m cid ids]; simp
    · rw [ht2, ht1]; simp
    · rw [hs2, hs1]; simp

theorem NewFieldKey_sound (b : Block) (ids : List (Option String)) (m : BlockMap) (k : FieldKey)
    (h : NewFieldKey b ids m = some k) :
    k.Content.map some = ((resolve m ids).filter (isKind "WORD")).map NewWord ∧
    ∃ texts, k.Content.map Word.Text = texts.map some ∧ k.Text = String.intercalate " " texts := by
  simp only [NewFieldKey, Option.bind_eq_bind, Option.pure_def, Option.bind_eq_some] at h
  obtain ⟨st, hst, g, -, h⟩ := h
  cases h
  obtain ⟨hc, texts, ht, hs⟩ := NewFieldKey_ids_sound m ids _ _ hst
  exact ⟨by simpa using hc, texts, by simpa using ht, by simp at hs; simp [hs]⟩

theorem NewFieldValue_step_sound (m : BlockMap) (st st' : List Item × List String)
    (eid : Option String) (h : NewFieldValue.step m st eid = some st') :
    st'.1.map some = st.1.map some ++ ((resolve m [eid]).filter isItemKind).map buildItem ∧
    ∃ texts, st'.1.map Item.text = st.1.map Item.text ++ texts.map some ∧
      st'.2 = st.2 ++ texts := by
  unfold NewFieldValue.step at h
  cases eid with
  | none => simp at h
  | some c =>
    cases hl : m.lookup c with
    | none =>
      simp [hl] at h
      exact ⟨by simp [resolve, hl, h], [], by simp [h]⟩
    | some v =>
      cases hbt : v.BlockType with
      | none => simp [hl, hbt] at h
      | some bt =>
        by_cases hw : bt = "WORD"
        · cases hn : NewWord v with
          | none => simp [hl, hbt, hw, hn] at h
          | some w =>
            cases ht : w.Text with
            | none => simp [hl, hbt, hw, hn, ht] at h
            | some txt =>
              simp [hl, hbt, hw, hn, ht] at h
              exact ⟨by simp [resolve, hl, isItemKind, buildItem, isKind, hbt, hw, hn, ← h],
                [txt], by simp [← h, ht, Item.text]⟩
        · by_cases hs : bt = "SELECTION_ELEMENT"
          · cases hn : NewSelectionElement v with
            | none => simp [hl, hbt, hw, hs, hn] at h
            | some se =>
              cases ht : se.SelectionStatus with
              | none => simp [hl, hbt, hw, hs, hn, ht] at h
              | some status =>
                simp [hl, hbt, hs, hn, ht] at h
                exact ⟨by simp [resolve, hl, isItemKind, buildItem, isKind, hbt, hs, hn, ← h],
                  [status], by simp [← h, ht, Item.text]⟩
          · simp [hl, hbt, hw, hs] at h
            exact ⟨by simp [resolve, hl, isItemKind, isKind, hbt, hw, hs, h], [], by simp [h]⟩

theorem NewFieldValue_ids_sound (m : BlockMap) (ids : List (Option String)) :
    ∀ st st' : List Item × List String, ids.foldlM (NewFieldValue.step m) st = some st' →
      st'.1.map some = st.1.map some ++ ((resolve m ids).filter isItemKind).map buildItem ∧
      ∃ texts, st'.1.map Item.text = st.1.map Item.text ++ texts.map some ∧
        st'.2 = st.2 ++ texts := by
  induction ids with
  | nil => intro st st' h; simp at h; exact ⟨by simp [resolve, h], [], by simp [h]⟩
  | cons cid ids ih =>
    intro st st' h
    rw [List.foldlM_cons] at h
    simp only [Option.bind_eq_bind, Option.bind_eq_some] at h
    obtain ⟨s1, h1, h2⟩ := h
    obtain ⟨hc1, t1, ht1, hs1⟩ := NewFieldValue_step_sound m _ _ _ h1
    obtain ⟨hc2, t2, ht2, hs2⟩ := ih _ _ h2
    refine ⟨?_, t1 ++ t2, ?_, ?_⟩
    · rw [hc2, hc1, resolve_cons m cid ids]; simp
    · rw [ht2, ht1]; simp
    · rw [hs2, hs1]; simp

theorem NewFieldValue_sound (b : Block) (ids : List (Option String)) (m : BlockMap)
    (v : FieldValue) (h : NewFieldValue b ids m = some v) :
    v.Content.map some = ((resolve m ids).filter isItemKind).map buildItem ∧
    ∃ texts, v.Content.map Item.text = texts.map some ∧ v.Text = String.intercalate " " texts := by
  simp only [NewFieldValue, Option.bind_eq_bind, Option.pure_def, Option.bind_eq_some] at h
  obtain ⟨st, hst, g, -, h⟩ := h
  cases h
  obtain ⟨hc, texts, ht, hs⟩ := NewFieldValue_ids_sound m ids _ _ hst
  exact ⟨by simpa using hc, texts, by simpa using ht, by simp at hs; simp [hs]⟩

theorem refsContainValue_sound (l : List (Option String)) (val : String) (r : Bool)
    (h : refsContainValue l val = some r) : r = true ↔ some val ∈ l := by
  induction l with
  | nil => simp [refsContainValue] at h; simp [← h]
  | cons v l ih =>
    cases v with
    | none => simp [refsContainValue] at h
    | some s =>
      by_cases hs : s = val
      · simp [refsContainValue, hs] at h; simp [← h, hs]
      · simp [refsContainValue, hs] at h
        rw [ih h]
        constructor
        · intro hm; exact List.mem_cons_of_mem _ hm
        · intro hm
          rcases List.mem_cons.mp hm with h1 | h1
          · exact absurd (Option.some.inj h1).symm hs
          · exact h1

theorem refsContainValue_total (l : List (Option String)) (val : String)
    (hl : ∀ e ∈ l, e.isSome = true) : ∃ r, refsContainValue l val = some r := by
  induction l with
  | nil => exact ⟨false, rfl⟩
  | cons v l ih =>
    obtain ⟨s, hs⟩ := Option.isSome_iff_exists.mp (hl v (List.mem_cons_self _ _))
    subst hs
    by_cases hv : s = val
    · exact ⟨true, by simp [refsContainValue, hv]⟩
    · obtain ⟨r, hr⟩ := ih (fun e he => hl e (List.mem_cons_of_mem _ he))
      exact ⟨r, by simp [refsContainValue, hv, hr]⟩

theorem foldlM_append_some {σ α : Type} (f : σ → α → Option σ) (xs ys : List α) (s s' : σ)
    (h : (xs ++ ys).foldlM f s = some s') :
    ∃ s1, xs.foldlM f s = some s1 ∧ ys.foldlM f s1 = some s' := by
  rw [List.foldlM_append] at h
  simpa only [Option.bind_eq_bind, Option.bind_eq_some] using h

theorem foldlM_cons_some {σ α : Type} (f : σ → α → Option σ) (x : α) (xs : List α) (s s' : σ)
    (h : (x :: xs).foldlM f s = some s') :
    ∃ s1, f s x = some s1 ∧ xs.foldlM f s1 = some s' := by
  rw [List.foldlM_cons] at h
  simpa only [Option.bind_eq_bind, Option.bind_eq_some] using h

theorem foldlM_keep {σ α : Type} (f : σ → α → Option σ) (P : σ → σ → Prop)
    (hrefl : ∀ s, P s s) (htrans : ∀ a b c, P a b → P b c → P a c) (xs : List α)
    (hstep : ∀ x ∈ xs, ∀ s s', f s x = some s' → P s s') :
    ∀ s s', xs.foldlM f s = some s' → P s s' := by
  induction xs with
  | nil => intro s s' h; simp at h; rw [← h]; exact hrefl s
  | cons x xs ih =>
    intro s s' h
    obtain ⟨s1, h1, h2⟩ := foldlM_cons_some f x xs s s' h
    exact htrans _ _ _ (hstep x (List.mem_cons_self _ _) s s1 h1)
      (ih (fun y hy => hstep y (List.mem_cons_of_mem _ hy)) s1 s' h2)

theorem foldlM_total {σ α : Type} (f : σ → α → Option σ) (xs : List α)
    (hstep : ∀ x ∈ xs, ∀ s, ∃ s', f s x = some s') :
    ∀ s, ∃ s', xs.foldlM f s = some s' := by
  induction xs with
  | nil => intro s; exact ⟨s, rfl⟩
  | cons x xs ih =>
    intro s
    obtain ⟨s1, h1⟩ := hstep x (List.mem_cons_self _ _) s
    obtain ⟨s2, h2⟩ := ih (fun y hy => hstep y (List.mem_cons_of_mem _ hy)) s1
    exact ⟨s2, by simp [List.foldlM_cons, h1, h2]⟩

theorem NewField_valueRelStep_other (vkvs : Block) (m : BlockMap) (value value' : Option FieldValue)
    (vitem : Relationship) (hn : isRel "CHILD" vitem = false)
    (h : NewField.valueRelStep vkvs m value vitem = some value') : value' = value := by
  unfold NewField.valueRelStep at h
  cases hty : vitem.Type_ with
  | none => simp [hty] at h
  | some ty =>
    have : ¬ ty = "CHILD" := by simpa [isRel, hty] using hn
    simp [hty, this] at h
    exact h.symm

theorem NewField_valueRelStep_child (vkvs : Block) (m : BlockMap) (value value' : Option FieldValue)
    (vitem : Relationship) (hc : isRel "CHILD" vitem = true)
    (h : NewField.valueRelStep vkvs m value vitem = some value') :
    ∃ v, value' = some v ∧ NewFieldValue vkvs vitem.Ids m = some v := by
  unfold NewField.valueRelStep at h
  cases hty : vitem.Type_ with
  | none => simp [hty] at h
  | some ty =>
    have : ty = "CHILD" := by simpa [isRel, hty] using hc
    cases hn : NewFieldValue vkvs vitem.Ids m with
    | none => simp [hty, this, hn] at h
    | some v => simp [hty, this, hn] at h; exact ⟨v, h.symm, rfl⟩

theorem NewField_valueRels_last (vkvs : Block) (m : BlockMap) (value value' : Option FieldValue)
    (vpre vpost : List Relationship) (rc : Relationship) (hc : isRel "CHILD" rc = true)
    (hpost : ∀ x ∈ vpost, isRel "CHILD" x = false)
    (h : (vpre ++ rc :: vpost).foldlM (NewField.valueRelStep vkvs m) value = some value') :
    ∃ v, value' = some v ∧ NewFieldValue vkvs rc.Ids m = some v := by
  obtain ⟨s1, -, h2⟩ := foldlM_append_some _ _ _ _ _ h
  obtain ⟨s2, h3, h4⟩ := foldlM_cons_some _ _ _ _ _ h2
  obtain ⟨v, hv, hnew⟩ := NewField_valueRelStep_child vkvs m s1 s2 rc hc h3
  have := foldlM_keep (NewField.valueRelStep vkvs m) (fun a b => b = a) (fun _ => rfl)
    (fun _ _ _ hab hbc => hbc.trans hab) vpost
    (fun x hx s s' hs => NewField_valueRelStep_other vkvs m s s' x (hpost x hx) hs) s2 value' h4
  exact ⟨v, by rw [this, hv], hnew⟩

theorem NewField_relStep_keepKey (b : Block) (m : BlockMap)
    (st st' : Option FieldKey × Option FieldValue) (item : Relationship)
    (hn : isRel "CHILD" item = false) (h : NewField.relStep b m st item = some st') :
    st'.1 = st.1 := by
  unfold NewField.relStep at h
  cases hty : item.Type_ with
  | none => simp [hty] at h
  | some ty =>
    have hc : ¬ ty = "CHILD" := by simpa [isRel, hty] using hn
    by_cases hv : ty = "VALUE"
    · cases hn : item.Ids.foldlM (NewField.valueIdStep m) st.2 with
      | none => simp [hty, hv, hn] at h
      | some v => simp [hty, hv, hn] at h; rw [← h]
    · simp [hty, hc, hv] at h
      rw [← h]

theorem NewField_relStep_keepValue (b : Block) (m : BlockMap)
    (st st' : Option FieldKey × Option FieldValue) (item : Relationship)
    (hn : isRel "VALUE" item = false) (h : NewField.relStep b m st item = some st') :
    st'.2 = st.2 := by
  unfold NewField.relStep at h
  cases hty : item.Type_ with
  | none => simp [hty] at h
  | some ty =>
    have hv : ¬ ty = "VALUE" := by simpa [isRel, hty] using hn
    by_cases hc : ty = "CHILD"
    · cases hn : NewFieldKey b item.Ids m with
      | none => simp [hty, hc, hn] at h
      | some k => simp [hty, hc, hn] at h; rw [← h]
    · simp [hty, hc, hv] at h
      rw [← h]

theorem NewField_relStep_child (b : Block) (m : BlockMap)
    (st st' : Option FieldKey × Option FieldValue) (item : Relationship)
    (hc : isRel "CHILD" item = true) (h : NewField.relStep b m st item = some st') :
    ∃ k, st'.1 = some k ∧ NewFieldKey b item.Ids m = some k := by
  unfold NewField.relStep at h
  cases hty : item.Type_ with
  | none => simp [hty] at h
  | some ty =>
    have : ty = "CHILD" := by simpa [isRel, hty] using hc
    cases hn : NewFieldKey b item.Ids m with
    | none => simp [hty, this, hn] at h
    | some k => simp [hty, this, hn] at h; exact ⟨k, by rw [← h], rfl⟩

theorem NewField_relStep_value (b : Block) (m : BlockMap)
    (st st' : Option FieldKey × Option FieldValue) (item : Relationship)
    (hv : isRel "VALUE" item = true) (h : NewField.relStep b m st item = some st') :
    item.Ids.foldlM (NewField.valueIdStep m) st.2 = some st'.2 := by
  unfold NewField.relStep at h
  cases hty : item.Type_ with
  | none => simp [hty] at h
  | some ty =>
    have : ty = "VALUE" := by simpa [isRel, hty] using hv
    cases hn : item.Ids.foldlM (NewField.valueIdStep m) st.2 with
    | none => simp [hty, this, hn] at h
    | some v => simp [hty, this, hn] at h; rw [← h]

theorem NewField_key_last (b : Block) (m : BlockMap) (f : Field)
    (pre post : List Relationship) (r : Relationship)
    (hrel : b.Relationships = pre ++ r :: post) (hc : isRel "CHILD" r = true)
    (hpost : ∀ x ∈ post, isRel "CHILD" x = false) (h : NewField b m = some f) :
    ∃ k, f.Key = some k ∧ NewFieldKey b r.Ids m = some k := by
  simp only [NewField, Option.bind_eq_bind, Option.pure_def, Option.bind_eq_some] at h
  obtain ⟨st, hst, h⟩ := h
  cases h
  rw [hrel] at hst
  obtain ⟨s1, -, h2⟩ := foldlM_append_some _ _ _ _ _ hst
  obtain ⟨s2, h3, h4⟩ := foldlM_cons_some _ _ _ _ _ h2
  obtain ⟨k, hk, hnew⟩ := NewField_relStep_child b m s1 s2 r hc h3
  have := foldlM_keep (NewField.relStep b m) (fun a c => c.1 = a.1) (fun _ => rfl)
    (fun _ _ _ hab hbc => hbc.trans hab) post
    (fun x hx s s' hs => NewField_relStep_keepKey b m s s' x (hpost x hx) hs) s2 st h4
  exact ⟨k, by simp only; rw [this, hk], hnew⟩

theorem NewField_value_last (b : Block) (m : BlockMap) (f : Field)
    (pre post : List Relationship) (rv : Relationship) (vid : String) (V : Block)
    (vpre vpost : List Relationship) (rc : Relationship)
    (hrel : b.Relationships = pre ++ rv :: post) (hv : isRel "VALUE" rv = true)
    (hpost : ∀ x ∈ post, isRel "VALUE" x = false)
    (hids : rv.Ids = [some vid]) (hV : m.lookup vid = some V)
    (hrole : some "VALUE" ∈ V.EntityTypes)
    (hvrel : V.Relationships = vpre ++ rc :: vpost) (hc : isRel "CHILD" rc = true)
    (hvpost : ∀ x ∈ vpost, isRel "CHILD" x = false)
    (h : NewField b m = some f) :
    ∃ val, f.Value = some val ∧ NewFieldValue V rc.Ids m = some val := by
  simp only [NewField, Option.bind_eq_bind, Option.pure_def, Option.bind_eq_some] at h
  obtain ⟨st, hst, h⟩ := h
  cases h
  rw [hrel] at hst
  obtain ⟨s1, -, h2⟩ := foldlM_append_some _ _ _ _ _ hst
  obtain ⟨s2, h3, h4⟩ := foldlM_cons_some _ _ _ _ _ h2
  have h5 := NewField_relStep_value b m s1 s2 rv hv h3
  have keep := foldlM_keep (NewField.relStep b m) (fun a c => c.2 = a.2) (fun _ => rfl)
    (fun _ _ _ hab hbc => hbc.trans hab) post
    (fun x hx s s' hs => NewField_relStep_keepValue b m s s' x (hpost x hx) hs) s2 st h4
  rw [hids] at h5
  obtain ⟨s3, h6, h7⟩ := foldlM_cons_some _ _ _ _ _ h5
  simp only [List.foldlM_nil, Option.pure_def, Option.some.injEq] at h7
  unfold NewField.valueIdStep at h6
  cases hr : refsContainValue V.EntityTypes "VALUE" with
  | none => simp [hV, hr] at h6
  | some r =>
    have hrt : r = true := (refsContainValue_sound _ _ _ hr).mpr hrole
    simp only [hV, hr, hrt, Option.bind_eq_bind, Option.some_bind, if_true, hvrel] at h6
    obtain ⟨val, hval, hnew⟩ := NewField_valueRels_last V m _ _ vpre vpost rc hc hvpost h6
    exact ⟨val, by simp only; rw [keep, ← h7, hval], hnew⟩

theorem NewFieldKey_step_total (m : BlockMap) (hm : IndexOk m) (st : List Word × List String)
    (eid : Option String) (he : eid.isSome = true) :
    ∃ st', NewFieldKey.step m st eid = some st' := by
  unfold NewFieldKey.step
  cases eid with
  | none => simp at he
  | some c =>
    cases hl : m.lookup c with
    | none => exact ⟨st, by simp [hl]⟩
    | some v =>
      have ok := IndexOk_lookup m hm c v hl
      obtain ⟨bt, hbt⟩ := Option.isSome_iff_exists.mp ok.kind
      obtain ⟨w, hw, hwt⟩ := NewWord_isSome v ok.box
      by_cases hwd : bt = "WORD"
      · obtain ⟨txt, htxt⟩ := Option.isSome_iff_exists.mp (ok.wordText (by rw [hbt, hwd]))
        exact ⟨(st.1 ++ [w], st.2 ++ [txt]), by simp [hl, hbt, hwd, hw, hwt, htxt]⟩
      · exact ⟨st, by simp [hl, hbt, hwd]⟩

theorem NewFieldKey_total (b : Block) (ids : List (Option String)) (m : BlockMap)
    (hbox : HasBox b) (hids : ∀ cid ∈ ids, cid.isSome = true) (hm : IndexOk m) :
    ∃ k, NewFieldKey b ids m = some k := by
  obtain ⟨st, hst⟩ := foldlM_total (NewFieldKey.step m) ids
    (fun x hx s => NewFieldKey_step_total m hm s x (hids x hx)) ([], [])
  obtain ⟨g, hg⟩ := NewGeometry_isSome b hbox
  exact ⟨_, by simp [NewFieldKey, hst, hg]; rfl⟩

theorem NewFieldValue_step_total (m : BlockMap) (hm : IndexOk m) (st : List Item × List String)
    (eid : Option String) (he : eid.isSome = true) :
    ∃ st', NewFieldValue.step m st eid = some st' := by
  unfold NewFieldValue.step
  cases eid with
  | none => simp at he
  | some c =>
    cases hl : m.lookup c with
    | none => exact ⟨st, by simp [hl]⟩
    | some v =>
      have ok := IndexOk_lookup m hm c v hl
      obtain ⟨bt, hbt⟩ := Option.isSome_iff_exists.mp ok.kind
      obtain ⟨w, hw, hwt⟩ := NewWord_isSome v ok.box
      obtain ⟨se, hse, hst⟩ := NewSelectionElement_isSome v ok.box
      by_cases hwd : bt = "WORD"
      · obtain ⟨txt, htxt⟩ := Option.isSome_iff_exists.mp (ok.wordText (by rw [hbt, hwd]))
        exact ⟨(st.1 ++ [Item.word w], st.2 ++ [txt]), by simp [hl, hbt, hwd, hw, hwt, htxt]⟩
      · by_cases hsel : bt = "SELECTION_ELEMENT"
        · obtain ⟨status, hstatus⟩ := Option.isSome_iff_exists.mp (ok.status (by rw [hbt, hsel]))
          exact ⟨(st.1 ++ [Item.selection se], st.2 ++ [status]),
            by simp [hl, hbt, hsel, hse, hst, hstatus]⟩
        · exact ⟨st, by simp [hl, hbt, hwd, hsel]⟩

theorem NewFieldValue_total (b : Block) (ids : List (Option String)) (m : BlockMap)
    (hbox : HasBox b) (hids : ∀ cid ∈ ids, cid.isSome = true) (hm : IndexOk m) :
    ∃ v, NewFieldValue b ids m = some v := by
  obtain ⟨st, hst⟩ := foldlM_total (NewFieldValue.step m) ids
    (fun x hx s => NewFieldValue_step_total m hm s x (hids x hx)) ([], [])
  obtain ⟨g, hg⟩ := NewGeometry_isSome b hbox
  exact ⟨_, by simp [NewFieldValue, hst, hg]; rfl⟩

theorem NewField_valueIdStep_total (m : BlockMap) (hm : IndexOk m) (value : Option FieldValue)
    (eid : Option String) (he : eid.isSome = true) :
    ∃ value', NewField.valueIdStep m value eid = some value' := by
  unfold NewField.valueIdStep
  cases eid with
  | none => simp at he
  | some c =>
    cases hl : m.lookup c with
    | none => exact ⟨value, by simp [hl]⟩
    | some v =>
      have ok := IndexOk_lookup m hm c v hl
      obtain ⟨r, hr⟩ := refsContainValue_total v.EntityTypes "VALUE" ok.entities
      cases r with
      | false => exact ⟨value, by simp [hl, hr]⟩
      | true =>
        obtain ⟨v', hv'⟩ := foldlM_total (NewField.valueRelStep v m) v.Relationships
          (fun x hx s => by
            obtain ⟨hty, hids⟩ := ok.rels x hx
            obtain ⟨ty, hty⟩ := Option.isSome_iff_exists.mp hty
            unfold NewField.valueRelStep
            by_cases hc : ty = "CHILD"
            · obtain ⟨fv, hfv⟩ := NewFieldValue_total v x.Ids m ok.box hids hm
              exact ⟨some fv, by simp [hty, hc, hfv]⟩
            · exact ⟨s, by simp [hty, hc]⟩) value
        exact ⟨v', by simp [hl, hr, hv']⟩

theorem NewField_total (b : Block) (m : BlockMap) (hbox : HasBox b) (hrels : RelsOk b)
    (hm : IndexOk m) : ∃ f, NewField b m = some f := by
  obtain ⟨st, hst⟩ := foldlM_total (NewField.relStep b m) b.Relationships
    (fun x hx s => by
      obtain ⟨hty, hids⟩ := hrels x hx
      obtain ⟨ty, hty⟩ := Option.isSome_iff_exists.mp hty
      unfold NewField.relStep
      by_cases hc : ty = "CHILD"
      · obtain ⟨k, hk⟩ := NewFieldKey_total b x.Ids m hbox hids hm
        exact ⟨(some k, s.2), by simp [hty, hc, hk]⟩
      · by_cases hv : ty = "VALUE"
        · obtain ⟨v, hv'⟩ := foldlM_total (NewField.valueIdStep m) x.Ids
            (fun y hy s' => NewField_valueIdStep_total m hm s' y (hids y hy)) s.2
          exact ⟨(s.1, v), by simp [hty, hv, hv']⟩
        · exact ⟨s, by simp [hty, hc, hv]⟩) (none, none)
  exact ⟨_, by simp [NewField, hst]; rfl⟩

/-- C4. For a block whose last `CHILD` relationship is `r` (its `CHILD` relationship, when it
has a single one), the field built by `NewField` has a key whose `Content` is the words built
from the identifiers of `r` that resolve in the index to `WORD` blocks, in relationship order,
and whose `Text` is the texts of these words joined by single spaces. `NewField` returns on
well-formed input. -/
theorem NewField_key_from_child_words (b : Block) (m : BlockMap)
    (pre post : List Relationship) (r : Relationship)
    (hrel : b.Relationships = pre ++ r :: post) (hc : isRel "CHILD" r = true)
    (hpost : ∀ x ∈ post, isRel "CHILD" x = false) :
    (HasBox b → RelsOk b → IndexOk m → ∃ f, NewField b m = some f) ∧
    (∀ f, NewField b m = some f →
      ∃ k, f.Key = some k ∧
        k.Content.map some = ((resolve m r.Ids).filter (isKind "WORD")).map NewWord ∧
        ∃ texts, k.Content.map Word.Text = texts.map some ∧
          k.Text = String.intercalate " " texts) := by
  refine ⟨fun hbox hrels hm => NewField_total b m hbox hrels hm, fun f h => ?_⟩
  obtain ⟨k, hk, hnew⟩ := NewField_key_last b m f pre post r hrel hc hpost h
  exact ⟨k, hk, NewFieldKey_sound b r.Ids m k hnew⟩

/-! ### Tables (`NewCell`, `NewTable`) -/

theorem NewCell_fields (v : Block) (m : BlockMap) (c : Cell) (h : NewCell v m = some c) :
    c.RowIndex = v.RowIndex ∧ c.ColumnIndex = v.ColumnIndex ∧ c.RowSpan = v.RowSpan ∧
      c.ColumnSpan = v.ColumnSpan ∧ c.Block = v := by
  simp only [NewCell, Option.bind_eq_bind, Option.pure_def, Option.bind_eq_some] at h
  obtain ⟨st, -, g, -, h⟩ := h
  cases h
  exact ⟨rfl, rfl, rfl, rfl, rfl⟩

theorem NewTable_idStep_absent (m : BlockMap) (st st' : NewTable.State) (c : String)
    (hl : m.lookup c = none) (h : NewTable.idStep m st (some c) = some st') : st' = st := by
  simp [NewTable.idStep, hl] at h
  exact h.symm

theorem NewTable_idStep_present (m : BlockMap) (st st' : NewTable.State) (c : String) (v : Block)
    (hl : m.lookup c = some v) (h : NewTable.idStep m st (some c) = some st') :
    ∃ cell idx, NewCell v m = some cell ∧ cell.RowIndex = some idx ∧
      ((idx > st.ri ∧ st' = { closed := st.closed ++ List.replicate (st.pending + 1) st.row,
                              pending := 0, row := { Cells := [cell] }, ri := idx }) ∨
       (¬ idx > st.ri ∧ st' = { st with row := { Cells := st.row.Cells ++ [cell] } })) := by
  unfold NewTable.idStep at h
  cases hn : NewCell v m with
  | none => simp [hl, hn] at h
  | some cell =>
    cases hi : cell.RowIndex with
    | none => simp [hl, hn, hi] at h
    | some idx =>
      refine ⟨cell, idx, rfl, hi, ?_⟩
      by_cases hgt : idx > st.ri
      · left
        simp [hl, hn, hi, hgt, NewRow] at h
        exact ⟨hgt, h.symm⟩
      · right
        simp [hl, hn, hi, hgt] at h
        exact ⟨hgt, h.symm⟩

/-- The cells that `table.Rows` will hold once the open row is appended. -/
theorem NewTable_idStep_cells (m : BlockMap) (st st' : NewTable.State) (cid : Option String)
    (hp : st.pending = 0) (h : NewTable.idStep m st cid = some st') :
    st'.pending = 0 ∧
    (st'.closed.flatMap Row.Cells ++ st'.row.Cells).map some =
      (st.closed.flatMap Row.Cells ++ st.row.Cells).map some ++
        (resolve m [cid]).map fun v => NewCell v m := by
  cases cid with
  | none => simp [NewTable.idStep] at h
  | some c =>
    cases hl : m.lookup c with
    | none =>
      rw [NewTable_idStep_absent m st st' c hl h]
      exact ⟨hp, by simp [resolve, hl]⟩
    | some v =>
      obtain ⟨cell, idx, hn, -, hcase⟩ := NewTable_idStep_present m st st' c v hl h
      rcases hcase with ⟨-, rfl⟩ | ⟨-, rfl⟩
      · exact ⟨rfl, by simp [resolve, hl, hn, hp, List.flatMap_append]⟩
      · exact ⟨hp, by simp [resolve, hl, hn]⟩

theorem NewTable_ids_cells (m : BlockMap) (ids : List (Option String)) :
    ∀ st st' : NewTable.State, st.pending = 0 →
      ids.foldlM (NewTable.idStep m) st = some st' →
      st'.pending = 0 ∧
      (st'.closed.flatMap Row.Cells ++ st'.row.Cells).map some =
        (st.closed.flatMap Row.Cells ++ st.row.Cells).map some ++
          (resolve m ids).map fun v => NewCell v m := by
  induction ids with
  | nil => intro st st' hp h; simp at h; subst h; exact ⟨hp, by simp [resolve]⟩
  | cons cid ids ih =>
    intro st st' hp h
    obtain ⟨s1, h1, h2⟩ := foldlM_cons_some _ _ _ _ _ h
    obtain ⟨hp1, hc1⟩ := NewTable_idStep_cells m st s1 cid hp h1
    obtain ⟨hp2, hc2⟩ := ih s1 st' hp1 h2
    exact ⟨hp2, by rw [hc2, hc1, resolve_cons m cid ids]; simp⟩

theorem NewTable_relStep_other (m : BlockMap) (st st' : NewTable.State) (rs : Relationship)
    (hn : isRel "CHILD" rs = false) (h : NewTable.relStep m st rs = some st') : st' = st := by
  unfold NewTable.relStep at h
  cases hty : rs.Type_ with
  | none => simp [hty] at h
  | some ty =>
    have : ¬ ty = "CHILD" := by simpa [isRel, hty] using hn
    simp [hty, this] at h
    exact h.symm

theorem NewTable_relStep_child (m : BlockMap) (st st' : NewTable.State) (rs : Relationship)
    (hc : isRel "CHILD" rs = true) (h : NewTable.relStep m st rs = some st') :
    ∃ st1, rs.Ids.foldlM (NewTable.idStep m) st = some st1 ∧
      st' = { st1 with pending := st1.pending + 1 } := by
  unfold NewTable.relStep at h
  cases hty : rs.Type_ with
  | none => simp [hty] at h
  | some ty =>
    have : ty = "CHILD" := by simpa [isRel, hty] using hc
    cases hn : rs.Ids.foldlM (NewTable.idStep m) st with
    | none => simp [hty, this, hn] at h
    | some st1 => simp [hty, this, hn] at h; exact ⟨st1, rfl, h.symm⟩

/-- With a single `CHILD` relationship the rows are the closed rows and then the open row. -/
theorem NewTable_single_child (b : Block) (m : BlockMap) (t : Table)
    (pre post : List Relationship) (r : Relationship)
    (hrel : b.Relationships = pre ++ r :: post) (hc : isRel "CHILD" r = true)
    (hpre : ∀ x ∈ pre, isRel "CHILD" x = false) (hpost : ∀ x ∈ post, isRel "CHILD" x = false)
    (h : NewTable b m = some t) :
    ∃ st, r.Ids.foldlM (NewTable.idStep m) NewTable.init = some st ∧ st.pending = 0 ∧
      t.Rows = st.closed ++ [st.row] := by
  simp only [NewTable, Option.bind_eq_bind, Option.pure_def, Option.bind_eq_some] at h
  obtain ⟨g, -, st, hst, h⟩ := h
  cases h
  rw [hrel] at hst
  obtain ⟨s1, h1, h2⟩ := foldlM_append_some _ _ _ _ _ hst
  obtain ⟨s2, h3, h4⟩ := foldlM_cons_some _ _ _ _ _ h2
  have e1 : s1 = NewTable.init :=
    foldlM_keep (NewTable.relStep m) (fun a c => c = a) (fun _ => rfl)
      (fun _ _ _ hab hbc => hbc.trans hab) pre
      (fun x hx s s' hs => NewTable_relStep_other m s s' x (hpre x hx) hs) _ _ h1
  have e2 : st = s2 :=
    foldlM_keep (NewTable.relStep m) (fun a c => c = a) (fun _ => rfl)
      (fun _ _ _ hab hbc => hbc.trans hab) post
      (fun x hx s s' hs => NewTable_relStep_other m s s' x (hpost x hx) hs) _ _ h4
  rw [e1] at h3
  obtain ⟨st1, hfold, hs2⟩ := NewTable_relStep_child m _ _ r hc h3
  obtain ⟨hp, -⟩ := NewTable_ids_cells m r.Ids _ _ rfl hfold
  refine ⟨st1, hfold, hp, ?_⟩
  rw [e2, hs2]
  simp [NewTable.State.Rows, hp]

theorem NewTable_rows_cells (b : Block) (m : BlockMap) (t : Table)
    (pre post : List Relationship) (r : Relationship)
    (hrel : b.Relationships = pre ++ r :: post) (hc : isRel "CHILD" r = true)
    (hpre : ∀ x ∈ pre, isRel "CHILD" x = false) (hpost : ∀ x ∈ post, isRel "CHILD" x = false)
    (h : NewTable b m = some t) :
    (t.Rows.flatMap Row.Cells).map some = (resolve m r.Ids).map fun v => NewCell v m := by
  obtain ⟨st, hfold, -, hrows⟩ := NewTable_single_child b m t pre post r hrel hc hpre hpost h
  obtain ⟨-, hcells⟩ := NewTable_ids_cells m r.Ids _ _ rfl hfold
  rw [hrows]
  simpa [NewTable.init, NewRow, List.flatMap_append] using hcells

theorem NewTable_ids_rows (m : BlockMap) (ids : List (Option String)) :
    ∀ (st st' : NewTable.State) (idxs : List Int),
      (resolve m ids).map (fun v => v.RowIndex) = idxs.map some →
      idxs.Pairwise (fun i j => i ≤ j) →
      (∀ i ∈ idxs, st.ri ≤ i) →
      (st.row.Cells = [] → ∀ i, idxs.head? = some i → i = st.ri) →
      RowsInv st →
      ids.foldlM (NewTable.idStep m) st = some st' →
      RowsInv st' ∧ (st'.row.Cells = [] → idxs = [] ∧ st.row.Cells = []) := by
  induction ids with
  | nil =>
    intro st st' idxs hidx _ _ _ inv h
    simp at h; subst h
    refine ⟨inv, fun hnil => ⟨?_, hnil⟩⟩
    cases idxs with
    | nil => rfl
    | cons i l => simp [resolve] at hidx
  | cons cid ids ih =>
    intro st st' idxs hidx hsorted hge hfirst inv h
    obtain ⟨s1, h1, h2⟩ := foldlM_cons_some _ _ _ _ _ h
    cases cid with
    | none => simp [NewTable.idStep] at h1
    | some c =>
      cases hl : m.lookup c with
      | none =>
        rw [NewTable_idStep_absent m st s1 c hl h1] at h2
        have hres : resolve m (some c :: ids) = resolve m ids := by
          simp [resolve, hl]
        rw [hres] at hidx
        exact ih st st' idxs hidx hsorted hge hfirst inv h2
      | some v =>
        have hres : resolve m (some c :: ids) = v :: resolve m ids := by
          simp [resolve, hl]
        rw [hres] at hidx
        cases idxs with
        | nil => simp at hidx
        | cons i0 idxs' =>
          simp only [List.map_cons, List.cons.injEq] at hidx
          obtain ⟨hv, hidx'⟩ := hidx
          obtain ⟨cell, idx, hn, hci, hcase⟩ := NewTable_idStep_present m st s1 c v hl h1
          have hidx0 : idx = i0 := by
            have := (NewCell_fields v m cell hn).1
            rw [hci, hv] at this
            exact Option.some.inj this
          subst hidx0
          have hge0 : st.ri ≤ idx := hge idx (List.mem_cons_self _ _)
          have hsorted' := (List.pairwise_cons.mp hsorted)
          rcases hcase with ⟨hgt, rfl⟩ | ⟨hngt, rfl⟩
          · have hrow : st.row.Cells ≠ [] := by
              intro hnil
              have := hfirst hnil idx rfl
              omega
            have inv1 : RowsInv (NewTable.State.mk
                (st.closed ++ List.replicate (st.pending + 1) st.row) 0 (Row.mk [cell]) idx) := by
              constructor
              · rfl
              · intro row hrow'
                simp only [inv.pending, zero_add, List.replicate_one, List.mem_append,
                  List.mem_singleton] at hrow'
                rcases hrow' with hcl | rfl
                · exact inv.nonempty row hcl
                · exact hrow
              · intro row hrow'
                simp only [inv.pending, zero_add, List.replicate_one, List.mem_append,
                  List.mem_singleton] at hrow'
                rcases hrow' with hcl | rfl
                · obtain ⟨i, hi, hat⟩ := inv.closedAt row hcl
                  exact ⟨i, by simp only; omega, hat⟩
                · exact ⟨st.ri, hgt, inv.openAt⟩
              · simp only [inv.pending, zero_add, List.replicate_one]
                rw [List.pairwise_append]
                refine ⟨inv.increasing, List.pairwise_singleton _ _, ?_⟩
                intro a ha b' hb'
                rw [List.mem_singleton.mp hb']
                obtain ⟨i, hi, hat⟩ := inv.closedAt a ha
                intro c1 hc1 c2 hc2
                exact ⟨i, st.ri, hat c1 hc1, inv.openAt c2 hc2, hi⟩
              · intro c' hc'
                simp only [List.mem_singleton] at hc'
                rw [hc', hci]
            obtain ⟨inv', hne⟩ := ih _ st' idxs' hidx' hsorted'.2
              (fun i hi => hsorted'.1 i hi) (fun hnil => by simp at hnil) inv1 h2
            exact ⟨inv', fun hnil => by
              have := (hne hnil).2
              simp at this⟩
          · have hri : idx = st.ri := by omega
            have inv1 : RowsInv (NewTable.State.mk
                st.closed st.pending (Row.mk (st.row.Cells ++ [cell])) st.ri) := by
              constructor
              · exact inv.pending
              · exact inv.nonempty
              · exact inv.closedAt
              · exact inv.increasing
              · intro c' hc'
                simp only [List.mem_append, List.mem_singleton] at hc'
                rcases hc' with hc' | rfl
                · exact inv.openAt c' hc'
                · simp only; rw [hci, hri]
            obtain ⟨inv', hne⟩ := ih _ st' idxs' hidx' hsorted'.2
              (fun i hi => by simp only; rw [← hri]; exact hsorted'.1 i hi)
              (fun hnil => by simp at hnil) inv1 h2
            exact ⟨inv', fun hnil => by
              have := (hne hnil).2
              simp at this⟩

theorem resolve_mem (m : BlockMap) (ids : List (Option String)) (v : Block)
    (h : v ∈ resolve m ids) : ∃ c, some c ∈ ids ∧ m.lookup c = some v := by
  simp only [resolve, List.mem_filterMap] at h
  obtain ⟨cid, hmem, hb⟩ := h
  cases cid with
  | none => simp at hb
  | some c => exact ⟨c, hmem, by simpa using hb⟩

theorem mem_resolve (m : BlockMap) (ids : List (Option String)) (c : String) (v : Block)
    (hmem : some c ∈ ids) (hl : m.lookup c = some v) : v ∈ resolve m ids := by
  simp only [resolve, List.mem_filterMap]
  exact ⟨some c, hmem, by simpa using hl⟩

theorem NewCell_idStep_total (m : BlockMap) (hm : IndexOk m) (st : List Item × String)
    (cid : Option String) (he : cid.isSome = true) :
    ∃ st', NewCell.idStep m st cid = some st' := by
  unfold NewCell.idStep
  cases cid with
  | none => simp at he
  | some c =>
    cases hl : m.lookup c with
    | none => exact ⟨st, by simp [hl]⟩
    | some v =>
      have ok := IndexOk_lookup m hm c v hl
      obtain ⟨bt, hbt⟩ := Option.isSome_iff_exists.mp ok.kind
      obtain ⟨w, hw, hwt⟩ := NewWord_isSome v ok.box
      obtain ⟨se, hse, hst⟩ := NewSelectionElement_isSome v ok.box
      by_cases hwd : bt = "WORD"
      · obtain ⟨txt, htxt⟩ := Option.isSome_iff_exists.mp (ok.wordText (by rw [hbt, hwd]))
        exact ⟨(st.1 ++ [Item.word w], st.2 ++ txt ++ " "), by simp [hl, hbt, hwd, hw, hwt, htxt]⟩
      · by_cases hsel : bt = "SELECTION_ELEMENT"
        · obtain ⟨status, hstatus⟩ := Option.isSome_iff_exists.mp (ok.status (by rw [hbt, hsel]))
          exact ⟨(st.1 ++ [Item.selection se], st.2 ++ status ++ ", "),
            by simp [hl, hbt, hsel, hse, hst, hstatus]⟩
        · exact ⟨st, by simp [hl, hbt, hwd, hsel]⟩

theorem NewCell_total (v : Block) (m : BlockMap) (hbox : HasBox v) (hrels : RelsOk v)
    (hm : IndexOk m) : ∃ c, NewCell v m = some c := by
  obtain ⟨st, hst⟩ := foldlM_total (NewCell.relStep m) v.Relationships
    (fun x hx s => by
      obtain ⟨hty, hids⟩ := hrels x hx
      obtain ⟨ty, hty⟩ := Option.isSome_iff_exists.mp hty
      unfold NewCell.relStep
      by_cases hc : ty = "CHILD"
      · obtain ⟨s', hs'⟩ := foldlM_total (NewCell.idStep m) x.Ids
          (fun y hy s' => NewCell_idStep_total m hm s' y (hids y hy)) s
        exact ⟨s', by simp [hty, hc, hs']⟩
      · exact ⟨s, by simp [hty, hc]⟩) ([], "")
  obtain ⟨g, hg⟩ := NewGeometry_isSome v hbox
  exact ⟨_, by simp [NewCell, hst, hg]; rfl⟩

theorem NewTable_total (b : Block) (m : BlockMap) (hbox : HasBox b) (hrels : RelsOk b)
    (hm : IndexOk m)
    (hrow : ∀ rs ∈ b.Relationships, isRel "CHILD" rs = true →
      ∀ v ∈ resolve m rs.Ids, v.RowIndex.isSome = true) :
    ∃ t, NewTable b m = some t := by
  obtain ⟨st, hst⟩ := foldlM_total (NewTable.relStep m) b.Relationships
    (fun x hx s => by
      obtain ⟨hty, hids⟩ := hrels x hx
      obtain ⟨ty, hty⟩ := Option.isSome_iff_exists.mp hty
      unfold NewTable.relStep
      by_cases hc : ty = "CHILD"
      · obtain ⟨s', hs'⟩ := foldlM_total (NewTable.idStep m) x.Ids
          (fun y hy s' => by
            obtain ⟨c, hcid⟩ := Option.isSome_iff_exists.mp (hids y hy)
            subst hcid
            unfold NewTable.idStep
            cases hl : m.lookup c with
            | none => exact ⟨s', by simp [hl]⟩
            | some v =>
              have ok := IndexOk_lookup m hm c v hl
              obtain ⟨cell, hcell⟩ := NewCell_total v m ok.box ok.rels hm
              have hri := hrow x hx (by simp [isRel, hty, hc]) v (mem_resolve m x.Ids c v hy hl)
              rw [← (NewCell_fields v m cell hcell).1] at hri
              obtain ⟨idx, hidx⟩ := Option.isSome_iff_exists.mp hri
              exact ⟨_, by simp [hl, hcell, hidx]; rfl⟩) s
        exact ⟨_, by simp [hty, hc, hs']; rfl⟩
      · exact ⟨s, by simp [hty, hc]⟩) NewTable.init
  obtain ⟨g, hg⟩ := NewGeometry_isSome b hbox
  exact ⟨_, by simp [NewTable, hg]; rw [← NewTable.init, hst]; rfl⟩

theorem table_child_rows_ok (b : Block) (m : BlockMap) (pre post : List Relationship)
    (r : Relationship) (hrel : b.Relationships = pre ++ r :: post)
    (hpre : ∀ x ∈ pre, isRel "CHILD" x = false) (hpost : ∀ x ∈ post, isRel "CHILD" x = false)
    (hrow : ∀ v ∈ resolve m r.Ids, v.RowIndex.isSome = true) :
    ∀ rs ∈ b.Relationships, isRel "CHILD" rs = true →
      ∀ v ∈ resolve m rs.Ids, v.RowIndex.isSome = true := by
  intro rs hrs hchild
  rw [hrel] at hrs
  rcases List.mem_append.mp hrs with h | h
  · rw [hpre rs h] at hchild; cases hchild
  · rcases List.mem_cons.mp h with h | h
    · rw [h]; exact hrow
    · rw [hpost rs h] at hchild; cases hchild

/-- C8. For a table block with a single `CHILD` relationship `r`, the cells of the rows built
by `NewTable`, concatenated in row order, are the cells built from the identifiers of `r` that
resolve in the index, in traversal order, each one once; the indices and spans of a cell are
those of its block, whatever their values. -/
theorem NewTable_rows_keep_every_cell_once (b : Block) (m : BlockMap)
    (pre post : List Relationship) (r : Relationship)
    (hrel : b.Relationships = pre ++ r :: post) (hc : isRel "CHILD" r = true)
    (hpre : ∀ x ∈ pre, isRel "CHILD" x = false) (hpost : ∀ x ∈ post, isRel "CHILD" x = false) :
    (HasBox b → RelsOk b → IndexOk m → (∀ v ∈ resolve m r.Ids, v.RowIndex.isSome = true) →
      ∃ t, NewTable b m = some t) ∧
    (∀ t, NewTable b m = some t →
      (t.Rows.flatMap Row.Cells).map some = ((resolve m r.Ids).map fun v => NewCell v m) ∧
      ∀ row ∈ t.Rows, ∀ c ∈ row.Cells,
        c.RowIndex = c.Block.RowIndex ∧ c.ColumnIndex = c.Block.ColumnIndex ∧
        c.RowSpan = c.Block.RowSpan ∧ c.ColumnSpan = c.Block.ColumnSpan) := by
  refine ⟨fun hbox hrels hm hrow => NewTable_total b m hbox hrels hm
    (table_child_rows_ok b m pre post r hrel hpre hpost hrow), fun t h => ?_⟩
  have hcells := NewTable_rows_cells b m t pre post r hrel hc hpre hpost h
  refine ⟨hcells, fun row hrow c hcmem => ?_⟩
  have hmem : some c ∈ (t.Rows.flatMap Row.Cells).map some :=
    List.mem_map.mpr ⟨c, List.mem_flatMap.mpr ⟨row, hrow, hcmem⟩, rfl⟩
  rw [hcells] at hmem
  obtain ⟨v, -, hv⟩ := List.mem_map.mp hmem
  obtain ⟨h1, h2, h3, h4, h5⟩ := NewCell_fields v m c hv
  rw [h5]
  exact ⟨h1, h2, h3, h4⟩

/-- C7. For a table block with a single `CHILD` relationship `r` whose resolved blocks have
row indices that do not decrease and start at 1, the rows of the table built by `NewTable` are
the maximal runs of consecutive cells with the same row index: the rows concatenated are the
cells in traversal order, every row is non-empty, the cells of a row share one row index, and
the row indices increase strictly from a row to every later one. -/
theorem NewTable_row_major_rows_are_runs (b : Block) (m : BlockMap)
    (pre post : List Relationship) (r : Relationship) (idxs : List Int)
    (hrel : b.Relationships = pre ++ r :: post) (hc : isRel "CHILD" r = true)
    (hpre : ∀ x ∈ pre, isRel "CHILD" x = false) (hpost : ∀ x ∈ post, isRel "CHILD" x = false)
    (hidx : (resolve m r.Ids).map (fun v => v.RowIndex) = idxs.map some)
    (hsorted : idxs.Pairwise (fun i j => i ≤ j)) (hfirst : idxs.head? = some 1) :
    (HasBox b → RelsOk b → IndexOk m → ∃ t, NewTable b m = some t) ∧
    (∀ t, NewTable b m = some t →
      (t.Rows.flatMap Row.Cells).map some = ((resolve m r.Ids).map fun v => NewCell v m) ∧
      (∀ row ∈ t.Rows, row.Cells ≠ []) ∧
      (∀ row ∈ t.Rows, ∃ i, RowAt i row) ∧
      t.Rows.Pairwise RowBefore) := by
  constructor
  · intro hbox hrels hm
    refine NewTable_total b m hbox hrels hm
      (table_child_rows_ok b m pre post r hrel hpre hpost ?_)
    intro v hv
    have : v.RowIndex ∈ (resolve m r.Ids).map (fun v => v.RowIndex) :=
      List.mem_map.mpr ⟨v, hv, rfl⟩
    rw [hidx] at this
    obtain ⟨i, -, hi⟩ := List.mem_map.mp this
    rw [← hi]; rfl
  · intro t h
    refine ⟨NewTable_rows_cells b m t pre post r hrel hc hpre hpost h, ?_⟩
    obtain ⟨st, hfold, -, hrows⟩ := NewTable_single_child b m t pre post r hrel hc hpre hpost h
    have hge : ∀ i ∈ idxs, (1 : Int) ≤ i := by
      cases idxs with
      | nil => simp at hfirst
      | cons i0 l =>
        simp only [List.head?_cons, Option.some.injEq] at hfirst
        subst hfirst
        intro i hi
        rcases List.mem_cons.mp hi with h1 | h1
        · rw [h1]
        · exact (List.pairwise_cons.mp hsorted).1 i h1
    obtain ⟨inv, hne⟩ := NewTable_ids_rows m r.Ids NewTable.init st idxs hidx hsorted hge
      (fun _ i hi => by rw [hfirst] at hi; exact (Option.some.inj hi).symm)
      ⟨rfl, by simp [NewTable.init], by simp [NewTable.init], by simp [NewTable.init],
        by intro c hcm; simp [NewTable.init, NewRow] at hcm⟩ hfold
    have hopen : st.row.Cells ≠ [] := by
      intro hnil
      have := (hne hnil).1
      rw [this] at hfirst
      simp at hfirst
    rw [hrows]
    refine ⟨?_, ?_, ?_⟩
    · intro row hrow
      rcases List.mem_append.mp hrow with h1 | h1
      · exact inv.nonempty row h1
      · rw [List.mem_singleton.mp h1]; exact hopen
    · intro row hrow
      rcases List.mem_append.mp hrow with h1 | h1
      · obtain ⟨i, -, hat⟩ := inv.closedAt row h1
        exact ⟨i, hat⟩
      · rw [List.mem_singleton.mp h1]; exact ⟨st.ri, inv.openAt⟩
    · rw [List.pairwise_append]
      refine ⟨inv.increasing, List.pairwise_singleton _ _, ?_⟩
      intro a ha b' hb'
      rw [List.mem_singleton.mp hb']
      obtain ⟨i, hi, hat⟩ := inv.closedAt a ha
      intro c1 hc1 c2 hc2
      exact ⟨i, st.ri, hat c1 hc1, inv.openAt c2 hc2, hi⟩

/-! ### Identifiers absent from the index -/

theorem lookup_absent (m : BlockMap) (x : String) (hx : x ∉ m.map Prod.fst) :
    m.lookup x = none := by
  cases h : m.lookup x with
  | none => rfl
  | some v => exact absurd (List.mem_map.mpr ⟨(x, v), lookup_mem m x v h, rfl⟩) hx

theorem foldlM_erase_noop {σ : Type} (f : σ → Option String → Option σ) (x : String)
    (hnoop : ∀ s, f s (some x) = some s) (ids : List (Option String)) :
    ∀ s, (eraseId x ids).foldlM f s = ids.foldlM f s := by
  induction ids with
  | nil => intro s; rfl
  | cons cid ids ih =>
    intro s
    by_cases hc : cid = some x
    · subst hc
      simp only [eraseId, List.filter_cons, bne_self_eq_false, Bool.false_eq_true, if_false,
        List.foldlM_cons, hnoop, Option.bind_eq_bind, Option.some_bind]
      exact ih s
    · have : (cid != some x) = true := by simpa using hc
      simp only [eraseId, List.filter_cons, this, if_true, List.foldlM_cons]
      congr 1
      funext s1
      exact ih s1

theorem foldlM_simulation {σ τ α β : Type} (f : σ → α → Option σ) (g : τ → β → Option τ)
    (φ : σ → τ) (e : α → β) (hstep : ∀ s a, g (φ s) (e a) = (f s a).map φ) (xs : List α) :
    ∀ s, (xs.map e).foldlM g (φ s) = (xs.foldlM f s).map φ := by
  induction xs with
  | nil => intro s; rfl
  | cons a xs ih =>
    intro s
    simp only [List.map_cons, List.foldlM_cons, hstep]
    cases h : f s a with
    | none => rfl
    | some s1 => simpa using ih s1

theorem foldlM_map_eq {σ α β : Type} (f : σ → α → Option σ) (g : σ → β → Option σ)
    (e : α → β) (hstep : ∀ s a, g s (e a) = f s a) (xs : List α) :
    ∀ s, (xs.map e).foldlM g s = xs.foldlM f s := by
  induction xs with
  | nil => intro s; rfl
  | cons a xs ih =>
    intro s
    simp only [List.map_cons, List.foldlM_cons, hstep]
    congr 1
    funext s1
    exact ih s1

theorem NewLine_idStep_absent (m : BlockMap) (x : String) (hx : m.lookup x = none)
    (s : List Word) : NewLine.idStep m s (some x) = some s := by
  simp [NewLine.idStep, hx]

theorem NewLine_erase (b : Block) (m : BlockMap) (x : String) (hx : m.lookup x = none) :
    NewLine (eraseBlockId x b) m =
      (NewLine b m).map fun l => { l with Block := eraseBlockId x b } := by
  have hrels : ∀ s, (b.Relationships.map (eraseRelId x)).foldlM (NewLine.relStep m) s =
      b.Relationships.foldlM (NewLine.relStep m) s :=
    foldlM_map_eq (NewLine.relStep m) (NewLine.relStep m) (eraseRelId x)
      (fun s rs => by
        simp only [NewLine.relStep, eraseRelId]
        cases rs.Type_ with
        | none => rfl
        | some ty =>
          simp only [Option.bind_eq_bind, Option.some_bind]
          split
          · exact foldlM_erase_noop (NewLine.idStep m) x (NewLine_idStep_absent m x hx) rs.Ids s
          · rfl) b.Relationships
  simp only [NewLine, eraseBlockId, hrels]
  cases b.Relationships.foldlM (NewLine.relStep m) [] with
  | none => rfl
  | some words => cases NewGeometry b.Geometry <;> rfl

theorem NewFieldKey_erase (b b' : Block) (ids : List (Option String)) (m : BlockMap) (x : String)
    (hx : m.lookup x = none) (hg : b'.Geometry = b.Geometry) (hc : b'.Confidence = b.Confidence)
    (hid : b'.Id = b.Id) :
    NewFieldKey b' (eraseId x ids) m = (NewFieldKey b ids m).map fun k => { k with Block := b' } := by
  have hids := foldlM_erase_noop (NewFieldKey.step m) x
    (fun s => by simp [NewFieldKey.step, hx]) ids ([], [])
  simp only [NewFieldKey, hids, hg, hc, hid]
  cases ids.foldlM (NewFieldKey.step m) ([], []) with
  | none => rfl
  | some st => cases NewGeometry b.Geometry <;> rfl

theorem NewFieldValue_erase (b : Block) (ids : List (Option String)) (m : BlockMap) (x : String)
    (hx : m.lookup x = none) :
    NewFieldValue b (eraseId x ids) m = NewFieldValue b ids m := by
  have hids := foldlM_erase_noop (NewFieldValue.step m) x
    (fun s => by simp [NewFieldValue.step, hx]) ids ([], [])
  simp only [NewFieldValue, hids]

theorem NewCell_erase (b : Block) (m : BlockMap) (x : String) (hx : m.lookup x = none) :
    NewCell (eraseBlockId x b) m =
      (NewCell b m).map fun c => { c with Block := eraseBlockId x b } := by
  have hrels : ∀ s, (b.Relationships.map (eraseRelId x)).foldlM (NewCell.relStep m) s =
      b.Relationships.foldlM (NewCell.relStep m) s :=
    foldlM_map_eq (NewCell.relStep m) (NewCell.relStep m) (eraseRelId x)
      (fun s rs => by
        simp only [NewCell.relStep, eraseRelId]
        cases rs.Type_ with
        | none => rfl
        | some ty =>
          simp only [Option.bind_eq_bind, Option.some_bind]
          split
          · exact foldlM_erase_noop (NewCell.idStep m) x
              (fun s => by simp [NewCell.idStep, hx]) rs.Ids s
          · rfl) b.Relationships
  simp only [NewCell, eraseBlockId, hrels]
  cases b.Relationships.foldlM (NewCell.relStep m) ([], "") with
  | none => rfl
  | some st => cases NewGeometry b.Geometry <;> rfl

theorem NewTable_erase (b : Block) (m : BlockMap) (x : String) (hx : m.lookup x = none) :
    NewTable (eraseBlockId x b) m =
      (NewTable b m).map fun t => { t with Block := eraseBlockId x b } := by
  have hrels : ∀ s, (b.Relationships.map (eraseRelId x)).foldlM (NewTable.relStep m) s =
      b.Relationships.foldlM (NewTable.relStep m) s :=
    foldlM_map_eq (NewTable.relStep m) (NewTable.relStep m) (eraseRelId x)
      (fun s rs => by
        simp only [NewTable.relStep, eraseRelId]
        cases rs.Type_ with
        | none => rfl
        | some ty =>
          simp only [Option.bind_eq_bind, Option.some_bind]
          split
          · rw [foldlM_erase_noop (NewTable.idStep m) x
              (fun s => by simp [NewTable.idStep, hx]) rs.Ids s]
          · rfl) b.Relationships
  simp only [NewTable, eraseBlockId, hrels]
  cases NewGeometry b.Geometry with
  | none => rfl
  | some g =>
    simp only [Option.bind_eq_bind, Option.some_bind]
    cases b.Relationships.foldlM (NewTable.relStep m)
      { closed := [], pending := 0, row := NewRow, ri := 1 } <;> rfl

/-- The field with `b'` as the block its key refers to. -/
theorem NewField_erase (b : Block) (m : BlockMap) (x : String) (hx : m.lookup x = none) :
    NewField (eraseBlockId x b) m =
      (NewField b m).map fun f =>
        { f with Key := f.Key.map fun k => { k with Block := eraseBlockId x b } } := by
  have hrels := foldlM_simulation (NewField.relStep b m) (NewField.relStep (eraseBlockId x b) m)
    (fun st => (st.1.map fun k => { k with Block := eraseBlockId x b }, st.2)) (eraseRelId x)
    (fun s rs => by
      simp only [NewField.relStep, eraseRelId]
      cases rs.Type_ with
      | none => rfl
      | some ty =>
        simp only [Option.bind_eq_bind, Option.some_bind]
        split
        · rw [NewFieldKey_erase b (eraseBlockId x b) rs.Ids m x hx rfl rfl rfl]
          cases NewFieldKey b rs.Ids m <;> rfl
        · split
          · rw [foldlM_erase_noop (NewField.valueIdStep m) x
              (fun s => by simp [NewField.valueIdStep, hx]) rs.Ids]
            cases rs.Ids.foldlM (NewField.valueIdStep m) s.2 <;> rfl
          · rfl) b.Relationships (none, none)
  simp only [Option.map_none'] at hrels
  simp only [NewField]
  have e : (eraseBlockId x b).Relationships = b.Relationships.map (eraseRelId x) := rfl
  rw [e, hrels]
  cases b.Relationships.foldlM (NewField.relStep b m) (none, none) <;> rfl

/-- C9. Deleting from the relationship identifier lists of a block an identifier `x` that is
not a key of the index changes nothing in what the builders produce: `Line.Words`, the content
and text of a field key and of a field value, the key and the value of a field (its presence
included), the content and text of a cell and the rows of a table are the same, and a builder
faults with `x` exactly when it faults without it. -/
theorem absent_identifier_changes_nothing (b : Block) (m : BlockMap) (x : String)
    (hx : x ∉ m.map Prod.fst) :
    (NewLine (eraseBlockId x b) m).map Line.Words = (NewLine b m).map Line.Words ∧
    (∀ ids, (NewFieldKey b (eraseId x ids) m).map (fun k => (k.Content, k.Text)) =
      (NewFieldKey b ids m).map fun k => (k.Content, k.Text)) ∧
    (∀ ids, (NewFieldValue b (eraseId x ids) m).map (fun v => (v.Content, v.Text)) =
      (NewFieldValue b ids m).map fun v => (v.Content, v.Text)) ∧
    (NewField (eraseBlockId x b) m).map
        (fun f => (f.Key.map fun k => (k.Content, k.Text), f.Value)) =
      (NewField b m).map (fun f => (f.Key.map fun k => (k.Content, k.Text), f.Value)) ∧
    (NewCell (eraseBlockId x b) m).map (fun c => (c.Content, c.Text)) =
      (NewCell b m).map (fun c => (c.Content, c.Text)) ∧
    (NewTable (eraseBlockId x b) m).map Table.Rows = (NewTable b m).map Table.Rows := by
  have hl := lookup_absent m x hx
  refine ⟨?_, ?_, ?_, ?_, ?_, ?_⟩
  · rw [NewLine_erase b m x hl]; cases NewLine b m <;> rfl
  · intro ids
    rw [NewFieldKey_erase b b ids m x hl rfl rfl rfl]; cases NewFieldKey b ids m <;> rfl
  · intro ids
    rw [NewFieldValue_erase b ids m x hl]
  · rw [NewField_erase b m x hl]
    cases NewField b m with
    | none => rfl
    | some f => cases f with
      | mk k v => cases k <;> rfl
  · rw [NewCell_erase b m x hl]; cases NewCell b m <;> rfl
  · rw [NewTable_erase b m x hl]; cases NewTable b m <;> rfl

/-! ### Pages (`Page.parse`, `NewPage`) -/

theorem NewField_key_isSome (b : Block) (m : BlockMap) (f : Field) (h : NewField b m = some f) :
    f.Key.isSome = hasChildRel b := by
  simp only [NewField, Option.bind_eq_bind, Option.pure_def, Option.bind_eq_some] at h
  obtain ⟨st, hst, h⟩ := h
  cases h
  have key : ∀ (rels : List Relationship) (s s' : Option FieldKey × Option FieldValue),
      rels.foldlM (NewField.relStep b m) s = some s' →
      s'.1.isSome = (s.1.isSome || rels.any (isRel "CHILD")) := by
    intro rels
    induction rels with
    | nil => intro s s' h; simp at h; simp [h]
    | cons r rels ih =>
      intro s s' h
      obtain ⟨s1, h1, h2⟩ := foldlM_cons_some _ _ _ _ _ h
      rw [ih s1 s' h2]
      cases hr : isRel "CHILD" r with
      | false => rw [NewField_relStep_keepKey b m s s1 r hr h1]; simp [hr]
      | true =>
        obtain ⟨k, hk, -⟩ := NewField_relStep_child b m s s1 r hr h1
        simp [hk, hr]
  simpa [hasChildRel] using key b.Relationships _ _ hst

theorem refsContainValue_hasRole (b : Block) (role : String) (r : Bool)
    (h : refsContainValue b.EntityTypes role = some r) : r = hasRole role b := by
  have := refsContainValue_sound _ _ _ h
  cases r with
  | true => simp [hasRole, this.mp rfl]
  | false =>
    have hn : some role ∉ b.EntityTypes := fun hm => by simpa using this.mpr hm
    simp [hasRole, hn]

/-- What a block contributes, read off the source block. -/
theorem contribution_cases (m : BlockMap) (b : Block) (c : Contribution)
    (h : contribution m b = some c) :
    (isKind "LINE" b = true ∧ ∃ l txt, c = Contribution.line l txt ∧ NewLine b m = some l ∧
      b.Text = some txt) ∨
    (isKind "LINE" b = false ∧ isKind "TABLE" b = true ∧
      ∃ t, c = Contribution.table t ∧ NewTable b m = some t) ∨
    (isKind "LINE" b = false ∧ isKind "TABLE" b = false ∧ isFieldSource b = true ∧
      ∃ f k, c = Contribution.field f k ∧ NewField b m = some f ∧ f.Key = some k) ∨
    (isContentSource b = false ∧ (c = Contribution.nothing ∨ ∃ g id, c = Contribution.page g id)) := by
  unfold contribution at h
  cases hbt : b.BlockType with
  | none => simp [hbt] at h
  | some bt =>
    simp only [hbt] at h
    by_cases h1 : bt = "PAGE"
    · right; right; right
      subst h1
      simp only [if_true, Option.map_eq_some'] at h
      obtain ⟨g, -, rfl⟩ := h
      exact ⟨by simp [isContentSource, isFieldSource, isKind, hbt], Or.inr ⟨g, b.Id, rfl⟩⟩
    by_cases h2 : bt = "LINE"
    · left
      subst h2
      simp only [h1, if_true, if_false, Option.bind_eq_some, Option.map_eq_some'] at h
      obtain ⟨l, hl, txt, htxt, rfl⟩ := h
      refine ⟨by simp [isKind, hbt], l, txt, rfl, hl, ?_⟩
      rw [← (NewLine_sound b m l hl).1, htxt]
    by_cases h3 : bt = "TABLE"
    · right; left
      subst h3
      simp only [h1, h2, if_true, if_false, Option.map_eq_some'] at h
      obtain ⟨t, ht, rfl⟩ := h
      exact ⟨by simp [isKind, hbt], by simp [isKind, hbt], t, rfl, ht⟩
    by_cases h4 : bt = "KEY_VALUE_SET"
    · subst h4
      simp only [h1, h2, h3, if_true, if_false, Option.bind_eq_some] at h
      obtain ⟨isKey, hkey, h⟩ := h
      have hrole := refsContainValue_hasRole b "KEY" isKey hkey
      cases isKey with
      | false =>
        right; right; right
        simp only [Bool.false_eq_true, if_false, Option.some.injEq] at h
        exact ⟨by simp [isContentSource, isFieldSource, isKind, hbt, ← hrole], Or.inl h.symm⟩
      | true =>
        simp only [if_true, Option.map_eq_some'] at h
        obtain ⟨f, hf, h⟩ := h
        have hchild := NewField_key_isSome b m f hf
        cases hk : f.Key with
        | none =>
          right; right; right
          simp only [hk] at h
          rw [hk] at hchild
          exact ⟨by simp [isContentSource, isFieldSource, isKind, hbt, ← hchild], Or.inl h.symm⟩
        | some k =>
          right; right; left
          simp only [hk] at h
          rw [hk] at hchild
          exact ⟨by simp [isKind, hbt], by simp [isKind, hbt],
            by simp [isFieldSource, isKind, hbt, ← hrole, ← hchild], f, k, h.symm, hf, hk⟩
    · right; right; right
      simp only [h1, h2, h3, h4, if_false, Option.some.injEq] at h
      exact ⟨by simp [isContentSource, isFieldSource, isKind, hbt, h2, h3, h4], Or.inl h.symm⟩

theorem join_append (xs ys : List String) :
    String.join (xs ++ ys) = String.join xs ++ String.join ys := by
  apply String.ext
  simp [String.join_eq, String.data_append]

theorem join_singleton (x : String) : String.join [x] = x := by
  apply String.ext
  simp [String.join_eq]

/-- The fields of the page after one block of the group. -/
theorem parseStep_effect (m : BlockMap) (p p' : Page) (b : Block)
    (h : Page.parseStep m p b = some p') :
    p'.Content.map some =
      p.Content.map some ++ ([b].filter isContentSource).map (buildContent m) ∧
    p'.Lines.map some = p.Lines.map some ++ ([b].filter (isKind "LINE")).map (fun x => NewLine x m) ∧
    p'.Tables.map some =
      p.Tables.map some ++ ([b].filter (isKind "TABLE")).map (fun x => NewTable x m) ∧
    p'.Form.Fields.map some =
      p.Form.Fields.map some ++ ([b].filter isFieldSource).map (fun x => NewField x m) ∧
    p'.Form.FieldsMap.map some =
      ([b].filter isFieldSource).map (fun x => (NewField x m).bind fieldEntry) ++
        p.Form.FieldsMap.map some ∧
    (∃ texts : List String, ([b].filter (isKind "LINE")).map (fun x => x.Text) = texts.map some ∧
      p'.Text = p.Text ++ String.join (texts.map fun t => t ++ "\n")) := by
  rw [parseStep_eq] at h
  simp only [Option.map_eq_some'] at h
  obtain ⟨c, hc, rfl⟩ := h
  rcases contribution_cases m b c hc with ⟨hl, l, txt, rfl, hnl, htxt⟩ |
    ⟨hl, ht, t, rfl, hnt⟩ | ⟨hl, ht, hf, f, k, rfl, hnf, hk⟩ | ⟨hsrc, hnone | ⟨g, id, rfl⟩⟩
  · have hnt : isKind "TABLE" b = false := by
      simp only [isKind, beq_iff_eq] at hl
      simp [isKind, hl]
    have hnf : isFieldSource b = false := by
      simp only [isKind, beq_iff_eq] at hl
      simp [isFieldSource, isKind, hl]
    refine ⟨?_, ?_, ?_, ?_, ?_, [txt], ?_, ?_⟩ <;>
      simp [Contribution.apply, List.filter_cons, isContentSource, buildContent, hl, hnt, hnf,
        hnl, htxt, join_singleton, String.append_assoc]
  · have hnf : isFieldSource b = false := by
      simp only [isKind, beq_iff_eq] at ht
      simp [isFieldSource, isKind, ht]
    refine ⟨?_, ?_, ?_, ?_, ?_, [], ?_, ?_⟩ <;>
      simp [Contribution.apply, List.filter_cons, isContentSource, buildContent, hl, ht, hnf,
        hnt, String.join]
  · refine ⟨?_, ?_, ?_, ?_, ?_, [], ?_, ?_⟩ <;>
      simp [Contribution.apply, List.filter_cons, isContentSource, buildContent, hl, ht, hf,
        hnf, hk, fieldEntry, String.join]
  · subst hnone
    simp only [isContentSource, Bool.or_eq_false_iff] at hsrc
    obtain ⟨⟨hl, ht⟩, hf⟩ := hsrc
    refine ⟨?_, ?_, ?_, ?_, ?_, [], ?_, ?_⟩ <;>
      simp [Contribution.apply, List.filter_cons, isContentSource, hl, ht, hf, String.join]
  · simp only [isContentSource, Bool.or_eq_false_iff] at hsrc
    obtain ⟨⟨hl, ht⟩, hf⟩ := hsrc
    refine ⟨?_, ?_, ?_, ?_, ?_, [], ?_, ?_⟩ <;>
      simp [Contribution.apply, List.filter_cons, isContentSource, hl, ht, hf, String.join]

theorem filter_cons_singleton {α : Type} (P : α → Bool) (b : α) (bs : List α) :
    (b :: bs).filter P = [b].filter P ++ bs.filter P := by
  rw [← List.filter_append]; rfl

theorem reverse_filter_singleton {α β : Type} (P : α → Bool) (f : α → β) (b : α) :
    (([b].filter P).map f).reverse = ([b].filter P).map f := by
  by_cases h : P b = true <;> simp [List.filter_cons, h]

/-- The fields of the page after the blocks of the group. -/
theorem parse_fold_effect (m : BlockMap) (bs : List Block) :
    ∀ p p' : Page, bs.foldlM (Page.parseStep m) p = some p' →
    p'.Content.map some =
      p.Content.map some ++ (bs.filter isContentSource).map (buildContent m) ∧
    p'.Lines.map some = p.Lines.map some ++ (bs.filter (isKind "LINE")).map (fun x => NewLine x m) ∧
    p'.Tables.map some =
      p.Tables.map some ++ (bs.filter (isKind "TABLE")).map (fun x => NewTable x m) ∧
    p'.Form.Fields.map some =
      p.Form.Fields.map some ++ (bs.filter isFieldSource).map (fun x => NewField x m) ∧
    p'.Form.FieldsMap.map some =
      ((bs.filter isFieldSource).map (fun x => (NewField x m).bind fieldEntry)).reverse ++
        p.Form.FieldsMap.map some ∧
    (∃ texts : List String, (bs.filter (isKind "LINE")).map (fun x => x.Text) = texts.map some ∧
      p'.Text = p.Text ++ String.join (texts.map fun t => t ++ "\n")) := by
  induction bs with
  | nil =>
    intro p p' h
    simp at h; subst h
    exact ⟨by simp, by simp, by simp, by simp, by simp, [], by simp, by simp [String.join]⟩
  | cons b bs ih =>
    intro p p' h
    obtain ⟨p1, h1, h2⟩ := foldlM_cons_some _ _ _ _ _ h
    obtain ⟨a1, a2, a3, a4, a5, t1, a6, a7⟩ := parseStep_effect m p p1 b h1
    obtain ⟨b1, b2, b3, b4, b5, t2, b6, b7⟩ := ih p1 p' h2
    refine ⟨?_, ?_, ?_, ?_, ?_, t1 ++ t2, ?_, ?_⟩
    · rw [b1, a1, filter_cons_singleton isContentSource b bs]; simp
    · rw [b2, a2, filter_cons_singleton (isKind "LINE") b bs]; simp
    · rw [b3, a3, filter_cons_singleton (isKind "TABLE") b bs]; simp
    · rw [b4, a4, filter_cons_singleton isFieldSource b bs]; simp
    · rw [b5, a5, filter_cons_singleton isFieldSource b bs, List.map_append, List.reverse_append,
        reverse_filter_singleton]
      simp
    · rw [filter_cons_singleton (isKind "LINE") b bs, List.map_append, a6, b6]; simp
    · rw [b7, a7, List.map_append, join_append, String.append_assoc]

theorem contribution_total (m : BlockMap) (b : Block) (hb : BlockOk b) (hm : IndexOk m)
    (hcells : isKind "TABLE" b = true → ∀ rs ∈ b.Relationships,
      isRel "CHILD" rs = true → ∀ v ∈ resolve m rs.Ids, v.RowIndex.isSome = true) :
    ∃ c, contribution m b = some c := by
  unfold contribution
  obtain ⟨bt, hbt⟩ := Option.isSome_iff_exists.mp hb.kind
  simp only [hbt]
  by_cases h1 : bt = "PAGE"
  · obtain ⟨g, hg⟩ := NewGeometry_isSome b hb.box
    exact ⟨_, by simp [h1, hg]; rfl⟩
  by_cases h2 : bt = "LINE"
  · obtain ⟨l, hl⟩ := NewLine_total b m hb.box hb.rels (fun kv hkv => ⟨(hm kv hkv).kind, (hm kv hkv).box⟩)
    obtain ⟨txt, htxt⟩ := Option.isSome_iff_exists.mp (hb.lineText (by rw [hbt, h2]))
    have : l.Text = some txt := by rw [(NewLine_sound b m l hl).1, htxt]
    exact ⟨_, by simp [h1, h2, hl, this]; rfl⟩
  by_cases h3 : bt = "TABLE"
  · obtain ⟨t, ht⟩ := NewTable_total b m hb.box hb.rels hm (hcells (by simp [isKind, hbt, h3]))
    exact ⟨_, by simp [h1, h2, h3, ht]; rfl⟩
  by_cases h4 : bt = "KEY_VALUE_SET"
  · obtain ⟨r, hr⟩ := refsContainValue_total b.EntityTypes "KEY" hb.entities
    cases r with
    | false => exact ⟨_, by simp [h1, h2, h3, h4, hr]; rfl⟩
    | true =>
      obtain ⟨f, hf⟩ := NewField_total b m hb.box hb.rels hm
      exact ⟨_, by simp [h1, h2, h3, h4, hr, hf]; rfl⟩
  · exact ⟨_, by simp [h1, h2, h3, h4]; rfl⟩

theorem NewPage_total (blocks : List Block) (m : BlockMap) (h : PageInputOk blocks m) :
    ∃ p, NewPage blocks m = some p := by
  unfold NewPage Page.parse
  exact foldlM_total (Page.parseStep m) blocks
    (fun b hb p => by
      obtain ⟨c, hc⟩ := contribution_total m b (h.blocksOk b hb) h.indexOk (h.cellsOk b hb)
      exact ⟨c.apply p, by rw [parseStep_eq, hc]; rfl⟩) _

/-- C2. `NewPage` returns on well-formed input, and the text of the page it returns is the
concatenation, over the `LINE` blocks of the group in source order, of the text of the block
followed by a newline; no other block contributes. `OutputText` in no-write mode returns this
text, with no error and without a write. -/
theorem NewPage_text_is_lines_with_newlines (blocks : List Block) (m : BlockMap) :
    (PageInputOk blocks m → ∃ p, NewPage blocks m = some p) ∧
    (∀ p, NewPage blocks m = some p →
      ∃ texts : List String,
        (blocks.filter (isKind "LINE")).map (fun b => b.Text) = texts.map some ∧
        p.Text = String.join (texts.map fun t => t ++ "\n") ∧
        ∀ (o : OutputGenerator) (n : Int), o.OutputText p n true = ((p.Text, none), o.s3)) := by
  refine ⟨NewPage_total blocks m, fun p h => ?_⟩
  obtain ⟨-, -, -, -, -, texts, ht, hp⟩ := parse_fold_effect m blocks _ p h
  refine ⟨texts, ht, ?_, fun o n => rfl⟩
  rw [hp]
  simp

/-- C3. `Page.Content` corresponds one to one and in order to the source blocks of the group
that are `LINE` blocks, `TABLE` blocks or `KEY_VALUE_SET` blocks with the `KEY` role (those
whose field has no key, for want of a `CHILD` relationship, left out): its i-th element is
the `Line`, `Table` or `Field` built from the i-th such block. A source of a content element
that is a `KEY_VALUE_SET` block has the `KEY` role, so a block with the `VALUE` role alone is
never one. -/
theorem NewPage_content_follows_source_order (blocks : List Block) (m : BlockMap) :
    (PageInputOk blocks m → ∃ p, NewPage blocks m = some p) ∧
    (∀ p, NewPage blocks m = some p →
      p.Content.map some = (blocks.filter isContentSource).map (buildContent m)) ∧
    (∀ b, isContentSource b = true →
      isKind "LINE" b = true ∨ isKind "TABLE" b = true ∨
        (isKind "KEY_VALUE_SET" b = true ∧ some "KEY" ∈ b.EntityTypes)) := by
  refine ⟨NewPage_total blocks m, fun p h => ?_, fun b hb => ?_⟩
  · obtain ⟨hc, -⟩ := parse_fold_effect m blocks _ p h
    simpa using hc
  · simp only [isContentSource, isFieldSource, hasRole, Bool.or_eq_true, Bool.and_eq_true,
      List.contains_iff_exists_mem_beq] at hb
    rcases hb with (h1 | h1) | ⟨⟨h1, h2⟩, -⟩
    · exact Or.inl h1
    · exact Or.inr (Or.inl h1)
    · refine Or.inr (Or.inr ⟨h1, ?_⟩)
      obtain ⟨e, he, heq⟩ := h2
      have : some "KEY" = e := by simpa using heq
      rw [this]; exact he

theorem foldlM_each {σ α : Type} (f : σ → α → Option σ) (xs : List α) :
    ∀ s s', xs.foldlM f s = some s' → ∀ x ∈ xs, ∃ a a', f a x = some a' := by
  induction xs with
  | nil => intro s s' _ x hx; simp at hx
  | cons y ys ih =>
    intro s s' h x hx
    obtain ⟨s1, h1, h2⟩ := foldlM_cons_some _ _ _ _ _ h
    rcases List.mem_cons.mp hx with rfl | hx'
    · exact ⟨s, s1, h1⟩
    · exact ih s1 s' h2 x hx'

theorem NewPage_builds_field (blocks : List Block) (m : BlockMap) (p : Page) (b : Block)
    (h : NewPage blocks m = some p) (hb : b ∈ blocks)
    (hk : isKind "KEY_VALUE_SET" b = true) (hr : hasRole "KEY" b = true) :
    ∃ f, NewField b m = some f := by
  obtain ⟨p0, p1, hstep⟩ := foldlM_each (Page.parseStep m) blocks _ p h b hb
  rw [parseStep_eq] at hstep
  simp only [Option.map_eq_some'] at hstep
  obtain ⟨c, hc, -⟩ := hstep
  simp only [isKind, beq_iff_eq] at hk
  unfold contribution at hc
  simp only [hk] at hc
  simp only [show ¬ ("KEY_VALUE_SET" = "PAGE") by decide,
    show ¬ ("KEY_VALUE_SET" = "LINE") by decide, show ¬ ("KEY_VALUE_SET" = "TABLE") by decide,
    if_true, if_false, Option.bind_eq_some] at hc
  obtain ⟨isKey, hkey, hc⟩ := hc
  rw [refsContainValue_hasRole b "KEY" isKey hkey, hr] at hc
  simp only [if_true, Option.map_eq_some'] at hc
  obtain ⟨f, hf, -⟩ := hc
  exact ⟨f, hf⟩

theorem buildContent_field (m : BlockMap) (b : Block) (f : Field)
    (hsrc : isContentSource b = true) (h : buildContent m b = some (PageContent.field f)) :
    isFieldSource b = true ∧ NewField b m = some f := by
  unfold buildContent at h
  by_cases h1 : isKind "LINE" b = true
  · simp [h1] at h
  by_cases h2 : isKind "TABLE" b = true
  · simp [h1, h2] at h
  simp only [h1, h2, Bool.false_eq_true, if_false, Option.map_eq_some'] at h
  obtain ⟨f', hf', heq⟩ := h
  cases heq
  simp only [isContentSource, Bool.or_eq_true] at hsrc
  rcases hsrc with (h3 | h3) | h3
  · exact absurd h3 h1
  · exact absurd h3 h2
  · exact ⟨h3, hf'⟩

theorem isFieldSource_hasChildRel (b : Block) (h : isFieldSource b = true) :
    hasChildRel b = true := by
  simp only [isFieldSource, Bool.and_eq_true] at h
  exact h.2

/-- Every field that a page stores has a key. -/
theorem NewPage_fields_have_key (blocks : List Block) (m : BlockMap) (p : Page)
    (h : NewPage blocks m = some p) :
    (∀ f ∈ p.Form.Fields, f.Key.isSome = true) ∧
    (∀ kf ∈ p.Form.FieldsMap, kf.2.Key.isSome = true) ∧
    (∀ f, PageContent.field f ∈ p.Content → f.Key.isSome = true) := by
  obtain ⟨hc, -, -, hf, hfm, -⟩ := parse_fold_effect m blocks _ p h
  simp only [NewForm, List.map_nil, List.nil_append, List.append_nil] at hc hf hfm
  refine ⟨fun f hmem => ?_, fun kf hmem => ?_, fun f hmem => ?_⟩
  · have : some f ∈ p.Form.Fields.map some := List.mem_map.mpr ⟨f, hmem, rfl⟩
    rw [hf] at this
    obtain ⟨b', hb', hnew⟩ := List.mem_map.mp this
    rw [NewField_key_isSome b' m f hnew]
    exact isFieldSource_hasChildRel b' (List.mem_filter.mp hb').2
  · have : some kf ∈ p.Form.FieldsMap.map some := List.mem_map.mpr ⟨kf, hmem, rfl⟩
    rw [hfm, List.mem_reverse] at this
    obtain ⟨b', -, hnew⟩ := List.mem_map.mp this
    simp only [fieldEntry, Option.bind_eq_some, Option.map_eq_some'] at hnew
    obtain ⟨f, -, k, hk, rfl⟩ := hnew
    simp [hk]
  · have : some (PageContent.field f) ∈ p.Content.map some := List.mem_map.mpr ⟨_, hmem, rfl⟩
    rw [hc] at this
    obtain ⟨b', hb', hnew⟩ := List.mem_map.mp this
    obtain ⟨hsrc, hnf⟩ := buildContent_field m b' f (List.mem_filter.mp hb').2 hnew
    rw [NewField_key_isSome b' m f hnf]
    exact isFieldSource_hasChildRel b' hsrc

/-! ### The theorems at sample inputs -/

/-- Witness for C1: a response with a block before the first `PAGE` block and two pages is
split into three groups of one, two and two blocks. -/
theorem parseDocumentPagesAndBlockMap_partition_witness :
    (∀ b ∈ Example.twoPages.Blocks, b.BlockType ≠ none) ∧
    ∃ groups m, parseDocumentPagesAndBlockMap [Example.twoPages] = some (groups, m) ∧
      groups.flatten = Example.twoPages.Blocks ∧ (∀ g ∈ groups, g ≠ []) ∧
      groups.map List.length = [1, 2, 2] := by
  refine ⟨by decide, ?_⟩
  obtain ⟨groups, m, h1, h2, h3, -, -⟩ :=
    parseDocumentPagesAndBlockMap_partition Example.twoPages (by decide)
  refine ⟨groups, m, h1, h2, h3, ?_⟩
  have hval : (parseDocumentPagesAndBlockMap [Example.twoPages]).map
      (fun r => r.1.map List.length) = some [1, 2, 2] := by decide
  rw [h1] at hval
  exact Option.some.inj hval

/-- Witness for C2: a `PAGE` block and the lines "Hello" and "World" give the page text
"Hello\nWorld\n", which `OutputText` returns in no-write mode. -/
theorem NewPage_text_is_lines_with_newlines_witness :
    PageInputOk Example.helloWorld [] ∧
    ∃ p, NewPage Example.helloWorld [] = some p ∧ p.Text = "Hello\nWorld\n" ∧
      ∀ (o : OutputGenerator) (n : Int), o.OutputText p n true = (("Hello\nWorld\n", none), o.s3) := by
  have hok : PageInputOk Example.helloWorld [] := by decide
  refine ⟨hok, ?_⟩
  obtain ⟨p, hp⟩ := (NewPage_text_is_lines_with_newlines Example.helloWorld []).1 hok
  obtain ⟨texts, ht, htext, hout⟩ := (NewPage_text_is_lines_with_newlines Example.helloWorld []).2 p hp
  have hsrc : (Example.helloWorld.filter (isKind "LINE")).map (fun b => b.Text) =
      [some "Hello", some "World"] := by decide
  rw [hsrc] at ht
  have htexts : texts = ["Hello", "World"] := by
    have : List.map some ["Hello", "World"] = List.map some texts := ht
    exact (List.map_injective_iff.mpr (Option.some_injective _) this).symm
  subst htexts
  have hjoin : String.join (["Hello", "World"].map fun t => t ++ "\n") = "Hello\nWorld\n" := by
    decide
  rw [hjoin] at htext
  exact ⟨p, hp, htext, fun o n => by rw [hout o n, htext]⟩

/-- Witness for C3: of a page group with a line, a value block, a key block, a key block
without key and a table, `Content` holds the line, the field of the key block and the
table, in that order. -/
theorem NewPage_content_follows_source_order_witness :
    PageInputOk Example.mixedPage (Example.index (Example.nameField ++ Example.gridCells)) ∧
    Example.mixedPage.filter isContentSource =
      [Example.line "l1" "Hello" [], Example.nameKey, Example.grid] ∧
    ∃ p, NewPage Example.mixedPage (Example.index (Example.nameField ++ Example.gridCells)) =
        some p ∧
      p.Content.map some =
        [Example.line "l1" "Hello" [], Example.nameKey, Example.grid].map
          (buildContent (Example.index (Example.nameField ++ Example.gridCells))) := by
  have hok : PageInputOk Example.mixedPage
      (Example.index (Example.nameField ++ Example.gridCells)) := by decide
  have hsrc : Example.mixedPage.filter isContentSource =
      [Example.line "l1" "Hello" [], Example.nameKey, Example.grid] := by decide
  refine ⟨hok, hsrc, ?_⟩
  obtain ⟨p, hp⟩ := (NewPage_content_follows_source_order Example.mixedPage _).1 hok
  have := (NewPage_content_follows_source_order Example.mixedPage _).2.1 p hp
  rw [hsrc] at this
  exact ⟨p, hp, this⟩

/-- Witness for C4: a key block whose `CHILD` words are "First" and "Name" gives the key text
"First Name". -/
theorem NewField_key_from_child_words_witness :
    Example.nameKey.Relationships =
      [] ++ Example.child ["w1", "w2"] :: [Example.value ["v1"]] ∧
    isRel "CHILD" (Example.child ["w1", "w2"]) = true ∧
    (∀ x ∈ [Example.value ["v1"]], isRel "CHILD" x = false) ∧
    HasBox Example.nameKey ∧ RelsOk Example.nameKey ∧ IndexOk (Example.index Example.nameField) ∧
    ∃ f k, NewField Example.nameKey (Example.index Example.nameField) = some f ∧
      f.Key = some k ∧ k.Content.map Word.Text = [some "First", some "Name"] ∧
      k.Text = "First Name" := by
  have h1 : Example.nameKey.Relationships =
      [] ++ Example.child ["w1", "w2"] :: [Example.value ["v1"]] := rfl
  have h2 : isRel "CHILD" (Example.child ["w1", "w2"]) = true := by decide
  have h3 : ∀ x ∈ [Example.value ["v1"]], isRel "CHILD" x = false := by decide
  have h4 : HasBox Example.nameKey := by decide
  have h5 : RelsOk Example.nameKey := by decide
  have h6 : IndexOk (Example.index Example.nameField) := by decide
  refine ⟨h1, h2, h3, h4, h5, h6, ?_⟩
  have thm := NewField_key_from_child_words Example.nameKey (Example.index Example.nameField)
    [] [Example.value ["v1"]] (Example.child ["w1", "w2"]) h1 h2 h3
  obtain ⟨f, hf⟩ := thm.1 h4 h5 h6
  obtain ⟨k, hk, -, -⟩ := thm.2 f hf
  have hval : (NewField Example.nameKey (Example.index Example.nameField)).map
      (fun f => f.Key.map fun k => (k.Content.map Word.Text, k.Text)) =
      some (some ([some "First", some "Name"], "First Name")) := by decide
  rw [hf] at hval
  simp only [Option.map_some', hk, Option.some.injEq, Prod.mk.injEq] at hval
  exact ⟨f, k, hf, hk, hval.1, hval.2⟩

/-- C6, the code at a failing input. The `CHILD` relationship of the key block has no
identifier, so it resolves to no word; `NewField` gives the field a key with the empty text,
the test `f.Key != nil` of `Page.parse` lets it pass, and the field is in `Form.Fields`, in
`Form.FieldsMap` under the key text "" and in `Content`, where the diagnostic of
`Page.parse` ("key does not have content. Excluding key from output.") has such a key
excluded. A key block without a `CHILD` relationship is discarded. -/
theorem empty_key_field_is_kept :
    isKind "KEY_VALUE_SET" Example.emptyKey = true ∧ hasRole "KEY" Example.emptyKey = true ∧
    (resolve [] (childIds Example.emptyKey)).filter (isKind "WORD") = [] ∧
    (∃ p f k, NewPage [Example.emptyKey] [] = some p ∧ NewField Example.emptyKey [] = some f ∧
      f.Key = some k ∧ k.Content = [] ∧ k.Text = "" ∧
      p.Form.Fields = [f] ∧ p.Form.FieldsMap = [("", f)] ∧
      p.Content = [PageContent.field f] ∧ p.Content.length = 1) ∧
    hasChildRel Example.noKey = false ∧
    (NewPage [Example.noKey] []).map (fun p => (p.Form.Fields, p.Form.FieldsMap, p.Content)) =
      some ([], [], []) := by
  refine ⟨by decide, by decide, by decide, ?_, by decide, by decide⟩
  exact ⟨_, _, _, rfl, rfl, rfl, rfl, rfl, rfl, rfl, rfl, rfl⟩

/-- Witness for C7: the cells (1,1), (1,2), (2,1), (2,2) in that order give the rows
`[[c11, c12], [c21, c22]]`. -/
theorem NewTable_row_major_rows_are_runs_witness :
    Example.grid.Relationships = [] ++ Example.child ["c11", "c12", "c21", "c22"] :: [] ∧
    isRel "CHILD" (Example.child ["c11", "c12", "c21", "c22"]) = true ∧
    (resolve (Example.index Example.gridCells)
      (Example.child ["c11", "c12", "c21", "c22"]).Ids).map (fun v => v.RowIndex) =
      [1, 1, 2, 2].map some ∧
    [(1 : Int), 1, 2, 2].Pairwise (fun i j => i ≤ j) ∧ [(1 : Int), 1, 2, 2].head? = some 1 ∧
    HasBox Example.grid ∧ RelsOk Example.grid ∧ IndexOk (Example.index Example.gridCells) ∧
    ∃ t, NewTable Example.grid (Example.index Example.gridCells) = some t ∧
      t.Rows.map (fun row => row.Cells.map fun c => c.Id) =
        [[some "c11", some "c12"], [some "c21", some "c22"]] ∧
      (∀ row ∈ t.Rows, row.Cells ≠ []) ∧ (∀ row ∈ t.Rows, ∃ i, RowAt i row) ∧
      t.Rows.Pairwise RowBefore := by
  have h1 : Example.grid.Relationships =
      [] ++ Example.child ["c11", "c12", "c21", "c22"] :: [] := rfl
  have h2 : isRel "CHILD" (Example.child ["c11", "c12", "c21", "c22"]) = true := by decide
  have h3 : (resolve (Example.index Example.gridCells)
      (Example.child ["c11", "c12", "c21", "c22"]).Ids).map (fun v => v.RowIndex) =
      [1, 1, 2, 2].map some := by decide
  have h4 : [(1 : Int), 1, 2, 2].Pairwise (fun i j => i ≤ j) := by decide
  have h5 : [(1 : Int), 1, 2, 2].head? = some 1 := rfl
  have h6 : HasBox Example.grid := by decide
  have h7 : RelsOk Example.grid := by decide
  have h8 : IndexOk (Example.index Example.gridCells) := by decide
  refine ⟨h1, h2, h3, h4, h5, h6, h7, h8, ?_⟩
  have thm := NewTable_row_major_rows_are_runs Example.grid (Example.index Example.gridCells)
    [] [] (Example.child ["c11", "c12", "c21", "c22"]) [1, 1, 2, 2] h1 h2
    (by decide) (by decide) h3 h4 h5
  obtain ⟨t, ht⟩ := thm.1 h6 h7 h8
  obtain ⟨-, r1, r2, r3⟩ := thm.2 t ht
  have hev : (NewTable Example.grid (Example.index Example.gridCells)).map
      (fun t => t.Rows.map fun row => row.Cells.map fun c => c.Id) =
      some [[some "c11", some "c12"], [some "c21", some "c22"]] := by decide
  rw [ht] at hev
  exact ⟨t, ht, Option.some.inj hev, r1, r2, r3⟩

/-- Witness for C8: a table whose cells come out of row order, one of them spanning two rows
and two columns, and one reference being absent from the index, keeps each resolved cell
once, in traversal order, with its spans. -/
theorem NewTable_rows_keep_every_cell_once_witness :
    Example.loose.Relationships = [] ++ Example.child ["a", "ghost", "b", "c"] :: [] ∧
    isRel "CHILD" (Example.child ["a", "ghost", "b", "c"]) = true ∧
    HasBox Example.loose ∧ RelsOk Example.loose ∧ IndexOk (Example.index Example.looseCells) ∧
    (∀ v ∈ resolve (Example.index Example.looseCells) (Example.child ["a", "ghost", "b", "c"]).Ids,
      v.RowIndex.isSome = true) ∧
    ∃ t, NewTable Example.loose (Example.index Example.looseCells) = some t ∧
      (t.Rows.flatMap Row.Cells).map some =
        Example.looseCells.map (fun v => NewCell v (Example.index Example.looseCells)) ∧
      (t.Rows.flatMap Row.Cells).map (fun c => (c.Id, c.RowSpan, c.ColumnSpan)) =
        [(some "a", some 2, some 2), (some "b", some 1, some 1), (some "c", some 1, some 1)] := by
  have h1 : Example.loose.Relationships =
      [] ++ Example.child ["a", "ghost", "b", "c"] :: [] := rfl
  have h2 : isRel "CHILD" (Example.child ["a", "ghost", "b", "c"]) = true := by decide
  have h3 : HasBox Example.loose := by decide
  have h4 : RelsOk Example.loose := by decide
  have h5 : IndexOk (Example.index Example.looseCells) := by decide
  have h6 : ∀ v ∈ resolve (Example.index Example.looseCells)
      (Example.child ["a", "ghost", "b", "c"]).Ids, v.RowIndex.isSome = true := by decide
  refine ⟨h1, h2, h3, h4, h5, h6, ?_⟩
  have thm := NewTable_rows_keep_every_cell_once Example.loose
    (Example.index Example.looseCells) [] [] (Example.child ["a", "ghost", "b", "c"]) h1 h2
    (by decide) (by decide)
  obtain ⟨t, ht⟩ := thm.1 h3 h4 h5 h6
  obtain ⟨hcells, -⟩ := thm.2 t ht
  have hres : resolve (Example.index Example.looseCells)
      (Example.child ["a", "ghost", "b", "c"]).Ids = Example.looseCells := by decide
  rw [hres] at hcells
  have hev : (NewTable Example.loose (Example.index Example.looseCells)).map
      (fun t => (t.Rows.flatMap Row.Cells).map fun c => (c.Id, c.RowSpan, c.ColumnSpan)) =
      some [(some "a", some 2, some 2), (some "b", some 1, some 1),
        (some "c", some 1, some 1)] := by decide
  rw [ht] at hev
  exact ⟨t, ht, hcells, Option.some.inj hev⟩

/-- Witness for C9: a line that refers to a word and to an identifier absent from the index
has the same words as the line without that identifier. -/
theorem absent_identifier_changes_nothing_witness :
    "ghost" ∉ (Example.index [Example.word "w1" "Hello"]).map Prod.fst ∧
    eraseBlockId "ghost" Example.ghostLine = Example.line "l1" "Hello" ["w1"] ∧
    (NewLine (Example.line "l1" "Hello" ["w1"]) (Example.index [Example.word "w1" "Hello"])).map
        Line.Words =
      (NewLine Example.ghostLine (Example.index [Example.word "w1" "Hello"])).map Line.Words ∧
    (NewLine Example.ghostLine (Example.index [Example.word "w1" "Hello"])).map
        (fun l => l.Words.map Word.Text) = some [some "Hello"] := by
  have h1 : "ghost" ∉ (Example.index [Example.word "w1" "Hello"]).map Prod.fst := by decide
  have h2 : eraseBlockId "ghost" Example.ghostLine = Example.line "l1" "Hello" ["w1"] := by
    decide
  have thm := absent_identifier_changes_nothing Example.ghostLine
    (Example.index [Example.word "w1" "Hello"]) "ghost" h1
  refine ⟨h1, h2, ?_, by decide⟩
  rw [← h2]
  exact thm.1

/-- Witness for C10: a line that refers to a word and to a `PAGE` block keeps its own text and
has the word as its only word. -/
theorem NewLine_text_verbatim_words_resolved_witness :
    HasBox Example.ghostLine ∧ RelsOk Example.ghostLine ∧
    IndexShapeOk (Example.index [Example.word "w1" "Hello", Example.block "PAGE" "ghost"]) ∧
    ∃ l, NewLine Example.ghostLine
        (Example.index [Example.word "w1" "Hello", Example.block "PAGE" "ghost"]) = some l ∧
      l.Text = some "Hello" ∧ l.Words.map some = [NewWord (Example.word "w1" "Hello")] := by
  have h1 : HasBox Example.ghostLine := by decide
  have h2 : RelsOk Example.ghostLine := by decide
  have h3 : IndexShapeOk
      (Example.index [Example.word "w1" "Hello", Example.block "PAGE" "ghost"]) := by decide
  refine ⟨h1, h2, h3, ?_⟩
  have thm := NewLine_text_verbatim_words_resolved Example.ghostLine
    (Example.index [Example.word "w1" "Hello", Example.block "PAGE" "ghost"])
  obtain ⟨l, hl⟩ := thm.1 h1 h2 h3
  obtain ⟨ht, hw⟩ := thm.2 l hl
  have hres : (resolve (Example.index [Example.word "w1" "Hello", Example.block "PAGE" "ghost"])
      (childIds Example.ghostLine)).filter (isKind "WORD") = [Example.word "w1" "Hello"] := by
    decide
  rw [hres] at hw
  exact ⟨l, hl, ht, hw⟩

/-! ### The form map and the block index -/

theorem AddField_fold (fs : List Field) :
    ∀ form0 : Form, (∀ f ∈ fs, f.Key.isSome = true) →
      ∃ form, fs.foldlM Form.AddField form0 = some form ∧
        form.Fields = form0.Fields ++ fs ∧
        ∀ k, form.FieldsMap.lookup k =
          (fs.reverse.find? (hasKeyText k)).or (form0.FieldsMap.lookup k) := by
  induction fs with
  | nil => intro form0 _; exact ⟨form0, rfl, by simp, fun k => by simp⟩
  | cons f fs ih =>
    intro form0 hk
    obtain ⟨key, hkey⟩ := Option.isSome_iff_exists.mp (hk f (List.mem_cons_self _ _))
    obtain ⟨form, hfold, hfields, hmap⟩ :=
      ih { Fields := form0.Fields ++ [f], FieldsMap := (key.Text, f) :: form0.FieldsMap }
        (fun x hx => hk x (List.mem_cons_of_mem _ hx))
    refine ⟨form, by simp [List.foldlM_cons, Form.AddField, hkey, hfold], by simp [hfields], ?_⟩
    intro k
    rw [hmap k, List.reverse_cons, List.find?_append, List.lookup_cons]
    by_cases hkk : k = key.Text
    · subst hkk
      cases fs.reverse.find? (hasKeyText key.Text) <;> simp [hasKeyText, hkey, List.find?_cons]
    · have h1 : (k == key.Text) = false := by simpa using hkk
      have h2 : hasKeyText k f = false := by
        simp only [hasKeyText, hkey, Option.map_some', beq_eq_false_iff_ne, ne_eq,
          Option.some.injEq]
        exact fun h => hkk h.symm
      cases fs.reverse.find? (hasKeyText k) <;> simp [h1, h2, List.find?_cons]

/-- C11. After `AddField` of the fields `fs`, each with a key, on a new form, in order,
`Form.Fields` is `fs` in that order, fields with equal key texts included, and for every key
text `k` `GetFieldByKey k` is the last field of `fs` whose key text is `k`, or the empty
field `&Field{}` when no field of `fs` has that key text. -/
theorem AddField_keeps_order_and_last_key_wins (fs : List Field)
    (hkeys : ∀ f ∈ fs, f.Key.isSome = true) :
    ∃ form, fs.foldlM Form.AddField NewForm = some form ∧
      form.Fields = fs ∧
      ∀ k, form.GetFieldByKey k =
        match fs.reverse.find? (hasKeyText k) with
        | some f => f
        | none => { Key := none, Value := none } := by
  obtain ⟨form, hfold, hfields, hmap⟩ := AddField_fold fs NewForm hkeys
  refine ⟨form, hfold, by simpa [NewForm] using hfields, fun k => ?_⟩
  unfold Form.GetFieldByKey
  rw [hmap k]
  cases fs.reverse.find? (hasKeyText k) <;> simp [NewForm]

theorem parse_step_blockMap (st st' : ParseState) (b : Block)
    (h : parseDocumentPagesAndBlockMap.step st b = some st') :
    st'.blockMap = (blockEntry b).toList ++ st.blockMap := by
  unfold parseDocumentPagesAndBlockMap.step at h
  cases hbt : b.BlockType with
  | none => simp [hbt] at h
  | some bt =>
    cases hid : b.Id with
    | none =>
      by_cases hp : bt = "PAGE" <;> simp [hbt, hid, hp] at h <;> simp [← h, blockEntry, hid]
    | some id =>
      by_cases hp : bt = "PAGE" <;> simp [hbt, hid, hp] at h <;> simp [← h, blockEntry, hid]

theorem parse_blocks_blockMap (bs : List Block) :
    ∀ st st' : ParseState, bs.foldlM parseDocumentPagesAndBlockMap.step st = some st' →
      st'.blockMap = (bs.filterMap blockEntry).reverse ++ st.blockMap := by
  induction bs with
  | nil => intro st st' h; simp at h; simp [h]
  | cons b bs ih =>
    intro st st' h
    obtain ⟨s1, h1, h2⟩ := foldlM_cons_some _ _ _ _ _ h
    rw [ih s1 st' h2, parse_step_blockMap st s1 b h1]
    cases hb : blockEntry b <;> simp [List.filterMap_cons, hb]

theorem parse_responses_blockMap (rps : List AnalyzeDocumentOutput) :
    ∀ st st' : ParseState,
      rps.foldlM (fun st page => page.Blocks.foldlM parseDocumentPagesAndBlockMap.step st) st =
        some st' →
      st'.blockMap = ((rps.flatMap fun r => r.Blocks).filterMap blockEntry).reverse ++
        st.blockMap := by
  induction rps with
  | nil => intro st st' h; simp at h; simp [h]
  | cons r rps ih =>
    intro st st' h
    obtain ⟨s1, h1, h2⟩ := foldlM_cons_some _ _ _ _ _ h
    rw [ih s1 st' h2, parse_blocks_blockMap r.Blocks st s1 h1]
    simp [List.filterMap_append]

theorem lookup_blockEntry (l : List Block) (id : String) :
    (l.filterMap blockEntry).lookup id = l.find? (fun b => b.Id == some id) := by
  induction l with
  | nil => rfl
  | cons b l ih =>
    cases hid : b.Id with
    | none => simp [List.filterMap_cons, blockEntry, hid, List.find?_cons, ih]
    | some i =>
      by_cases hi : id = i
      · subst hi; simp [List.filterMap_cons, blockEntry, hid, List.find?_cons, List.lookup_cons]
      · have h1 : (id == i) = false := by simpa using hi
        have h2 : (some i == some id) = false := by
          simp only [beq_eq_false_iff_ne, ne_eq, Option.some.injEq]
          exact fun h => hi h.symm
        simp [List.filterMap_cons, blockEntry, hid, List.find?_cons, List.lookup_cons, h1, h2, ih]

theorem parse_step_total (st : ParseState) (b : Block) (hb : b.BlockType ≠ none) :
    ∃ st', parseDocumentPagesAndBlockMap.step st b = some st' := by
  obtain ⟨bt, hbt⟩ := Option.ne_none_iff_exists'.mp hb
  unfold parseDocumentPagesAndBlockMap.step
  by_cases hp : bt = "PAGE"
  · exact ⟨_, by simp [hbt, hp]; rfl⟩
  · exact ⟨_, by simp [hbt, hp]; rfl⟩

/-- C12. `parseDocumentPagesAndBlockMap` returns when every block has a kind, and the index
it returns maps every identifier to the last block, in input order across all responses,
that carries the identifier; every key of the index is the identifier of a block of the
input. -/
theorem blockMap_last_block_wins (rps : List AnalyzeDocumentOutput) :
    ((∀ r ∈ rps, ∀ b ∈ r.Blocks, b.BlockType ≠ none) →
      ∃ groups m, parseDocumentPagesAndBlockMap rps = some (groups, m)) ∧
    (∀ groups m, parseDocumentPagesAndBlockMap rps = some (groups, m) →
      (∀ id, m.lookup id =
        (rps.flatMap fun r => r.Blocks).reverse.find? (fun b => b.Id == some id)) ∧
      (∀ k ∈ m.map Prod.fst, ∃ b ∈ rps.flatMap fun r => r.Blocks, b.Id = some k)) := by
  constructor
  · intro hk
    obtain ⟨st, hst⟩ := foldlM_total
      (fun st (page : AnalyzeDocumentOutput) =>
        page.Blocks.foldlM parseDocumentPagesAndBlockMap.step st) rps
      (fun r hr s => foldlM_total parseDocumentPagesAndBlockMap.step r.Blocks
        (fun b hb s' => parse_step_total s' b (hk r hr b hb)) s)
      { blockMap := [], documentPages := [], documentPage := [] }
    refine ⟨if st.documentPage.length > 0 then st.documentPages ++ [st.documentPage]
      else st.documentPages, st.blockMap, ?_⟩
    simp only [parseDocumentPagesAndBlockMap, hst, Option.bind_eq_bind,
      Option.some_bind, Option.pure_def]
  · intro groups m h
    simp only [parseDocumentPagesAndBlockMap, Option.bind_eq_bind, Option.pure_def,
      Option.bind_eq_some, Option.some.injEq, Prod.mk.injEq] at h
    obtain ⟨st, hst, -, hm⟩ := h
    have hmap := parse_responses_blockMap rps _ st hst
    simp only [List.append_nil] at hmap
    rw [← hm, hmap]
    constructor
    · intro id
      rw [← List.filterMap_reverse, lookup_blockEntry]
    · intro k hkmem
      obtain ⟨kv, hkv, rfl⟩ := List.mem_map.mp hkmem
      rw [List.mem_reverse, List.mem_filterMap] at hkv
      obtain ⟨b, hb, hentry⟩ := hkv
      refine ⟨b, hb, ?_⟩
      simp only [blockEntry, Option.map_eq_some'] at hentry
      obtain ⟨id, hid, rfl⟩ := hentry
      exact hid

/-! ### The projections (`OutputForm`, `OutputTable`) -/

theorem foldl_append_singleton {α β : Type} (f : α → β) (xs : List α) :
    ∀ acc : List β, xs.foldl (fun acc x => acc ++ [f x]) acc = acc ++ xs.map f := by
  induction xs with
  | nil => intro acc; simp
  | cons x xs ih => intro acc; simp [ih]

theorem foldl_append_list {α β : Type} (f : α → List β) (xs : List α) :
    ∀ acc : List β, xs.foldl (fun acc x => acc ++ f x) acc = acc ++ xs.flatMap f := by
  induction xs with
  | nil => intro acc; simp
  | cons x xs ih => intro acc; simp [ih]

theorem csvItem_eq (f : Field) : OutputGenerator.OutputForm.csvItem f = formRow f := by
  unfold OutputGenerator.OutputForm.csvItem formRow
  cases f.Key <;> cases f.Value <;> rfl

theorem form_rows_eq (page : Page) :
    page.Form.Fields.foldl
      (fun csvData field => csvData ++ [OutputGenerator.OutputForm.csvItem field]) [] =
      page.Form.Fields.map formRow := by
  rw [foldl_append_singleton OutputGenerator.OutputForm.csvItem]
  simp [csvItem_eq]

theorem tableStep_eq (csvData : List (List String)) (t : Table) :
    OutputGenerator.OutputTable.tableStep csvData t = csvData ++ tableRows t := by
  unfold OutputGenerator.OutputTable.tableStep tableRows
  have hcells : ∀ row : Row,
      row.Cells.foldl (fun csvRow cell => csvRow ++ [cell.Text]) [] =
        row.Cells.map fun c => c.Text := by
    intro row
    rw [foldl_append_singleton (fun c : Cell => c.Text)]; simp
  simp only [hcells]
  rw [foldl_append_singleton (fun row : Row => row.Cells.map fun c => c.Text)]
  simp

theorem table_rows_eq (page : Page) :
    page.Tables.foldl OutputGenerator.OutputTable.tableStep [] = page.Tables.flatMap tableRows := by
  have : OutputGenerator.OutputTable.tableStep = fun acc t => acc ++ tableRows t := by
    funext acc t; exact tableStep_eq acc t
  rw [this, foldl_append_list tableRows]
  simp

/-- C14. `OutputTable` in no-write mode returns, without error and without a write, the
concatenation over the tables of the page, in order, of the marker row `["Table"]`, one row
per table row with the texts of its cells in cell order, and two empty rows; the number of
rows is the sum over the tables of 3 plus the number of table rows, and there is no row when
the page has no table. -/
theorem OutputTable_rows (o : OutputGenerator) (page : Page) (p : Int) :
    o.OutputTable page p true = ((page.Tables.flatMap tableRows, none), o.s3) ∧
    (page.Tables.flatMap tableRows).length =
      (page.Tables.map fun t => 3 + t.Rows.length).sum ∧
    (page.Tables = [] → (o.OutputTable page p true).1.1 = []) := by
  have h : o.OutputTable page p true = ((page.Tables.flatMap tableRows, none), o.s3) := by
    simp [OutputGenerator.OutputTable, table_rows_eq]
  refine ⟨h, ?_, fun hnil => by rw [h, hnil]; rfl⟩
  induction page.Tables with
  | nil => rfl
  | cons t ts ih =>
    simp only [List.flatMap_cons, List.length_append, ih, List.map_cons, List.sum_cons]
    simp [tableRows]
    omega

/-- C15. `OutputForm` in no-write mode returns, without error and without a write, one row
per field of `Page.Form.Fields`, in form order; every row has the two entries key text and
value text, and the value text is the empty string when the field has no value. -/
theorem OutputForm_rows (o : OutputGenerator) (page : Page) (p : Int) :
    o.OutputForm page p true = ((page.Form.Fields.map formRow, none), o.s3) ∧
    (∀ f : Field, formRow f =
      [(f.Key.map fun k => k.Text).getD "", (f.Value.map fun v => v.Text).getD ""]) ∧
    (∀ f : Field, (formRow f).length = 2) ∧
    (∀ f : Field, f.Value = none → ∃ keyText, formRow f = [keyText, ""]) := by
  refine ⟨by simp [OutputGenerator.OutputForm, form_rows_eq], fun f => rfl, fun f => rfl,
    fun f hv => ⟨_, by simp [formRow, hv]; rfl⟩⟩

/-! ### The writer (`WriteTextractOutputs`) -/

open awshelper

theorem runWrites_append (xs ys : List PutObject) :
    ∀ s : S3Helper, runWrites s (xs ++ ys) = orReturn (runWrites s xs) fun s1 => runWrites s1 ys := by
  induction xs with
  | nil => intro s; rfl
  | cons c cs ih =>
    intro s
    simp only [List.cons_append, runWrites]
    cases h : s.put c with
    | mk e s1 =>
      cases e with
      | none => simp only [orReturn]; exact ih s1
      | some err => rfl

theorem put_eq (s : S3Helper) (c : PutObject) :
    s.put c = (s.respond s.calls c, { s with calls := s.calls ++ [c] }) := rfl

theorem orReturn_assoc (r : Option String × S3Helper)
    (f g : S3Helper → Option String × S3Helper) :
    orReturn (orReturn r f) g = orReturn r fun s => orReturn (f s) g := by
  obtain ⟨e, s⟩ := r
  cases e <;> rfl

theorem orReturn_done (r : Option String × S3Helper) :
    orReturn r (fun s => (none, s)) = r := by
  obtain ⟨e, s⟩ := r
  cases e <;> rfl

theorem pageStep_writes (marshal : json.Marshal) (o : OutputGenerator) (tag : Option String)
    (s : S3Helper) (page : Page) (p : Int) (hm : marshal.blocks page.Blocks = none) :
    OutputGenerator.WriteTextractOutputs.pageStep marshal o tag s page p =
      runWrites s (pageWrites o tag page p) := by
  unfold OutputGenerator.WriteTextractOutputs.pageStep pageWrites
  simp only [hm, orReturn, S3Helper.WriteToS3, S3Helper.WriteCSV, S3Helper.WriteCSVRaw,
    OutputGenerator.OutputText, OutputGenerator.OutputForm, OutputGenerator.OutputTable,
    form_rows_eq, table_rows_eq, List.cons_append, List.nil_append, runWrites, put_eq,
    Bool.false_eq_true, if_false]
  cases s.respond s.calls _ with
  | some e => rfl
  | none =>
    simp only [orReturn]
    cases S3Helper.respond _ _ _ with
    | some e => rfl
    | none =>
      simp only [orReturn]
      cases o.IsForms with
      | false =>
        cases o.IsTables with
        | false => rfl
        | true =>
          simp only [if_true, Bool.false_eq_true, if_false, List.nil_append, runWrites, put_eq]
          cases S3Helper.respond _ _ _ <;> rfl
      | true =>
        simp only [if_true, List.cons_append, List.nil_append, runWrites, put_eq]
        cases S3Helper.respond _ _ _ with
        | some e => rfl
        | none =>
          simp only [orReturn]
          cases o.IsTables with
          | false => rfl
          | true =>
            simp only [if_true, runWrites, put_eq]
            cases S3Helper.respond _ _ _ <;> rfl

theorem pageStep_refused (marshal : json.Marshal) (o : OutputGenerator) (tag : Option String)
    (s : S3Helper) (page : Page) (p : Int) (err : String)
    (hm : marshal.blocks page.Blocks = some err) :
    OutputGenerator.WriteTextractOutputs.pageStep marshal o tag s page p = (some err, s) := by
  unfold OutputGenerator.WriteTextractOutputs.pageStep
  simp only [hm, orReturn]

theorem pages_eq (marshal : json.Marshal) (o : OutputGenerator) (tag : Option String)
    (pages : List Page) :
    ∀ (p : Int) (s : S3Helper),
      OutputGenerator.WriteTextractOutputs.pages marshal o tag pages p s =
        runPlan s (pagesPlan marshal o tag pages p) := by
  induction pages with
  | nil => intro p s; rfl
  | cons page rest ih =>
    intro p s
    cases hm : marshal.blocks page.Blocks with
    | some err =>
      simp only [OutputGenerator.WriteTextractOutputs.pages, pagesPlan, hm,
        pageStep_refused marshal o tag s page p err hm]
      rfl
    | none =>
      simp only [OutputGenerator.WriteTextractOutputs.pages, pagesPlan, hm,
        pageStep_writes marshal o tag s page p hm, runPlan, runWrites_append, orReturn_assoc]
      congr 1
      funext s1
      exact ih (p + 1) s1

theorem pagesPlan_initial (marshal : json.Marshal) (o : OutputGenerator) (tag : Option String)
    (pages : List Page) :
    ∀ p : Int, (pagesPlan marshal o tag pages p).1 <+: pagesWrites o tag pages p := by
  induction pages with
  | nil => intro p; exact List.prefix_refl _
  | cons page rest ih =>
    intro p
    cases hm : marshal.blocks page.Blocks with
    | some err => simp only [pagesPlan, hm]; exact List.nil_prefix
    | none =>
      simp only [pagesPlan, hm, pagesWrites]
      exact (List.prefix_append_right_inj _).mpr (ih (p + 1))

theorem pagesPlan_all (marshal : json.Marshal) (o : OutputGenerator) (tag : Option String)
    (pages : List Page) (h : ∀ page ∈ pages, marshal.blocks page.Blocks = none) :
    ∀ p : Int, pagesPlan marshal o tag pages p = (pagesWrites o tag pages p, none) := by
  induction pages with
  | nil => intro p; rfl
  | cons page rest ih =>
    intro p
    have hm := h page (List.mem_cons_self _ _)
    simp only [pagesPlan, hm, pagesWrites,
      ih (fun x hx => h x (List.mem_cons_of_mem _ hx)) (p + 1)]

theorem pagesPlan_complete (marshal : json.Marshal) (o : OutputGenerator) (tag : Option String)
    (pages : List Page) :
    ∀ p : Int, (pagesPlan marshal o tag pages p).2 = none →
      (pagesPlan marshal o tag pages p).1 = pagesWrites o tag pages p := by
  induction pages with
  | nil => intro p _; rfl
  | cons page rest ih =>
    intro p h
    cases hm : marshal.blocks page.Blocks with
    | some err => simp [pagesPlan, hm] at h
    | none =>
      simp only [pagesPlan, hm] at h
      simp only [pagesPlan, hm, pagesWrites, ih (p + 1) h]

theorem writePlan_initial (marshal : json.Marshal) (o : OutputGenerator) (tag : Option String) :
    (writePlan marshal o tag).1 <+: pagesWrites o tag o.Document.Pages 1 ++ [fullWrite o tag] := by
  have hinit := pagesPlan_initial marshal o tag o.Document.Pages 1
  have hleft : (pagesPlan marshal o tag o.Document.Pages 1).1 <+:
      pagesWrites o tag o.Document.Pages 1 ++ [fullWrite o tag] :=
    hinit.trans (List.prefix_append _ _)
  unfold writePlan
  cases h2 : (pagesPlan marshal o tag o.Document.Pages 1).2 with
  | some err => exact hleft
  | none =>
    cases hr : marshal.response o.Response with
    | some err => exact hleft
    | none =>
      simp only
      rw [pagesPlan_complete marshal o tag o.Document.Pages 1 h2]

theorem writePlan_all (marshal : json.Marshal) (o : OutputGenerator) (tag : Option String)
    (hblocks : ∀ page ∈ o.Document.Pages, marshal.blocks page.Blocks = none)
    (hresponse : marshal.response o.Response = none) :
    writePlan marshal o tag = (pagesWrites o tag o.Document.Pages 1 ++ [fullWrite o tag], none) := by
  simp only [writePlan, pagesPlan_all marshal o tag o.Document.Pages hblocks 1, hresponse]

theorem WriteTextractOutputs_eq (marshal : json.Marshal) (o : OutputGenerator)
    (tag : Option String) (hpages : o.Document.Pages ≠ []) :
    o.WriteTextractOutputs marshal tag = runPlan o.s3 (writePlan marshal o tag) := by
  have hlen : ¬ o.Document.Pages.length = 0 := by
    intro h; exact hpages (List.length_eq_zero.mp h)
  simp only [OutputGenerator.WriteTextractOutputs, hlen, if_false, pages_eq, runPlan,
    orReturn_assoc, writePlan]
  cases h2 : (pagesPlan marshal o tag o.Document.Pages 1).2 with
  | some err => rfl
  | none =>
    cases hr : marshal.response o.Response with
    | some err => rfl
    | none =>
      simp only [runWrites_append, orReturn_assoc, S3Helper.WriteToS3, fullWrite, runWrites,
        orReturn_done]
      rfl

theorem runPlan_state (s : S3Helper) (plan : List PutObject × Option String) :
    (runPlan s plan).2 = (runWrites s plan.1).2 := by
  unfold runPlan
  cases runWrites s plan.1 with
  | mk e s1 => cases e <;> rfl

theorem runPlan_error (s : S3Helper) (plan : List PutObject × Option String)
    (h : (runWrites s plan.1).1 ≠ none) : (runPlan s plan).1 = (runWrites s plan.1).1 := by
  unfold runPlan
  cases hr : runWrites s plan.1 with
  | mk e s1 =>
    cases e with
    | none => rw [hr] at h; exact absurd rfl h
    | some err => rfl

theorem runWrites_calls (plan : List PutObject) :
    ∀ s : S3Helper, (runWrites s plan).2.calls = s.calls ++ (traceOf s plan).map Prod.fst ∧
      (runWrites s plan).2.respond = s.respond := by
  induction plan with
  | nil => intro s; simp [runWrites, traceOf]
  | cons c cs ih =>
    intro s
    simp only [runWrites, traceOf, put_eq]
    cases h : s.respond s.calls c with
    | some e => simp [orReturn]
    | none =>
      simp only [orReturn]
      obtain ⟨h1, h2⟩ := ih { s with calls := s.calls ++ [c] }
      rw [h1, h2]
      simp

theorem traceOf_answers (plan : List PutObject) :
    ∀ s : S3Helper, (traceOf s plan).map Prod.snd = answers s ((traceOf s plan).map Prod.fst) := by
  induction plan with
  | nil => intro s; rfl
  | cons c cs ih =>
    intro s
    simp only [traceOf]
    cases h : s.respond s.calls c with
    | some e => simp [answers, h]
    | none => simp [answers, h, ih]

theorem traceOf_initial (plan : List PutObject) :
    ∀ s : S3Helper, (traceOf s plan).map Prod.fst <+: plan := by
  induction plan with
  | nil => intro s; simp [traceOf]
  | cons c cs ih =>
    intro s
    simp only [traceOf]
    cases h : s.respond s.calls c with
    | some e => simp
    | none =>
      simp only [List.map_cons]
      exact (List.prefix_cons_inj c).mpr (ih _)

theorem traceOf_failure_is_last (plan : List PutObject) :
    ∀ (s : S3Helper) (pre post : List (PutObject × Option String)) (x : PutObject × Option String),
      traceOf s plan = pre ++ x :: post → x.2 ≠ none →
      post = [] ∧ (runWrites s plan).1 = x.2 := by
  induction plan with
  | nil => intro s pre post x h; simp [traceOf] at h
  | cons c cs ih =>
    intro s pre post x h hx
    simp only [traceOf] at h
    simp only [runWrites, put_eq]
    cases hr : s.respond s.calls c with
    | some e =>
      simp only [hr] at h
      cases pre with
      | nil =>
        simp only [List.nil_append, List.cons.injEq] at h
        obtain ⟨h1, h2⟩ := h
        exact ⟨h2.symm, by rw [← h1]; rfl⟩
      | cons y ys =>
        simp only [List.cons_append, List.cons.injEq] at h
        have := h.2
        simp at this
    | none =>
      simp only [hr] at h
      cases pre with
      | nil =>
        simp only [List.nil_append, List.cons.injEq] at h
        exact absurd (by rw [← h.1]) hx
      | cons y ys =>
        simp only [List.cons_append, List.cons.injEq] at h
        simp only [orReturn]
        exact ih _ ys post x h.2 hx

theorem runWrites_accepting (plan : List PutObject) :
    ∀ s : S3Helper, AcceptsAll s →
      (runWrites s plan).1 = none ∧ (runWrites s plan).2.calls = s.calls ++ plan := by
  induction plan with
  | nil => intro s _; simp [runWrites]
  | cons c cs ih =>
    intro s hs
    simp only [runWrites, put_eq, hs s.calls c, orReturn]
    obtain ⟨h1, h2⟩ := ih { s with calls := s.calls ++ [c] } (fun h c' => hs h c')
    exact ⟨h1, by rw [h2]; simp⟩

theorem page_path_ne_full (base mid tail : String) (c : Char) (rest : List Char)
    (hc : c ≠ 'f') (hmid : ("/page-" ++ mid ++ tail).data = '/' :: c :: rest) :
    base ++ "/page-" ++ mid ++ tail ≠ base ++ "/fullresponse.json" := by
  intro h
  have h2 := congrArg String.data h
  simp only [String.data_append, List.append_assoc] at h2 hmid
  rw [hmid] at h2
  have h3 := List.append_cancel_left h2
  simp only [List.cons.injEq, true_and] at h3
  exact hc h3.1

theorem page_path_data (mid tail : String) :
    ("/page-" ++ mid ++ tail).data = '/' :: 'p' :: ("age-" ++ mid ++ tail).data := by
  simp only [String.data_append]
  rfl

theorem pageWrites_not_full (o : OutputGenerator) (tag : Option String) (page : Page) (p : Int) :
    ∀ c ∈ pageWrites o tag page p, ¬ isFullResponse o c := by
  intro c hc
  have hne : ∀ tail : String,
      o.OutputPath ++ "/page-" ++ toString p ++ tail ≠ o.OutputPath ++ "/fullresponse.json" :=
    fun tail => page_path_ne_full o.OutputPath (toString p) tail 'p' _ (by decide)
      (page_path_data (toString p) tail)
  unfold pageWrites at hc
  simp only [List.mem_append, List.mem_cons, List.mem_singleton, List.not_mem_nil, or_false] at hc
  unfold isFullResponse
  rcases hc with ((rfl | rfl) | hc) | hc
  · exact hne _
  · exact hne _
  · split at hc
    · rw [List.mem_singleton.mp hc]; exact hne _
    · simp at hc
  · split at hc
    · rw [List.mem_singleton.mp hc]; exact hne _
    · simp at hc

theorem pagesWrites_not_full (o : OutputGenerator) (tag : Option String) (pages : List Page) :
    ∀ (p : Int), ∀ c ∈ pagesWrites o tag pages p, ¬ isFullResponse o c := by
  induction pages with
  | nil => intro p c hc; simp [pagesWrites] at hc
  | cons page rest ih =>
    intro p c hc
    simp only [pagesWrites, List.mem_append] at hc
    rcases hc with hc | hc
    · exact pageWrites_not_full o tag page p c hc
    · exact ih (p + 1) c hc

/-- C13. When the document of the generator has no page, `WriteTextractOutputs` returns the
error "no pages found in document ..." and issues no request to the store. -/
theorem WriteTextractOutputs_empty_document (marshal : json.Marshal) (o : OutputGenerator)
    (tag : Option String) (hpages : o.Document.Pages = []) :
    (o.WriteTextractOutputs marshal tag).1 =
      some ("no pages found in document " ++ o.DocumentId) ∧
    (o.WriteTextractOutputs marshal tag).2.calls = o.s3.calls := by
  simp [OutputGenerator.WriteTextractOutputs, hpages]

theorem full_write_is_last (o : OutputGenerator) (tag : Option String)
    (pageCalls : List PutObject) (hpage : ∀ c ∈ pageCalls, ¬ isFullResponse o c)
    (pre post : List PutObject) (x : PutObject) (hx : isFullResponse o x)
    (hinit : pre ++ x :: post <+: pageCalls ++ [fullWrite o tag]) :
    post = [] ∧ pre = pageCalls := by
  obtain ⟨t, ht⟩ := hinit
  rw [List.append_assoc] at ht
  rcases List.append_eq_append_iff.mp ht with ⟨a, ha, hb⟩ | ⟨c, hc, hd⟩
  · cases a with
    | nil =>
      simp only [List.nil_append, List.cons_append, List.cons.injEq] at hb
      have hnil := hb.2
      simp only [List.append_eq_nil] at hnil
      exact ⟨hnil.1, by simpa using ha.symm⟩
    | cons z zs =>
      simp only [List.cons_append, List.cons.injEq] at hb
      exfalso
      apply hpage x _ hx
      rw [ha, hb.1]
      simp
  · cases c with
    | nil =>
      simp only [List.nil_append, List.cons_append, List.cons.injEq] at hd
      have hnil := hd.2
      have : post = [] := by
        have := List.append_eq_nil.mp hnil.symm
        exact this.1
      exact ⟨this, by simpa using hc⟩
    | cons z zs =>
      have hlen := congrArg List.length hd
      simp at hlen

/-- C16. For every generator, every behaviour of the store and every behaviour of
`json.Marshal`, the requests issued by `WriteTextractOutputs`, with the answers of the
store, are a list `tr` in which the request for the whole response (`fullresponse.json`) is
the last one, with every request before it accepted and none of them for the whole response,
and in which a refused request is the last one, its error being the error returned. -/
theorem WriteTextractOutputs_full_response_last_and_stops_at_failure (marshal : json.Marshal)
    (o : OutputGenerator) (tag : Option String) :
    ∃ tr : List (PutObject × Option String),
      (o.WriteTextractOutputs marshal tag).2.calls = o.s3.calls ++ tr.map Prod.fst ∧
      tr.map Prod.snd = answers o.s3 (tr.map Prod.fst) ∧
      (∀ pre x post, tr = pre ++ x :: post → isFullResponse o x.1 →
        post = [] ∧ ∀ y ∈ pre, y.2 = none ∧ ¬ isFullResponse o y.1) ∧
      (∀ pre x post, tr = pre ++ x :: post → x.2 ≠ none →
        post = [] ∧ (o.WriteTextractOutputs marshal tag).1 = x.2) := by
  by_cases hpages : o.Document.Pages = []
  · refine ⟨[], ?_, rfl, ?_, ?_⟩
    · simp [(WriteTextractOutputs_empty_document marshal o tag hpages).2]
    · intro pre x post h; simp at h
    · intro pre x post h; simp at h
  · have heq := WriteTextractOutputs_eq marshal o tag hpages
    refine ⟨traceOf o.s3 (writePlan marshal o tag).1, ?_, traceOf_answers _ _, ?_, ?_⟩
    · rw [heq, runPlan_state]; exact (runWrites_calls _ _).1
    · intro pre x post htr hfull
      have hinit := (traceOf_initial (writePlan marshal o tag).1 o.s3).trans
        (writePlan_initial marshal o tag)
      rw [htr] at hinit
      simp only [List.map_append, List.map_cons] at hinit
      obtain ⟨hpost, hpre⟩ := full_write_is_last o tag (pagesWrites o tag o.Document.Pages 1)
        (pagesWrites_not_full o tag o.Document.Pages 1) _ _ x.1 hfull hinit
      refine ⟨by simpa using hpost, fun y hy => ⟨?_, ?_⟩⟩
      · by_contra hne
        obtain ⟨a, b, hab⟩ := List.append_of_mem hy
        have := traceOf_failure_is_last _ o.s3 a (b ++ x :: post) y
          (by rw [htr, hab]; simp) hne
        simp at this
      · apply pagesWrites_not_full o tag o.Document.Pages 1
        rw [← hpre]
        exact List.mem_map.mpr ⟨y, hy, rfl⟩
    · intro pre x post htr hx
      obtain ⟨hpost, hrun⟩ := traceOf_failure_is_last _ o.s3 pre post x htr hx
      refine ⟨hpost, ?_⟩
      rw [heq, runPlan_error _ _ (by rw [hrun]; exact hx), hrun]

theorem pagesWrites_numbered (o : OutputGenerator) (tag : Option String) (pages : List Page) :
    ∀ n : Nat, pagesWrites o tag pages n =
      (pages.enumFrom n).flatMap fun ip => pageWrites o tag ip.2 ip.1 := by
  induction pages with
  | nil => intro n; rfl
  | cons page rest ih =>
    intro n
    simp only [pagesWrites, List.enumFrom_cons, List.flatMap_cons]
    have : ((n : Int) + 1) = ((n + 1 : Nat) : Int) := by push_cast; rfl
    rw [this, ih (n + 1)]

/-- C17, as amended. For a document with at least one page, a store that accepts every
request and a `json.Marshal` that serialises the block list of every page and the response,
`WriteTextractOutputs` returns no error and issues, for the pages numbered from 1 in order,
the requests of `pageWrites` (the raw block list `page-p/response.json`, the text
`page-p/text.txt`, the form CSV `page-p/forms.csv` only when `IsForms` is set and the table
CSV `page-p/tables.csv` only when `IsTables` is set), and then, once and last, the whole
response `fullresponse.json`; the paths are under `OutputPath`, which `NewOutputGenerator`
sets to the object name followed by `/ocr-analysis`. When `json.Marshal` refuses the
response, its error is returned instead and the whole response is not written. -/
theorem WriteTextractOutputs_writes_pages_then_full_response (marshal : json.Marshal)
    (o : OutputGenerator) (tag : Option String) (hpages : o.Document.Pages ≠ [])
    (haccept : AcceptsAll o.s3)
    (hblocks : ∀ page ∈ o.Document.Pages, marshal.blocks page.Blocks = none) :
    (marshal.response o.Response = none →
      (o.WriteTextractOutputs marshal tag).1 = none ∧
      (o.WriteTextractOutputs marshal tag).2.calls =
        o.s3.calls ++
          ((o.Document.Pages.enumFrom 1).flatMap fun ip => pageWrites o tag ip.2 ip.1) ++
          [fullWrite o tag]) ∧
    (∀ err, marshal.response o.Response = some err →
      (o.WriteTextractOutputs marshal tag).1 = some err ∧
      (o.WriteTextractOutputs marshal tag).2.calls =
        o.s3.calls ++
          ((o.Document.Pages.enumFrom 1).flatMap fun ip => pageWrites o tag ip.2 ip.1)) ∧
    (∀ c ∈ (o.Document.Pages.enumFrom 1).flatMap fun ip => pageWrites o tag ip.2 ip.1,
      ¬ isFullResponse o c) ∧
    isFullResponse o (fullWrite o tag) ∧
    (∀ s3 response documentId bucketName objectName isForms isTables g,
      NewOutputGenerator s3 response documentId bucketName objectName isForms isTables = some g →
      g.OutputPath = objectName ++ "/ocr-analysis" ∧ g.IsForms = isForms ∧
        g.IsTables = isTables ∧ NewDocument response = some g.Document) := by
  have heq := WriteTextractOutputs_eq marshal o tag hpages
  have hnum := pagesWrites_numbered o tag o.Document.Pages 1
  simp only [Nat.cast_one] at hnum
  refine ⟨fun hresponse => ?_, fun err hresponse => ?_, ?_, rfl, ?_⟩
  · obtain ⟨h1, h2⟩ := runWrites_accepting
      (pagesWrites o tag o.Document.Pages 1 ++ [fullWrite o tag]) o.s3 haccept
    rw [writePlan_all marshal o tag hblocks hresponse] at heq
    have hres : o.WriteTextractOutputs marshal tag =
        runWrites o.s3 (pagesWrites o tag o.Document.Pages 1 ++ [fullWrite o tag]) := by
      rw [heq]
      exact orReturn_done _
    exact ⟨by rw [hres, h1], by rw [hres, h2, hnum, List.append_assoc]⟩
  · obtain ⟨h1, h2⟩ := runWrites_accepting (pagesWrites o tag o.Document.Pages 1) o.s3 haccept
    have hplan : writePlan marshal o tag = (pagesWrites o tag o.Document.Pages 1, some err) := by
      simp only [writePlan, pagesPlan_all marshal o tag o.Document.Pages hblocks 1, hresponse]
    rw [hplan] at heq
    have hstate := runPlan_state o.s3 (pagesWrites o tag o.Document.Pages 1, some err)
    refine ⟨?_, by rw [heq, hstate, h2, hnum]⟩
    rw [heq]
    unfold runPlan
    cases hr : runWrites o.s3 (pagesWrites o tag o.Document.Pages 1) with
    | mk e s1 =>
      rw [hr] at h1
      simp only at h1
      subst h1
      rfl
  · rw [← hnum]
    exact pagesWrites_not_full o tag o.Document.Pages 1
  · intro s3 response documentId bucketName objectName isForms isTables g hg
    unfold NewOutputGenerator at hg
    cases hd : NewDocument response with
    | none => simp [hd] at hg
    | some d =>
      simp only [hd, Option.bind_eq_bind, Option.some_bind, Option.pure_def,
        Option.some.injEq] at hg
      subst hg
      exact ⟨rfl, rfl, rfl, rfl⟩

/-! ### Faults, cell texts and values without the `VALUE` role -/

theorem pages_fold_total (m : BlockMap) (gs : List (List Block))
    (h : ∀ g ∈ gs, PageInputOk g m) :
    ∃ pages, gs.foldlM (fun pages documentPage => do
      let page ← NewPage documentPage m
      pure (pages ++ [page])) ([] : List Page) = some pages :=
  foldlM_total _ gs (fun g hg acc => by
    obtain ⟨p, hp⟩ := NewPage_total g m (h g hg)
    exact ⟨acc ++ [p], by simp [hp]⟩) []

theorem parse_single_result (response : AnalyzeDocumentOutput)
    (hkind : ∀ b ∈ response.Blocks, b.BlockType ≠ none) :
    ∃ groups m, parseDocumentPagesAndBlockMap [response] = some (groups, m) ∧
      groups.flatten = response.Blocks ∧
      ∀ kv ∈ m, kv.2 ∈ response.Blocks ∧ kv.2.Id = some kv.1 := by
  obtain ⟨st, hst, inv⟩ := parse_blocks_inv response.Blocks
    { blockMap := [], documentPages := [], documentPage := [] } [] hkind
    ⟨rfl, by simp, by simp, by intro x hx; simp at hx⟩
  simp only [List.nil_append] at inv
  have hmap := parse_blocks_blockMap response.Blocks _ st hst
  simp only [List.append_nil] at hmap
  refine ⟨if st.documentPage.length > 0 then st.documentPages ++ [st.documentPage]
    else st.documentPages, st.blockMap, by simp [parseDocumentPagesAndBlockMap, hst], ?_, ?_⟩
  · by_cases hlen : st.documentPage.length > 0
    · simp [hlen, inv.joined]
    · have hnil : st.documentPage = [] := by
        cases h : st.documentPage with
        | nil => rfl
        | cons a l => simp [h] at hlen
      have := inv.joined
      simp [hlen, hnil] at this ⊢
      exact this
  · intro kv hkv
    rw [hmap, List.mem_reverse, List.mem_filterMap] at hkv
    obtain ⟨b, hb, hentry⟩ := hkv
    simp only [blockEntry, Option.map_eq_some'] at hentry
    obtain ⟨id, hid, rfl⟩ := hentry
    exact ⟨hb, hid⟩

theorem NewDocument_total (response : AnalyzeDocumentOutput)
    (h : DocumentInputOk response.Blocks) : ∃ d, NewDocument response = some d := by
  obtain ⟨hblocks, hcells⟩ := h
  have hkind : ∀ b ∈ response.Blocks, b.BlockType ≠ none := by
    intro b hb hnone
    have := (hblocks b hb).kind
    rw [hnone] at this
    cases this
  obtain ⟨groups, m, hparse, hflat, hentry⟩ := parse_single_result response hkind
  have hpageok : ∀ g ∈ groups, PageInputOk g m := by
    intro g hg
    have hsub : ∀ b ∈ g, b ∈ response.Blocks := by
      intro b hb
      rw [← hflat]
      exact List.mem_flatten.mpr ⟨g, hg, hb⟩
    refine ⟨fun b hb => hblocks b (hsub b hb), fun kv hkv => hblocks kv.2 (hentry kv hkv).1, ?_⟩
    intro b hb htable rs hrs hchild v hv
    obtain ⟨c, hc, hl⟩ := resolve_mem m rs.Ids v hv
    obtain ⟨hvmem, hvid⟩ := hentry (c, v) (lookup_mem m c v hl)
    exact hcells b (hsub b hb) htable rs hrs hchild v hvmem (by rw [hvid]; exact hc)
  obtain ⟨pages, hpages⟩ := pages_fold_total m groups hpageok
  refine ⟨{ ResponsePages := [response], Pages := pages, ResponseDocumentPages := groups,
            BlockMap := m }, ?_⟩
  simp only [Option.bind_eq_bind, Option.pure_def] at hpages
  simp only [NewDocument, hparse, Option.bind_eq_bind, Option.some_bind, Option.pure_def, hpages]

/-- C18, as amended. For a block list in which every block has a kind and a geometry with a
bounding box and polygon points that are not nil, typed relationships with identifiers and
entity roles that are not nil, every
`LINE` and `WORD` block has a text, every `SELECTION_ELEMENT` block a selection status, and
every block that a `CHILD` relationship of a `TABLE` block refers to a row index,
`NewDocument` returns a document, and the text, form and table projections of its pages
return their value without error. -/
theorem NewDocument_and_projections_do_not_fault (response : AnalyzeDocumentOutput)
    (h : DocumentInputOk response.Blocks) :
    ∃ d, NewDocument response = some d ∧
      ∀ page ∈ d.Pages, ∀ (o : OutputGenerator) (n : Int),
        (o.OutputText page n true).1 = (page.Text, none) ∧
        (o.OutputForm page n true).1 = (page.Form.Fields.map formRow, none) ∧
        (o.OutputTable page n true).1 = (page.Tables.flatMap tableRows, none) := by
  obtain ⟨d, hd⟩ := NewDocument_total response h
  refine ⟨d, hd, fun page _ o n => ⟨rfl, ?_, ?_⟩⟩
  · simp [OutputGenerator.OutputForm, form_rows_eq]
  · simp [OutputGenerator.OutputTable, table_rows_eq]

theorem NewField_valueIdStep_no_role (m : BlockMap) (ids : List (Option String))
    (hno : ∀ v ∈ resolve m ids, hasRole "VALUE" v = false) (eid : Option String)
    (he : eid ∈ ids) (value value' : Option FieldValue)
    (h : NewField.valueIdStep m value eid = some value') : value' = value := by
  unfold NewField.valueIdStep at h
  cases eid with
  | none => simp at h
  | some e =>
    cases hl : m.lookup e with
    | none => simp [hl] at h; exact h.symm
    | some vkvs =>
      cases hr : refsContainValue vkvs.EntityTypes "VALUE" with
      | none => simp [hl, hr] at h
      | some r =>
        have hrole := refsContainValue_hasRole vkvs "VALUE" r hr
        rw [hno vkvs (mem_resolve m ids e vkvs he hl)] at hrole
        subst hrole
        simp [hl, hr] at h
        exact h.symm

/-- C20, as amended. When no block that a `VALUE` relationship of the block refers to has the
`VALUE` role (the references are absent from the index or lack the role), the field built by
`NewField` has no value; the kind of the referenced block is not looked at. -/
theorem NewField_no_value_without_value_role (b : Block) (m : BlockMap)
    (hno : ∀ rv ∈ b.Relationships, isRel "VALUE" rv = true →
      ∀ v ∈ resolve m rv.Ids, hasRole "VALUE" v = false) :
    (HasBox b → RelsOk b → IndexOk m → ∃ f, NewField b m = some f) ∧
    (∀ f, NewField b m = some f → f.Value = none) := by
  refine ⟨fun hbox hrels hm => NewField_total b m hbox hrels hm, fun f h => ?_⟩
  simp only [NewField, Option.bind_eq_bind, Option.pure_def, Option.bind_eq_some] at h
  obtain ⟨st, hst, h⟩ := h
  cases h
  have keep := foldlM_keep (NewField.relStep b m) (fun a c => c.2 = a.2) (fun _ => rfl)
    (fun _ _ _ hab hbc => hbc.trans hab) b.Relationships
    (fun x hx s s' hs => by
      cases hv : isRel "VALUE" x with
      | false => exact NewField_relStep_keepValue b m s s' x hv hs
      | true =>
        have hfold := NewField_relStep_value b m s s' x hv hs
        exact foldlM_keep (NewField.valueIdStep m) (fun a c => c = a) (fun _ => rfl)
          (fun _ _ _ hab hbc => hbc.trans hab) x.Ids
          (fun eid he v v' hstep =>
            NewField_valueIdStep_no_role m x.Ids (hno x hx hv) eid he v v' hstep) _ _ hfold)
    (none, none) st hst
  exact keep

/-! ### The theorems of the form, the index and the writer at sample inputs -/

/-- Witness for C11: of three fields added in order, the first and the last with the key
text "First Name", all three stay in `Fields`, the key text gives the last one, and an
unknown key text gives the empty field. -/
theorem AddField_keeps_order_and_last_key_wins_witness :
    (∀ f ∈ Example.sameKeyFields, f.Key.isSome = true) ∧
    ∃ form, Example.sameKeyFields.foldlM Form.AddField NewForm = some form ∧
      form.Fields = Example.sameKeyFields ∧
      (form.GetFieldByKey "First Name").Value.map (fun v => v.Text) = some "Jane" ∧
      form.GetFieldByKey "Unknown" = { Key := none, Value := none } := by
  have hkeys : ∀ f ∈ Example.sameKeyFields, f.Key.isSome = true := by decide
  refine ⟨hkeys, ?_⟩
  obtain ⟨form, hfold, hfields, hget⟩ :=
    AddField_keeps_order_and_last_key_wins Example.sameKeyFields hkeys
  refine ⟨form, hfold, hfields, ?_, ?_⟩
  · rw [hget "First Name"]; decide
  · rw [hget "Unknown"]; decide

/-- Witness for C12: of two responses in which two blocks carry the identifier `w1`, the
index gives the block of the second response for it. -/
theorem blockMap_last_block_wins_witness :
    (∀ r ∈ Example.collidingResponses, ∀ b ∈ r.Blocks, b.BlockType ≠ none) ∧
    ∃ groups m, parseDocumentPagesAndBlockMap Example.collidingResponses = some (groups, m) ∧
      m.lookup "w1" = some (Example.word "w1" "new") ∧
      ∀ k ∈ m.map Prod.fst,
        ∃ b ∈ Example.collidingResponses.flatMap fun r => r.Blocks, b.Id = some k := by
  have hkind : ∀ r ∈ Example.collidingResponses, ∀ b ∈ r.Blocks, b.BlockType ≠ none := by
    decide
  refine ⟨hkind, ?_⟩
  obtain ⟨groups, m, hparse⟩ := (blockMap_last_block_wins Example.collidingResponses).1 hkind
  obtain ⟨hlook, hkeys⟩ := (blockMap_last_block_wins Example.collidingResponses).2 groups m hparse
  refine ⟨groups, m, hparse, ?_, hkeys⟩
  rw [hlook "w1"]; decide

/-- Witness for C13: the generator of a response without blocks has no page, and
`WriteTextractOutputs` returns the error and leaves the store without a request. -/
theorem WriteTextractOutputs_empty_document_witness :
    (Example.generator Example.acceptAll { Blocks := [] } true true).Document.Pages = [] ∧
    ((Example.generator Example.acceptAll { Blocks := [] } true true).WriteTextractOutputs
        Example.marshalAll (some "documentId=doc1")).1 = some "no pages found in document doc1" ∧
    ((Example.generator Example.acceptAll { Blocks := [] } true true).WriteTextractOutputs
        Example.marshalAll (some "documentId=doc1")).2.calls = [] := by
  have hpages :
      (Example.generator Example.acceptAll { Blocks := [] } true true).Document.Pages = [] := by
    decide
  obtain ⟨h1, h2⟩ := WriteTextractOutputs_empty_document Example.marshalAll
    (Example.generator Example.acceptAll { Blocks := [] } true true) (some "documentId=doc1")
    hpages
  exact ⟨hpages, h1, h2⟩

/-- Witness for C14: a page with one table of two rows of two empty cells gives the marker
row, two rows and two empty rows. -/
theorem OutputTable_rows_witness :
    ((Example.generator Example.acceptAll Example.formResponse true true).OutputTable
        Example.formPage 1 true).1 =
      ([["Table"], ["", ""], ["", ""], [], []], none) ∧
    (Example.formPage.Tables.flatMap tableRows).length = 5 := by
  obtain ⟨h1, h2, -⟩ := OutputTable_rows
    (Example.generator Example.acceptAll Example.formResponse true true) Example.formPage 1
  have hrows : Example.formPage.Tables.flatMap tableRows =
      [["Table"], ["", ""], ["", ""], [], []] := by decide
  rw [h1, hrows]
  exact ⟨rfl, rfl⟩

/-- Witness for C15: a page with the field "First Name" = "Jane" gives the one row
`["First Name", "Jane"]`, and a field without value gives the empty string. -/
theorem OutputForm_rows_witness :
    ((Example.generator Example.acceptAll Example.formResponse true true).OutputForm
        Example.formPage 1 true).1 = ([["First Name", "Jane"]], none) ∧
    ∃ keyText, formRow { Key := none, Value := none } = [keyText, ""] := by
  obtain ⟨h1, -, -, h4⟩ := OutputForm_rows
    (Example.generator Example.acceptAll Example.formResponse true true) Example.formPage 1
  have hrows : Example.formPage.Form.Fields.map formRow = [["First Name", "Jane"]] := by decide
  rw [h1, hrows]
  exact ⟨rfl, h4 { Key := none, Value := none } rfl⟩

/-- Witness for C16: with a store that refuses the second request, `WriteTextractOutputs`
issues the raw block list and the text of page 1, returns the error of the second request
and writes neither a CSV nor the whole response. -/
theorem WriteTextractOutputs_full_response_last_and_stops_at_failure_witness :
    ((Example.generator Example.refuseSecond Example.formResponse true true).WriteTextractOutputs
        Example.marshalAll (some "documentId=doc1")).1 = some "AccessDenied" ∧
    (((Example.generator Example.refuseSecond Example.formResponse true true).WriteTextractOutputs
        Example.marshalAll (some "documentId=doc1")).2.calls.map fun c => c.s3FileName) =
      ["doc1/scan.png/ocr-analysis/page-1/response.json",
       "doc1/scan.png/ocr-analysis/page-1/text.txt"] ∧
    ∃ tr : List (PutObject × Option String),
      ((Example.generator Example.refuseSecond Example.formResponse true true).WriteTextractOutputs
          Example.marshalAll (some "documentId=doc1")).2.calls = tr.map Prod.fst ∧
      (∀ pre x post, tr = pre ++ x :: post →
        isFullResponse (Example.generator Example.refuseSecond Example.formResponse true true) x.1 →
        post = [] ∧ ∀ y ∈ pre, y.2 = none) ∧
      (∀ pre x post, tr = pre ++ x :: post → x.2 ≠ none → post = []) := by
  refine ⟨by decide, by decide, ?_⟩
  obtain ⟨tr, h1, -, h3, h4⟩ := WriteTextractOutputs_full_response_last_and_stops_at_failure
    Example.marshalAll (Example.generator Example.refuseSecond Example.formResponse true true)
    (some "documentId=doc1")
  refine ⟨tr, by simpa [Example.generator, Example.refuseSecond] using h1, ?_, ?_⟩
  · intro pre x post htr hfull
    obtain ⟨hp, hy⟩ := h3 pre x post htr hfull
    exact ⟨hp, fun y hmem => (hy y hmem).1⟩
  · intro pre x post htr hx
    exact (h4 pre x post htr hx).1

/-- Counterexample to C17 as stated: the generator that `processImage` builds, with
`isForms` and `isTables` false, for a document of one page and a store that accepts every
request returns no error and writes the raw block list, the text and the whole response;
it writes no `forms.csv` and no `tables.csv`. -/
theorem WriteTextractOutputs_without_flags_writes_no_csv :
    (NewOutputGenerator Example.acceptAll Example.helloResponse "doc1" "bucket" "doc1/scan.png"
        false false).map
      (fun o => (o.Document.Pages.length, (o.WriteTextractOutputs Example.marshalAll (some "documentId=doc1")).1,
        (o.WriteTextractOutputs Example.marshalAll (some "documentId=doc1")).2.calls.map fun c => c.s3FileName)) =
    some (1, none,
      ["doc1/scan.png/ocr-analysis/page-1/response.json",
       "doc1/scan.png/ocr-analysis/page-1/text.txt",
       "doc1/scan.png/ocr-analysis/fullresponse.json"]) := by
  decide

/-- Witness for C17 as amended: with both flags set, a document of one page, a store that
accepts every request and a `json.Marshal` that serialises every value, the four objects of
page 1 are written and then the whole response. -/
theorem WriteTextractOutputs_writes_pages_then_full_response_witness :
    (Example.generator Example.acceptAll Example.formResponse true true).Document.Pages ≠ [] ∧
    AcceptsAll (Example.generator Example.acceptAll Example.formResponse true true).s3 ∧
    (∀ page ∈ (Example.generator Example.acceptAll Example.formResponse true true).Document.Pages,
      Example.marshalAll.blocks page.Blocks = none) ∧
    Example.marshalAll.response
      (Example.generator Example.acceptAll Example.formResponse true true).Response = none ∧
    ((Example.generator Example.acceptAll Example.formResponse true true).WriteTextractOutputs
        Example.marshalAll (some "documentId=doc1")).1 = none ∧
    (((Example.generator Example.acceptAll Example.formResponse true true).WriteTextractOutputs
        Example.marshalAll (some "documentId=doc1")).2.calls.map fun c => c.s3FileName) =
      ["doc1/scan.png/ocr-analysis/page-1/response.json",
       "doc1/scan.png/ocr-analysis/page-1/text.txt",
       "doc1/scan.png/ocr-analysis/page-1/forms.csv",
       "doc1/scan.png/ocr-analysis/page-1/tables.csv",
       "doc1/scan.png/ocr-analysis/fullresponse.json"] := by
  have hpages :
      (Example.generator Example.acceptAll Example.formResponse true true).Document.Pages ≠ [] := by
    decide
  have haccept :
      AcceptsAll (Example.generator Example.acceptAll Example.formResponse true true).s3 :=
    fun _ _ => rfl
  obtain ⟨h1, -, -, -, -⟩ := WriteTextractOutputs_writes_pages_then_full_response
    Example.marshalAll (Example.generator Example.acceptAll Example.formResponse true true)
    (some "documentId=doc1") hpages haccept (fun _ _ => rfl)
  exact ⟨hpages, haccept, fun _ _ => rfl, rfl, (h1 rfl).1, by decide⟩

/-- Counterexample to C18 as stated: a block list in which every block has an identifier,
a kind and a geometry, the `LINE` block having no text, makes `NewDocument` fault. -/
theorem NewDocument_faults_on_line_without_text :
    (∀ b ∈ Example.untextedResponse.Blocks, ShapeOk b) ∧
    NewDocument Example.untextedResponse = none := by
  decide

/-- Witness for C18 as amended: the response with a line, a form field and a table is
well formed, and `NewDocument` returns a document of one page for it. -/
theorem NewDocument_and_projections_do_not_fault_witness :
    DocumentInputOk Example.formResponse.Blocks ∧
    ∃ d, NewDocument Example.formResponse = some d ∧ d.Pages.length = 1 ∧
      ∀ page ∈ d.Pages, ∀ (o : OutputGenerator) (n : Int),
        (o.OutputText page n true).1 = (page.Text, none) := by
  have hok : DocumentInputOk Example.formResponse.Blocks := by decide
  refine ⟨hok, ?_⟩
  obtain ⟨d, hd, hproj⟩ := NewDocument_and_projections_do_not_fault Example.formResponse hok
  have hlen : (NewDocument Example.formResponse).map (fun d => d.Pages.length) = some 1 := by
    decide
  rw [hd] at hlen
  exact ⟨d, hd, Option.some.inj hlen, fun page hp o n => (hproj page hp o n).1⟩

/-- C19, the code at a failing input. A `CELL` block whose `CHILD` identifiers resolve to the
words "Hello" and "World" gets the content `[Hello, World]` and the text "Hello World " with a
separator after the last word, where joining the texts by single spaces gives
"Hello World". -/
theorem NewCell_text_ends_with_separator :
    (NewCell Example.wordCell Example.wordCellIndex).map
        (fun c => (c.Content.map Item.text, c.Text)) =
      some ([some "Hello", some "World"], "Hello World ") ∧
    String.intercalate " " ["Hello", "World"] = "Hello World" := by
  decide

/-- Counterexample to C20 as stated: the `VALUE` relationship of the key block refers to
one block, a `CELL` block with the `VALUE` role, so to no block that is both a
`KEY_VALUE_SET` block and has the `VALUE` role, and the field has the value "Jane". -/
theorem NewField_takes_value_from_other_kind :
    (∀ rv ∈ Example.strayKey.Relationships, isRel "VALUE" rv = true →
      ∀ v ∈ resolve Example.strayIndex rv.Ids,
        ¬ (isKind "KEY_VALUE_SET" v = true ∧ hasRole "VALUE" v = true)) ∧
    (NewField Example.strayKey Example.strayIndex).map
        (fun f => f.Value.map fun v => v.Text) = some (some "Jane") := by
  decide

/-- Witness for C20 as amended: the `VALUE` relationship of the key block refers to a word
and to an identifier that is not in the index, so to no block with the `VALUE` role, and
the field has no value. -/
theorem NewField_no_value_without_value_role_witness :
    (∀ rv ∈ Example.lonelyKey.Relationships, isRel "VALUE" rv = true →
      ∀ v ∈ resolve Example.strayIndex rv.Ids, hasRole "VALUE" v = false) ∧
    HasBox Example.lonelyKey ∧ RelsOk Example.lonelyKey ∧ IndexOk Example.strayIndex ∧
    ∃ f, NewField Example.lonelyKey Example.strayIndex = some f ∧ f.Value = none := by
  have hno : ∀ rv ∈ Example.lonelyKey.Relationships, isRel "VALUE" rv = true →
      ∀ v ∈ resolve Example.strayIndex rv.Ids, hasRole "VALUE" v = false := by decide
  have h1 : HasBox Example.lonelyKey := by decide
  have h2 : RelsOk Example.lonelyKey := by decide
  have h3 : IndexOk Example.strayIndex := by decide
  have thm := NewField_no_value_without_value_role Example.lonelyKey Example.strayIndex hno
  obtain ⟨f, hf⟩ := thm.1 h1 h2 h3
  exact ⟨hno, h1, h2, h3, f, hf, thm.2 f hf⟩

/-! ### The number of pages -/

theorem expectedPages_snoc (seen : List Block) (b : Block) :
    expectedPages (seen ++ [b]) =
      if seen = [] then 1 else expectedPages seen + (if isKind "PAGE" b then 1 else 0) := by
  cases seen with
  | nil =>
    by_cases hb : isKind "PAGE" b = true <;> simp [expectedPages, List.filter_cons, hb]
  | cons a l =>
    by_cases hb : isKind "PAGE" b = true <;> by_cases ha : isKind "PAGE" a = true <;>
      simp [expectedPages, List.filter_append, List.filter_cons, hb, ha]

theorem parse_step_count (st st' : ParseState) (seen : List Block) (b : Block)
    (inv : CountInv st seen) (h : parseDocumentPagesAndBlockMap.step st b = some st') :
    CountInv st' (seen ++ [b]) := by
  unfold parseDocumentPagesAndBlockMap.step at h
  cases hbt : b.BlockType with
  | none => simp [hbt] at h
  | some bt =>
    have hcount := inv.count
    by_cases hp : bt = "PAGE"
    · simp only [hbt, hp, Option.bind_eq_bind, Option.some_bind, if_true, Option.pure_def,
        Option.some.injEq] at h
      subst h
      refine ⟨by simp, by simp, ?_⟩
      rw [expectedPages_snoc]
      have hk : isKind "PAGE" b = true := by simp [isKind, hbt, hp]
      by_cases hs : seen = []
      · obtain ⟨h1, h2⟩ := inv.atStart hs
        simp [hs, h1, h2]
      · simp only [hs, if_false, hk, if_true, ← hcount]
        by_cases hl : st.documentPage.length > 0 <;> simp [hl]
    · simp only [hbt, hp, Option.bind_eq_bind, Option.some_bind, if_false, Option.pure_def,
        Option.some.injEq] at h
      subst h
      refine ⟨by simp, by simp, ?_⟩
      rw [expectedPages_snoc]
      have hk : isKind "PAGE" b = false := by simp [isKind, hbt, hp]
      by_cases hs : seen = []
      · obtain ⟨h1, h2⟩ := inv.atStart hs
        simp [hs, h1, h2]
      · have hne := inv.later hs
        have hpos : st.documentPage.length > 0 := List.length_pos.mpr hne
        simp only [hs, if_false, hk, ← hcount]
        simp [hpos]

theorem parse_blocks_count (bs : List Block) :
    ∀ (st st' : ParseState) (seen : List Block), CountInv st seen →
      bs.foldlM parseDocumentPagesAndBlockMap.step st = some st' →
      CountInv st' (seen ++ bs) := by
  induction bs with
  | nil =>
    intro st st' seen inv h
    simp at h; subst h
    simpa using inv
  | cons b bs ih =>
    intro st st' seen inv h
    obtain ⟨s1, h1, h2⟩ := foldlM_cons_some _ _ _ _ _ h
    have := ih s1 st' (seen ++ [b]) (parse_step_count st s1 seen b inv h1) h2
    simpa using this

theorem parse_single_count (response : AnalyzeDocumentOutput) (groups : List (List Block))
    (m : BlockMap) (h : parseDocumentPagesAndBlockMap [response] = some (groups, m)) :
    groups.length = expectedPages response.Blocks := by
  simp only [parseDocumentPagesAndBlockMap, List.foldlM_cons, List.foldlM_nil,
    Option.bind_eq_bind, Option.pure_def, Option.bind_eq_some] at h
  obtain ⟨st, ⟨s1, hs1, hs⟩, hg⟩ := h
  cases hs
  have inv := parse_blocks_count response.Blocks
    { blockMap := [], documentPages := [], documentPage := [] } st []
    ⟨by simp, by simp, by simp [expectedPages]⟩ hs1
  simp only [List.nil_append] at inv
  simp only [Option.some.injEq, Prod.mk.injEq] at hg
  rw [← hg.1, ← inv.count]
  by_cases hl : st.documentPage.length > 0 <;> simp [hl]

theorem NewDocument_groups (response : AnalyzeDocumentOutput) (d : Document)
    (h : NewDocument response = some d) :
    parseDocumentPagesAndBlockMap [response] = some (d.ResponseDocumentPages, d.BlockMap) ∧
    d.Pages.map Page.Blocks = d.ResponseDocumentPages := by
  simp only [NewDocument, Option.bind_eq_bind, Option.pure_def, Option.bind_eq_some] at h
  obtain ⟨⟨groups, m⟩, hparse, pages, hpages, hd⟩ := h
  simp only [Option.some.injEq] at hd
  subst hd
  refine ⟨hparse, ?_⟩
  have := pages_fold_blocks m groups [] pages (by
    simpa only [Option.bind_eq_bind, Option.pure_def] using hpages)
  simpa using this

theorem pages_fold_each (m : BlockMap) (gs : List (List Block)) :
    ∀ acc pages : List Page,
      gs.foldlM (fun pages documentPage => do
        let page ← NewPage documentPage m
        pure (pages ++ [page])) acc = some pages →
      pages.map some = acc.map some ++ gs.map fun g => NewPage g m := by
  induction gs with
  | nil =>
    intro acc pages h
    simp at h; subst h; simp
  | cons g gs ih =>
    intro acc pages h
    obtain ⟨s1, h1, h2⟩ := foldlM_cons_some _ _ _ _ _ h
    cases hp : NewPage g m with
    | none => simp [hp] at h1
    | some p =>
      simp [hp] at h1
      subst h1
      rw [ih _ _ h2]
      simp [hp]

theorem NewDocument_pages (response : AnalyzeDocumentOutput) (d : Document)
    (h : NewDocument response = some d) :
    d.Pages.map some = d.ResponseDocumentPages.map fun g => NewPage g d.BlockMap := by
  simp only [NewDocument, Option.bind_eq_bind, Option.pure_def, Option.bind_eq_some] at h
  obtain ⟨⟨groups, m⟩, -, pages, hpages, hd⟩ := h
  simp only [Option.some.injEq] at hd
  subst hd
  have := pages_fold_each m groups [] pages (by
    simpa only [Option.bind_eq_bind, Option.pure_def] using hpages)
  simpa using this

theorem expectedPages_eq_zero (blocks : List Block) :
    expectedPages blocks = 0 ↔ blocks = [] := by
  cases blocks with
  | nil => simp [expectedPages]
  | cons b l =>
    by_cases hb : isKind "PAGE" b = true <;> simp [expectedPages, List.filter_cons, hb]

/-- C22. When every block has a kind, the grouping returns, and the groups are as many as
the `PAGE` blocks, plus one when the list is not empty and its first block is not a `PAGE`
block. A document that `NewDocument` returns has one page per group, built from the group
against the index, in group order, so it has that number of pages; a list without `PAGE`
block that is not empty gives one page whose blocks are the whole list, and there is no
page exactly when the list is empty. `NewDocument` returns on well-formed input. -/
theorem NewDocument_page_count (response : AnalyzeDocumentOutput)
    (hkind : ∀ b ∈ response.Blocks, b.BlockType ≠ none) :
    (∃ groups m, parseDocumentPagesAndBlockMap [response] = some (groups, m) ∧
      groups.length = expectedPages response.Blocks) ∧
    (DocumentInputOk response.Blocks → ∃ d, NewDocument response = some d) ∧
    (∀ d, NewDocument response = some d →
      d.Pages.length = expectedPages response.Blocks ∧
      d.Pages.map some = d.ResponseDocumentPages.map (fun g => NewPage g d.BlockMap) ∧
      d.Pages.map Page.Blocks = d.ResponseDocumentPages ∧
      (response.Blocks ≠ [] → (∀ b ∈ response.Blocks, isKind "PAGE" b = false) →
        d.Pages.map Page.Blocks = [response.Blocks]) ∧
      (d.Pages = [] ↔ response.Blocks = [])) := by
  obtain ⟨groups, m, hparse, hflat, -⟩ := parse_single_result response hkind
  have hcount := parse_single_count response groups m hparse
  refine ⟨⟨groups, m, hparse, hcount⟩, NewDocument_total response, fun d hd => ?_⟩
  obtain ⟨hg, hblocks⟩ := NewDocument_groups response d hd
  rw [hparse] at hg
  simp only [Option.some.injEq, Prod.mk.injEq] at hg
  obtain ⟨hg1, -⟩ := hg
  subst hg1
  have hlen : d.Pages.length = expectedPages response.Blocks := by
    rw [← hcount, ← hblocks, List.length_map]
  refine ⟨hlen, NewDocument_pages response d hd, hblocks, fun hne hno => ?_, ?_⟩
  · have h1 : d.ResponseDocumentPages.length = 1 := by
      rw [hcount]
      cases hb : response.Blocks with
      | nil => exact absurd hb hne
      | cons b l =>
        have hfil : (b :: l).filter (isKind "PAGE") = [] := by
          rw [List.filter_eq_nil_iff]
          intro x hx
          rw [hno x (by rw [hb]; exact hx)]
          simp
        have hb0 : isKind "PAGE" b = false := hno b (by rw [hb]; simp)
        simp only [expectedPages, hfil, hb0]
        simp
    obtain ⟨g, hg⟩ := List.length_eq_one.mp h1
    rw [hg] at hflat
    simp only [List.flatten_cons, List.flatten_nil, List.append_nil] at hflat
    rw [hblocks, hg, hflat]
  · rw [← expectedPages_eq_zero, ← hlen, List.length_eq_zero]

/-- Witness for C22: the response with a line before the first of two `PAGE` blocks has
three groups, and `NewDocument` returns a document of three pages for it. -/
theorem NewDocument_page_count_witness :
    (∀ b ∈ Example.twoPages.Blocks, b.BlockType ≠ none) ∧
    expectedPages Example.twoPages.Blocks = 3 ∧
    ∃ d, NewDocument Example.twoPages = some d ∧ d.Pages.length = 3 := by
  have hkind : ∀ b ∈ Example.twoPages.Blocks, b.BlockType ≠ none := by decide
  have hexp : expectedPages Example.twoPages.Blocks = 3 := by decide
  have thm := NewDocument_page_count Example.twoPages hkind
  obtain ⟨d, hd⟩ := thm.2.1 (by decide)
  exact ⟨hkind, hexp, d, hd, by rw [(thm.2.2 d hd).1, hexp]⟩

/-! ### Blocks that the page assembly ignores -/

theorem contribution_ignored (m : BlockMap) (b : Block) (hd : isDispatched b = false)
    (hkind : b.BlockType.isSome = true) (hroles : ∀ e ∈ b.EntityTypes, e.isSome = true) :
    contribution m b = some Contribution.nothing := by
  obtain ⟨bt, hbt⟩ := Option.isSome_iff_exists.mp hkind
  simp only [isDispatched, isKind, hbt, Bool.or_eq_false_iff, Bool.and_eq_false_iff,
    beq_eq_false_iff_ne, ne_eq, Option.some.injEq] at hd
  obtain ⟨⟨⟨h1, h2⟩, h3⟩, h4⟩ := hd
  unfold contribution
  simp only [hbt, h1, h2, h3, if_false]
  by_cases hk : bt = "KEY_VALUE_SET"
  · obtain ⟨r, hr⟩ := refsContainValue_total b.EntityTypes "KEY" hroles
    have hrole := refsContainValue_hasRole b "KEY" r hr
    have hno : hasRole "KEY" b = false := by
      rcases h4 with h4 | h4
      · exact absurd hk h4
      · exact h4
    rw [hno] at hrole
    subst hrole
    simp [hk, hr]
  · simp [hk]

theorem apply_with_blocks (x : List Block) (p : Page) (c : Contribution) :
    Contribution.apply { p with Blocks := x } c = { Contribution.apply p c with Blocks := x } := by
  cases c <;> rfl

theorem parse_fold_with_blocks (m : BlockMap) (x : List Block) (bs : List Block) (p : Page) :
    bs.foldlM (Page.parseStep m) { p with Blocks := x } =
      (bs.foldlM (Page.parseStep m) p).map fun q => { q with Blocks := x } := by
  have := foldlM_simulation (Page.parseStep m) (Page.parseStep m)
    (fun q : Page => { q with Blocks := x }) id
    (fun s a => by
      simp only [id, parseStep_eq, Option.map_map]
      congr 1
      funext c
      exact apply_with_blocks x s c) bs p
  simpa using this

theorem parse_fold_dispatched (m : BlockMap) (g : List Block)
    (hkind : ∀ b ∈ g, isDispatched b = false → b.BlockType.isSome = true)
    (hroles : ∀ b ∈ g, isDispatched b = false → ∀ e ∈ b.EntityTypes, e.isSome = true) :
    ∀ p : Page, (g.filter isDispatched).foldlM (Page.parseStep m) p =
      g.foldlM (Page.parseStep m) p := by
  induction g with
  | nil => intro p; rfl
  | cons b bs ih =>
    intro p
    have ih1 := ih (fun x hx => hkind x (List.mem_cons_of_mem _ hx))
      (fun x hx => hroles x (List.mem_cons_of_mem _ hx))
    cases hd : isDispatched b with
    | true =>
      simp only [List.filter_cons, hd, if_true, List.foldlM_cons]
      congr 1
      funext q
      exact ih1 q
    | false =>
      have hstep : Page.parseStep m p b = some p := by
        rw [parseStep_eq, contribution_ignored m b hd (hkind b (List.mem_cons_self _ _) hd)
          (hroles b (List.mem_cons_self _ _) hd)]
        rfl
      simp only [List.filter_cons, hd, List.foldlM_cons, hstep]
      simpa using ih1 p

/-- Counterexample to C23 as stated: the `KEY_VALUE_SET` block with a nil entity role and
the block without a kind are ignored blocks (no `PAGE`, `LINE` or `TABLE` block and no
`KEY_VALUE_SET` block with the `KEY` role); `NewPage` faults on the groups that hold them
and returns a page on the groups without them. -/
theorem NewPage_faults_on_ignored_block :
    Example.nilRoleResponse.Blocks.filter isDispatched = [Example.block "PAGE" "p1"] ∧
    NewPage Example.nilRoleResponse.Blocks [] = none ∧
    (NewPage (Example.nilRoleResponse.Blocks.filter isDispatched) []).isSome = true ∧
    Example.noKindGroup.filter isDispatched =
      [Example.block "PAGE" "p1", Example.line "l1" "Hello" []] ∧
    NewPage Example.noKindGroup [] = none ∧
    (NewPage (Example.noKindGroup.filter isDispatched) []).map (fun p => p.Text) =
      some "Hello\n" := by
  decide

/-- C23, as amended. In a page group whose ignored blocks (those that are no `PAGE`, `LINE` or `TABLE`
block and no `KEY_VALUE_SET` block with the `KEY` role) have a kind and entity roles that
are not nil, an ignored block leaves the page as it is, without a fault, and `NewPage` on
the group without its ignored blocks gives the page of the whole group with only the
retained `Blocks` list changed: both fault or both return, with equal text, lines, tables,
form, content, geometry and identifier. -/
theorem NewPage_ignores_other_kinds (g : List Block) (m : BlockMap)
    (hkind : ∀ b ∈ g, isDispatched b = false → b.BlockType.isSome = true)
    (hroles : ∀ b ∈ g, isDispatched b = false → ∀ e ∈ b.EntityTypes, e.isSome = true) :
    (∀ b ∈ g, isDispatched b = false → ∀ p, Page.parseStep m p b = some p) ∧
    NewPage (g.filter isDispatched) m =
      (NewPage g m).map (fun p => { p with Blocks := g.filter isDispatched }) ∧
    (PageInputOk g m → ∃ p, NewPage g m = some p) ∧
    (∀ p, NewPage g m = some p → ∃ q, NewPage (g.filter isDispatched) m = some q ∧
      q.Text = p.Text ∧ q.Lines = p.Lines ∧ q.Tables = p.Tables ∧ q.Form = p.Form ∧
      q.Content = p.Content ∧ q.Geometry = p.Geometry ∧ q.Id = p.Id ∧
      q.Blocks = g.filter isDispatched ∧ p.Blocks = g) := by
  have heq : NewPage (g.filter isDispatched) m =
      (NewPage g m).map (fun p => { p with Blocks := g.filter isDispatched }) := by
    unfold NewPage Page.parse
    simp only
    rw [← parse_fold_dispatched m g hkind hroles]
    exact parse_fold_with_blocks m (g.filter isDispatched) (g.filter isDispatched)
      { Blocks := g, Text := "", Lines := [], Form := NewForm, Tables := [], Content := [],
        Geometry := none, Id := none }
  refine ⟨fun b hb hd p => ?_, heq, NewPage_total g m, fun p hp => ?_⟩
  · rw [parseStep_eq, contribution_ignored m b hd (hkind b hb hd) (hroles b hb hd)]
    rfl
  · rw [hp] at heq
    exact ⟨_, heq, rfl, rfl, rfl, rfl, rfl, rfl, rfl, rfl, NewPage_blocks g m p hp⟩

/-- Witness for C23: of the blocks of the response with a form field and a table, the
words, the value block and the cells are ignored, and the page of the four other blocks is
the page of the whole group. -/
theorem NewPage_ignores_other_kinds_witness :
    (∀ b ∈ Example.formResponse.Blocks, isDispatched b = false → b.BlockType.isSome = true) ∧
    (∀ b ∈ Example.formResponse.Blocks, isDispatched b = false →
      ∀ e ∈ b.EntityTypes, e.isSome = true) ∧
    Example.formResponse.Blocks.filter isDispatched =
      [Example.block "PAGE" "p1", Example.line "l1" "Hello" [], Example.nameKey, Example.grid] ∧
    NewPage (Example.formResponse.Blocks.filter isDispatched)
        (Example.index Example.formResponse.Blocks) =
      (NewPage Example.formResponse.Blocks (Example.index Example.formResponse.Blocks)).map
        (fun p => { p with Blocks := Example.formResponse.Blocks.filter isDispatched }) :=
  ⟨by decide, by decide, by decide,
    (NewPage_ignores_other_kinds Example.formResponse.Blocks
      (Example.index Example.formResponse.Blocks) (by decide) (by decide)).2.1⟩

/-! ### The rows of a table and the reference fold -/

theorem NewTable_ids_reference (m : BlockMap) (ids : List (Option String)) :
    ∀ st st' : NewTable.State, st.pending = 0 →
      ids.foldlM (NewTable.idStep m) st = some st' →
      ∃ cells : List Cell, (resolve m ids).map (fun v => NewCell v m) = cells.map some ∧
        (∀ c ∈ cells, c.RowIndex.isSome = true) ∧ st'.pending = 0 ∧
        cells.foldl referenceStep (RowFold.mk st.closed st.row st.ri) =
          RowFold.mk st'.closed st'.row st'.ri := by
  induction ids with
  | nil =>
    intro st st' hp h
    simp at h; subst h
    exact ⟨[], by simp [resolve], by simp, hp, rfl⟩
  | cons cid rest ih =>
    intro st st' hp h
    obtain ⟨s1, h1, h2⟩ := foldlM_cons_some _ _ _ _ _ h
    cases cid with
    | none => simp [NewTable.idStep] at h1
    | some c =>
      cases hl : m.lookup c with
      | none =>
        have := NewTable_idStep_absent m st s1 c hl h1
        subst this
        obtain ⟨cells, hc, hidx, hp', hf⟩ := ih s1 st' hp h2
        refine ⟨cells, ?_, hidx, hp', hf⟩
        rw [resolve_cons, ← hc]
        simp [resolve, hl]
      | some v =>
        obtain ⟨cell, idx, hcell, hidx, hcase⟩ := NewTable_idStep_present m st s1 c v hl h1
        have hri : cell.rowIndex = idx := by simp [Cell.rowIndex, hidx]
        have hres : resolve m (some c :: rest) = v :: resolve m rest := by
          rw [resolve_cons]; simp [resolve, hl]
        rcases hcase with ⟨hgt, hs1⟩ | ⟨hle, hs1⟩
        · have hp1 : s1.pending = 0 := by rw [hs1]
          obtain ⟨cells, hc, hall, hp', hf⟩ := ih s1 st' hp1 h2
          refine ⟨cell :: cells, ?_, ?_, hp', ?_⟩
          · rw [hres]; simp [hcell, hc]
          · intro x hx
            rcases List.mem_cons.mp hx with rfl | hx
            · simp [hidx]
            · exact hall x hx
          · rw [List.foldl_cons, ← hf]
            congr 1
            simp [referenceStep, hri, hgt, hs1, hp, NewRow]
        · have hp1 : s1.pending = 0 := by rw [hs1]; exact hp
          obtain ⟨cells, hc, hall, hp', hf⟩ := ih s1 st' hp1 h2
          refine ⟨cell :: cells, ?_, ?_, hp', ?_⟩
          · rw [hres]; simp [hcell, hc]
          · intro x hx
            rcases List.mem_cons.mp hx with rfl | hx
            · simp [hidx]
            · exact hall x hx
          · rw [List.foldl_cons, ← hf]
            congr 1
            simp [referenceStep, hri, hle, hs1]

theorem referenceStep_rows (cells : List Cell) :
    ∀ s : RowFold, ∃ l, (cells.foldl referenceStep s).rows = s.rows ++ l ∧
      l.length = raisingCells s.current cells := by
  induction cells with
  | nil => intro s; exact ⟨[], by simp, rfl⟩
  | cons c cs ih =>
    intro s
    obtain ⟨l, hl, hlen⟩ := ih (referenceStep s c)
    by_cases hgt : c.rowIndex > s.current
    · refine ⟨s.openRow :: l, ?_, ?_⟩
      · rw [List.foldl_cons, hl]; simp [referenceStep, hgt]
      · simp only [raisingCells, hgt, if_true, List.length_cons, hlen]
        simp [referenceStep, hgt]
        omega
    · refine ⟨l, ?_, ?_⟩
      · rw [List.foldl_cons, hl]; simp [referenceStep, hgt]
      · simp only [raisingCells, hgt, if_false, hlen]
        simp [referenceStep, hgt]

/-- C24. For a `TABLE` block with a single `CHILD` relationship, `NewTable` returns when
the block and the index are well formed and the referenced blocks have a row index, and the
rows of the table it returns are the result of the reference fold over the cells built from
the blocks that the identifiers resolve to, in relationship order, whatever the order of
their row indices: the rows are one more than the cells that strictly raise the running row
index, a cell that does not raise it is appended to the open row, and a first cell with a
row index above 1 leaves an empty first row. -/
theorem NewTable_rows_reference_fold (b : Block) (m : BlockMap)
    (pre post : List Relationship) (r : Relationship)
    (hrel : b.Relationships = pre ++ r :: post) (hc : isRel "CHILD" r = true)
    (hpre : ∀ x ∈ pre, isRel "CHILD" x = false) (hpost : ∀ x ∈ post, isRel "CHILD" x = false) :
    (HasBox b → RelsOk b → IndexOk m → (∀ v ∈ resolve m r.Ids, v.RowIndex.isSome = true) →
      ∃ t, NewTable b m = some t) ∧
    (∀ t, NewTable b m = some t →
      ∃ cells : List Cell, (resolve m r.Ids).map (fun v => NewCell v m) = cells.map some ∧
        (∀ c ∈ cells, c.RowIndex.isSome = true) ∧
        t.Rows = referenceRows cells ∧
        t.Rows.length = 1 + raisingCells 1 cells ∧
        (∀ c cs, cells = c :: cs → c.rowIndex > 1 → t.Rows.head? = some NewRow)) ∧
    (∀ (s : RowFold) (c : Cell), ¬ c.rowIndex > s.current →
      referenceStep s c = { s with openRow := { Cells := s.openRow.Cells ++ [c] } }) := by
  refine ⟨fun hbox hrels hm hrow => ?_, fun t ht => ?_, fun s c hle => ?_⟩
  · refine NewTable_total b m hbox hrels hm (fun rs hrs hchild v hv => ?_)
    rw [hrel, List.mem_append, List.mem_cons] at hrs
    rcases hrs with hrs | rfl | hrs
    · rw [hpre rs hrs] at hchild; cases hchild
    · exact hrow v hv
    · rw [hpost rs hrs] at hchild; cases hchild
  · obtain ⟨st, hst, -, hrows⟩ := NewTable_single_child b m t pre post r hrel hc hpre hpost ht
    obtain ⟨cells, hcells, hall, -, hfold⟩ :=
      NewTable_ids_reference m r.Ids NewTable.init st rfl hst
    have hfold1 : cells.foldl referenceStep { rows := [], openRow := NewRow, current := 1 } =
        RowFold.mk st.closed st.row st.ri := hfold
    have href : t.Rows = referenceRows cells := by
      rw [hrows]
      simp only [referenceRows, hfold1]
    obtain ⟨l, hl, hlen⟩ := referenceStep_rows cells
      { rows := [], openRow := NewRow, current := 1 }
    refine ⟨cells, hcells, hall, href, ?_, fun c cs hcs hgt => ?_⟩
    · rw [href]
      simp only [referenceRows, hl, List.nil_append, List.length_append, List.length_singleton,
        hlen]
      omega
    · rw [href, hcs]
      obtain ⟨l1, hl1, -⟩ := referenceStep_rows cs
        (referenceStep { rows := [], openRow := NewRow, current := 1 } c)
      simp only [referenceRows, List.foldl_cons, hl1]
      simp [referenceStep, hgt]
  · simp [referenceStep, hle]

/-- Witness for C24: the table whose cells have the row indices 2, 1 and 3, in that order,
has an empty first row, then the cells "a" and "b" in one row, then the cell "c": three
rows, for the two cells that raise the running row index. -/
theorem NewTable_rows_reference_fold_witness :
    Example.loose.Relationships = [] ++ Example.child ["a", "ghost", "b", "c"] :: [] ∧
    isRel "CHILD" (Example.child ["a", "ghost", "b", "c"]) = true ∧
    ∃ t cells, NewTable Example.loose (Example.index Example.looseCells) = some t ∧
      cells.map (fun c => c.Id) = [some "a", some "b", some "c"] ∧
      t.Rows = referenceRows cells ∧ t.Rows.length = 3 ∧ t.Rows.head? = some NewRow := by
  have hrel : Example.loose.Relationships =
      [] ++ Example.child ["a", "ghost", "b", "c"] :: [] := by decide
  have hc : isRel "CHILD" (Example.child ["a", "ghost", "b", "c"]) = true := by decide
  have thm := NewTable_rows_reference_fold Example.loose (Example.index Example.looseCells)
    [] [] (Example.child ["a", "ghost", "b", "c"]) hrel hc (by simp) (by simp)
  obtain ⟨t, ht⟩ := thm.1 (by decide) (by decide) (by decide) (by decide)
  obtain ⟨cells, hcells, -, href, -, -⟩ := thm.2.1 t ht
  have hlen : (NewTable Example.loose (Example.index Example.looseCells)).map
      (fun t => (t.Rows.length, t.Rows.head?)) = some (3, some NewRow) := by decide
  rw [ht] at hlen
  simp only [Option.map_some', Option.some.injEq, Prod.mk.injEq] at hlen
  have hids : ((resolve (Example.index Example.looseCells)
      (Example.child ["a", "ghost", "b", "c"]).Ids).map
        (fun v => (NewCell v (Example.index Example.looseCells)).map fun c => c.Id)) =
      [some (some "a"), some (some "b"), some (some "c")] := by decide
  have hmap : cells.map (fun c => c.Id) = [some "a", some "b", some "c"] := by
    have h2 := congrArg (List.map (Option.map fun c : Cell => c.Id)) hcells
    simp only [List.map_map] at h2
    have h3 : (List.map ((Option.map fun c : Cell => c.Id) ∘ fun v =>
        NewCell v (Example.index Example.looseCells))
        (resolve (Example.index Example.looseCells)
          (Example.child ["a", "ghost", "b", "c"]).Ids)) =
        [some (some "a"), some (some "b"), some (some "c")] := hids
    rw [h3] at h2
    have h4 : List.map some (cells.map fun c => c.Id) =
        List.map some [some "a", some "b", some "c"] := by
      rw [List.map_map]
      exact h2.symm
    exact List.map_injective_iff.mpr (Option.some_injective _) h4
  exact ⟨hrel, hc, t, cells, ht, hmap, href, hlen.1, hlen.2⟩

/-! ### The index of the whole input -/

theorem lookup_of_mem_unique (m : BlockMap) (id : String) (v : Block) (hmem : (id, v) ∈ m)
    (huniq : ∀ x, (id, x) ∈ m → x = v) : m.lookup id = some v := by
  induction m with
  | nil => cases hmem
  | cons kv m ih =>
    obtain ⟨k, x⟩ := kv
    by_cases hk : id = k
    · subst hk
      have := huniq x (List.mem_cons_self _ _)
      subst this
      simp [List.lookup]
    · have hmem1 : (id, v) ∈ m := by
        rcases List.mem_cons.mp hmem with heq | hm
        · exact absurd (congrArg Prod.fst heq) hk
        · exact hm
      have hne : (id == k) = false := by simpa using hk
      simp only [List.lookup, hne]
      exact ih hmem1 (fun y hy => huniq y (List.mem_cons_of_mem _ hy))

theorem NewDocument_blockMap (response : AnalyzeDocumentOutput) (d : Document)
    (h : NewDocument response = some d) :
    d.BlockMap = (response.Blocks.filterMap blockEntry).reverse ∧
    ∀ b ∈ response.Blocks, b.BlockType ≠ none := by
  obtain ⟨hparse, -⟩ := NewDocument_groups response d h
  simp only [parseDocumentPagesAndBlockMap, List.foldlM_cons, List.foldlM_nil,
    Option.bind_eq_bind, Option.pure_def, Option.bind_eq_some] at hparse
  obtain ⟨st, ⟨s1, hs1, hs⟩, hg⟩ := hparse
  cases hs
  simp only [Option.some.injEq, Prod.mk.injEq] at hg
  refine ⟨?_, fun b hb hnone => ?_⟩
  · rw [← hg.2, parse_blocks_blockMap response.Blocks _ st hs1]
    simp
  · obtain ⟨a, a', ha⟩ := foldlM_each _ response.Blocks _ st hs1 b hb
    simp [parseDocumentPagesAndBlockMap.step, hnone] at ha

theorem mem_blockMap (blocks : List Block) (id : String) (v : Block) :
    (id, v) ∈ (blocks.filterMap blockEntry).reverse ↔ v ∈ blocks ∧ v.Id = some id := by
  rw [List.mem_reverse, List.mem_filterMap]
  constructor
  · rintro ⟨b, hb, hentry⟩
    simp only [blockEntry, Option.map_eq_some'] at hentry
    obtain ⟨c, hc, heq⟩ := hentry
    cases heq
    exact ⟨hb, hc⟩
  · rintro ⟨hv, hid⟩
    exact ⟨v, hv, by simp [blockEntry, hid]⟩

theorem lookup_perm_blockMap (l1 l2 : List Block) (hperm : l2.Perm l1) (huniq : UniqueIds l1)
    (id : String) (v : Block)
    (h : ((l1.filterMap blockEntry).reverse).lookup id = some v) :
    ((l2.filterMap blockEntry).reverse).lookup id = some v := by
  obtain ⟨hv, hid⟩ := (mem_blockMap l1 id v).mp (lookup_mem _ id v h)
  refine lookup_of_mem_unique _ id v ((mem_blockMap l2 id v).mpr ⟨hperm.mem_iff.mpr hv, hid⟩)
    (fun x hx => ?_)
  obtain ⟨hx1, hx2⟩ := (mem_blockMap l2 id x).mp hx
  exact huniq x (hperm.mem_iff.mp hx1) v hv (by simp [hx2]) (by rw [hx2, hid])

theorem UniqueIds_perm (l1 l2 : List Block) (hperm : l2.Perm l1) (huniq : UniqueIds l1) :
    UniqueIds l2 :=
  fun x hx y hy hsome heq => huniq x (hperm.mem_iff.mp hx) y (hperm.mem_iff.mp hy) hsome heq

/-- C25. Every page of a document that `NewDocument` returns is built by `NewPage` from its
group against one index, which holds every block of the whole input that has an
identifier. A block that lies in the group of any page and is the only block with its
identifier is what the identifier resolves to, from every page; and with identifiers
carried by one block each, the resolution is the same for every arrangement of the blocks
over the pages. -/
theorem NewDocument_resolves_across_pages (response : AnalyzeDocumentOutput) (d : Document)
    (h : NewDocument response = some d) :
    d.ResponseDocumentPages.flatten = response.Blocks ∧
    d.Pages.map some = d.ResponseDocumentPages.map (fun g => NewPage g d.BlockMap) ∧
    (∀ id v, (id, v) ∈ d.BlockMap ↔ v ∈ response.Blocks ∧ v.Id = some id) ∧
    (∀ gj ∈ d.ResponseDocumentPages, ∀ v ∈ gj, ∀ id, v.Id = some id →
      (∀ x ∈ response.Blocks, x.Id = some id → x = v) →
      d.BlockMap.lookup id = some v ∧ ∀ ids, some id ∈ ids → v ∈ resolve d.BlockMap ids) ∧
    (UniqueIds response.Blocks → ∀ r2 d2, r2.Blocks.Perm response.Blocks →
      NewDocument r2 = some d2 →
      (∀ id, d2.BlockMap.lookup id = d.BlockMap.lookup id) ∧
      ∀ ids, resolve d2.BlockMap ids = resolve d.BlockMap ids) := by
  obtain ⟨hmap, hkind⟩ := NewDocument_blockMap response d h
  obtain ⟨groups, m, hparse, hflat, -⟩ := parse_single_result response hkind
  obtain ⟨hg, -⟩ := NewDocument_groups response d h
  rw [hparse] at hg
  simp only [Option.some.injEq, Prod.mk.injEq] at hg
  obtain ⟨hg1, -⟩ := hg
  subst hg1
  have hmem : ∀ id v, (id, v) ∈ d.BlockMap ↔ v ∈ response.Blocks ∧ v.Id = some id := by
    intro id v
    rw [hmap]
    exact mem_blockMap response.Blocks id v
  refine ⟨hflat, NewDocument_pages response d h, hmem, ?_, ?_⟩
  · intro gj hgj v hv id hid huniq
    have hvin : v ∈ response.Blocks := by
      rw [← hflat]
      exact List.mem_flatten.mpr ⟨gj, hgj, hv⟩
    have hl : d.BlockMap.lookup id = some v :=
      lookup_of_mem_unique d.BlockMap id v ((hmem id v).mpr ⟨hvin, hid⟩)
        (fun x hx => huniq x ((hmem id x).mp hx).1 ((hmem id x).mp hx).2)
    exact ⟨hl, fun ids hids => mem_resolve d.BlockMap ids id v hids hl⟩
  · intro huniq r2 d2 hperm h2
    obtain ⟨hmap2, -⟩ := NewDocument_blockMap r2 d2 h2
    have hlook : ∀ id, d2.BlockMap.lookup id = d.BlockMap.lookup id := by
      intro id
      rw [hmap, hmap2]
      cases h1 : ((response.Blocks.filterMap blockEntry).reverse).lookup id with
      | some v => exact lookup_perm_blockMap response.Blocks r2.Blocks hperm huniq id v h1
      | none =>
        cases h3 : ((r2.Blocks.filterMap blockEntry).reverse).lookup id with
        | none => rfl
        | some v =>
          have := lookup_perm_blockMap r2.Blocks response.Blocks hperm.symm
            (UniqueIds_perm response.Blocks r2.Blocks hperm huniq) id v h3
          rw [h1] at this
          cases this
    refine ⟨hlook, fun ids => ?_⟩
    simp only [resolve, hlook]

/-- Witness for C25: in the response of two pages, the word "w1" lies in the group of the
second page, the index gives it for its identifier, and the line of the first page, which
refers to it, has it as its word. -/
theorem NewDocument_resolves_across_pages_witness :
    ∃ d, NewDocument Example.crossPages = some d ∧
      d.ResponseDocumentPages =
        [[Example.block "PAGE" "p1", Example.line "l1" "Hello" ["w1"]],
         [Example.block "PAGE" "p2", Example.word "w1" "Hello"]] ∧
      d.BlockMap.lookup "w1" = some (Example.word "w1" "Hello") ∧
      d.Pages.map (fun p => p.Lines.map fun l => l.Words.map fun w => w.Text) =
        [[[some "Hello"]], []] := by
  obtain ⟨d, hd⟩ := NewDocument_total Example.crossPages (by decide)
  have hgroups : (NewDocument Example.crossPages).map (fun d => d.ResponseDocumentPages) =
      some [[Example.block "PAGE" "p1", Example.line "l1" "Hello" ["w1"]],
            [Example.block "PAGE" "p2", Example.word "w1" "Hello"]] := by decide
  have hwords : (NewDocument Example.crossPages).map
      (fun d => d.Pages.map fun p => p.Lines.map fun l => l.Words.map fun w => w.Text) =
      some [[[some "Hello"]], []] := by decide
  rw [hd] at hgroups hwords
  simp only [Option.map_some', Option.some.injEq] at hgroups hwords
  have thm := NewDocument_resolves_across_pages Example.crossPages d hd
  have hl := (thm.2.2.2.1 [Example.block "PAGE" "p2", Example.word "w1" "Hello"]
    (by rw [hgroups]; simp) (Example.word "w1" "Hello") (by simp) "w1" (by decide)
    (by decide)).1
  exact ⟨d, hd, hgroups, hl, hwords⟩

/-! ### Totality on input with texts on the indexed words -/

theorem contribution_total_top (m : BlockMap) (b : Block) (hkind : b.BlockType.isSome = true)
    (hbox : HasBox b) (hrels : RelsOk b) (hroles : ∀ e ∈ b.EntityTypes, e.isSome = true)
    (hline : b.BlockType = some "LINE" → b.Text.isSome = true) (hm : IndexOk m)
    (hcells : isKind "TABLE" b = true → ∀ rs ∈ b.Relationships,
      isRel "CHILD" rs = true → ∀ v ∈ resolve m rs.Ids, v.RowIndex.isSome = true) :
    ∃ c, contribution m b = some c := by
  cases hd : isDispatched b with
  | false => exact ⟨_, contribution_ignored m b hd hkind hroles⟩
  | true =>
    refine contribution_total m b ⟨hkind, hbox, hrels, hroles, fun hw => ?_, hline, fun hs => ?_⟩
      hm hcells
    · simp [isDispatched, isKind, hw] at hd
    · simp [isDispatched, isKind, hs] at hd

theorem NewDocument_total_indexed (response : AnalyzeDocumentOutput)
    (h : IndexedInputOk response.Blocks) (hroles : RolesOk response.Blocks)
    (hpoints : ∀ b ∈ response.Blocks, PolygonOk b) :
    ∃ d, NewDocument response = some d := by
  obtain ⟨hblocks, hindexed, hcells⟩ := h
  have hkind : ∀ b ∈ response.Blocks, b.BlockType ≠ none := by
    intro b hb hnone
    have := (hblocks b hb).1
    rw [hnone] at this
    cases this
  obtain ⟨groups, m, hparse, hflat, hentry⟩ := parse_single_result response hkind
  have hm : IndexOk m := by
    intro kv hkv
    obtain ⟨hmem, hid⟩ := hentry kv hkv
    obtain ⟨h1, h2, h3, h4⟩ := hblocks kv.2 hmem
    obtain ⟨h5, h6⟩ := hindexed kv.2 hmem (by simp [hid])
    exact ⟨h1, ⟨h2, hpoints kv.2 hmem⟩, h3, hroles kv.2 hmem, h5, h4, h6⟩
  have hpages : ∀ g ∈ groups, ∃ p, NewPage g m = some p := by
    intro g hg
    have hsub : ∀ b ∈ g, b ∈ response.Blocks := by
      intro b hb
      rw [← hflat]
      exact List.mem_flatten.mpr ⟨g, hg, hb⟩
    unfold NewPage Page.parse
    exact foldlM_total (Page.parseStep m) g
      (fun b hb p => by
        obtain ⟨h1, h2, h3, h4⟩ := hblocks b (hsub b hb)
        obtain ⟨c, hc⟩ := contribution_total_top m b h1 ⟨h2, hpoints b (hsub b hb)⟩ h3
          (hroles b (hsub b hb)) h4 hm
          (fun htable rs hrs hchild v hv => by
            obtain ⟨c, hc, hl⟩ := resolve_mem m rs.Ids v hv
            obtain ⟨hvmem, hvid⟩ := hentry (c, v) (lookup_mem m c v hl)
            exact hcells b (hsub b hb) htable rs hrs hchild v hvmem (by rw [hvid]; exact hc))
        exact ⟨c.apply p, by rw [parseStep_eq, hc]; rfl⟩) _
  obtain ⟨pages, hfold⟩ := foldlM_total
    (fun (pages : List Page) (documentPage : List Block) => do
      let page ← NewPage documentPage m
      pure (pages ++ [page])) groups
    (fun g hg acc => by
      obtain ⟨p, hp⟩ := hpages g hg
      exact ⟨acc ++ [p], by simp [hp]⟩) []
  refine ⟨{ ResponsePages := [response], Pages := pages, ResponseDocumentPages := groups,
            BlockMap := m }, ?_⟩
  simp only [Option.bind_eq_bind, Option.pure_def] at hfold
  simp only [NewDocument, hparse, Option.bind_eq_bind, Option.some_bind, Option.pure_def, hfold]

/-- Counterexample to C26 as stated: every block of the first response has a kind, a geometry
with a bounding box and no relationship, there is no `LINE`, `WORD`, `SELECTION_ELEMENT` or
`TABLE` block, and `NewDocument` faults on the nil entity role of the `KEY_VALUE_SET`
block; the second response meets the conditions as well, and `NewDocument` faults on the nil
polygon point of its `PAGE` block. -/
theorem NewDocument_faults_on_nil_entity_role :
    IndexedInputOk Example.nilRoleResponse.Blocks ∧
    NewDocument Example.nilRoleResponse = none ∧
    IndexedInputOk Example.nilPointResponse.Blocks ∧
    NewDocument Example.nilPointResponse = none :=
  ⟨by decide, by decide, by decide, by decide⟩

/-- C26, as amended. When every block has a kind, a geometry with a bounding box and polygon
points that are not nil, and entity roles that are not nil, every relationship a type and
identifiers that are not nil, every `LINE` block and every `WORD` block with an identifier a
text, every `SELECTION_ELEMENT` block with an identifier a selection status, and every block
whose identifier a `CHILD` relationship of a `TABLE` block refers to a row index,
`NewDocument` returns a document, and the text, form and table projections of its pages in
no-write mode return their value without an error. -/
theorem NewDocument_total_on_well_formed_input (response : AnalyzeDocumentOutput)
    (h : IndexedInputOk response.Blocks) (hroles : RolesOk response.Blocks)
    (hpoints : ∀ b ∈ response.Blocks, PolygonOk b) :
    ∃ d, NewDocument response = some d ∧
      ∀ page ∈ d.Pages, ∀ (o : OutputGenerator) (n : Int),
        o.OutputText page n true = ((page.Text, none), o.s3) ∧
        o.OutputForm page n true = ((page.Form.Fields.map formRow, none), o.s3) ∧
        o.OutputTable page n true = ((page.Tables.flatMap tableRows, none), o.s3) := by
  obtain ⟨d, hd⟩ := NewDocument_total_indexed response h hroles hpoints
  refine ⟨d, hd, fun page _ o n => ⟨rfl, ?_, ?_⟩⟩
  · simp [OutputGenerator.OutputForm, form_rows_eq]
  · simp [OutputGenerator.OutputTable, table_rows_eq]

/-- Witness for C26 as amended: the response with a line, its word and a word without
identifier and text meets the conditions, and `NewDocument` returns a document of one
page for it. -/
theorem NewDocument_total_on_well_formed_input_witness :
    IndexedInputOk Example.looseWordResponse.Blocks ∧
    RolesOk Example.looseWordResponse.Blocks ∧
    (∀ b ∈ Example.looseWordResponse.Blocks, PolygonOk b) ∧
    ¬ DocumentInputOk Example.looseWordResponse.Blocks ∧
    ∃ d, NewDocument Example.looseWordResponse = some d ∧ d.Pages.length = 1 := by
  have hok : IndexedInputOk Example.looseWordResponse.Blocks := by decide
  have hroles : RolesOk Example.looseWordResponse.Blocks := by decide
  have hpoints : ∀ b ∈ Example.looseWordResponse.Blocks, PolygonOk b := by decide
  obtain ⟨d, hd, -⟩ :=
    NewDocument_total_on_well_formed_input Example.looseWordResponse hok hroles hpoints
  have hlen : (NewDocument Example.looseWordResponse).map (fun d => d.Pages.length) = some 1 := by
    decide
  rw [hd] at hlen
  exact ⟨hok, hroles, hpoints, by decide, d, hd, Option.some.inj hlen⟩

/-! ### The lists of a page -/

theorem apply_inv (m : BlockMap) (b : Block) (c : Contribution) (p : Page)
    (hc : contribution m b = some c) (inv : PageInv p) : PageInv (c.apply p) := by
  obtain ⟨h1, h2, h3, h4, h5, h6⟩ := inv
  rcases contribution_cases m b c hc with ⟨-, l, txt, rfl, -, -⟩ | ⟨-, -, t, rfl, -⟩ |
    ⟨-, -, -, f, k, rfl, -, hk⟩ | ⟨-, rfl | ⟨g, id, rfl⟩⟩
  · refine ⟨?_, ?_, ?_, ?_, h5, h6⟩
    · simp only [Contribution.apply, List.length_append, List.length_singleton, h1]; omega
    · simp [Contribution.apply, h2, PageContent.asLine]
    · simp [Contribution.apply, h3, PageContent.asTable]
    · simp [Contribution.apply, h4, PageContent.asField]
  · refine ⟨?_, ?_, ?_, ?_, h5, h6⟩
    · simp only [Contribution.apply, List.length_append, List.length_singleton, h1]; omega
    · simp [Contribution.apply, h2, PageContent.asLine]
    · simp [Contribution.apply, h3, PageContent.asTable]
    · simp [Contribution.apply, h4, PageContent.asField]
  · refine ⟨?_, ?_, ?_, ?_, ?_, ?_⟩
    · simp only [Contribution.apply, List.length_append, List.length_singleton, h1]; omega
    · simp [Contribution.apply, h2, PageContent.asLine]
    · simp [Contribution.apply, h3, PageContent.asTable]
    · simp [Contribution.apply, h4, PageContent.asField]
    · intro x hx
      simp only [Contribution.apply, List.mem_append, List.mem_singleton] at hx
      rcases hx with hx | rfl
      · exact h5 x hx
      · simp [hk]
    · intro key x hx
      simp only [Contribution.apply, List.mem_cons, Prod.mk.injEq] at hx
      rcases hx with ⟨rfl, rfl⟩ | hx
      · exact ⟨by simp [Contribution.apply], by simp [hk]⟩
      · obtain ⟨a1, a2⟩ := h6 key x hx
        exact ⟨by simp [Contribution.apply, a1], a2⟩
  · exact ⟨h1, h2, h3, h4, h5, h6⟩
  · exact ⟨h1, h2, h3, h4, h5, h6⟩

theorem lookup_mem_entries {β : Type} (l : List (String × β)) (k : String) (v : β)
    (h : l.lookup k = some v) : (k, v) ∈ l := by
  induction l with
  | nil => simp [List.lookup] at h
  | cons kv l ih =>
    obtain ⟨a, b⟩ := kv
    by_cases hk : k = a
    · subst hk
      simp [List.lookup] at h
      subst h
      exact List.mem_cons_self _ _
    · have hne : (k == a) = false := by simpa using hk
      simp only [List.lookup, hne] at h
      exact List.mem_cons_of_mem _ (ih h)

theorem parse_fold_inv (m : BlockMap) (bs : List Block) :
    ∀ p p' : Page, bs.foldlM (Page.parseStep m) p = some p' → PageInv p → PageInv p' :=
  foldlM_keep (Page.parseStep m) (fun p p' => PageInv p → PageInv p') (fun _ h => h)
    (fun _ _ _ hab hbc h => hbc (hab h)) bs
    (fun b _ s s' hs inv => by
      rw [parseStep_eq] at hs
      cases hc : contribution m b with
      | none => simp [hc] at hs
      | some c =>
        simp only [hc, Option.map_some', Option.some.injEq] at hs
        subst hs
        exact apply_inv m b c s hc inv)

/-- C27. `NewPage` returns on well-formed input, and in a page that it returns the content
has as many elements as the lines, the tables and the form fields together; the lines, the
tables and the form fields are the elements of the content of their type, in the order of
the content; every form field has a key; and every entry of the map of the form, under a
key text, is a form field of the page with that key text. -/
theorem NewPage_lists_agree_with_content (blocks : List Block) (m : BlockMap) :
    (PageInputOk blocks m → ∃ p, NewPage blocks m = some p) ∧
    (∀ p, NewPage blocks m = some p →
      p.Content.length = p.Lines.length + p.Tables.length + p.Form.Fields.length ∧
      p.Lines = p.Content.filterMap PageContent.asLine ∧
      p.Tables = p.Content.filterMap PageContent.asTable ∧
      p.Form.Fields = p.Content.filterMap PageContent.asField ∧
      (∀ f ∈ p.Form.Fields, f.Key.isSome = true) ∧
      (∀ k f, (k, f) ∈ p.Form.FieldsMap →
        f ∈ p.Form.Fields ∧ f.Key.map (fun key => key.Text) = some k) ∧
      (∀ k f, p.Form.FieldsMap.lookup k = some f →
        f ∈ p.Form.Fields ∧ f.Key.map (fun key => key.Text) = some k)) := by
  refine ⟨NewPage_total blocks m, fun p h => ?_⟩
  have inv : PageInv p := parse_fold_inv m blocks _ p h
    ⟨rfl, rfl, rfl, rfl, by simp [NewForm], by simp [NewForm]⟩
  exact ⟨inv.length, inv.lines, inv.tables, inv.fields, inv.keys, inv.entries,
    fun k f hl => inv.entries k f (lookup_mem_entries _ k f hl)⟩

/-- Witness for C27: the page of the response with a line, a form field and a table has
three content elements, one line, one table and one field, and the field has the key text
"First Name", under which the map of the form holds it. -/
theorem NewPage_lists_agree_with_content_witness :
    PageInputOk Example.formResponse.Blocks (Example.index Example.formResponse.Blocks) ∧
    ∃ p, NewPage Example.formResponse.Blocks (Example.index Example.formResponse.Blocks) =
        some p ∧
      p.Content.length = 3 ∧ p.Lines.length = 1 ∧ p.Tables.length = 1 ∧
      p.Form.Fields.length = 1 ∧
      p.Form.Fields = p.Content.filterMap PageContent.asField ∧
      p.Form.FieldsMap.map (fun kf => kf.1) = ["First Name"] := by
  have hok : PageInputOk Example.formResponse.Blocks
      (Example.index Example.formResponse.Blocks) := by decide
  have thm := NewPage_lists_agree_with_content Example.formResponse.Blocks
    (Example.index Example.formResponse.Blocks)
  obtain ⟨p, hp⟩ := thm.1 hok
  have hval : (NewPage Example.formResponse.Blocks
      (Example.index Example.formResponse.Blocks)).map
      (fun p => (p.Content.length, p.Lines.length, p.Tables.length, p.Form.Fields.length,
        p.Form.FieldsMap.map fun kf => kf.1)) = some (3, 1, 1, 1, ["First Name"]) := by decide
  rw [hp] at hval
  simp only [Option.map_some', Option.some.injEq, Prod.mk.injEq] at hval
  obtain ⟨v1, v2, v3, v4, v5⟩ := hval
  exact ⟨hok, p, hp, v1, v2, v3, v4, (thm.2 p hp).2.2.2.1, v5⟩

/-! ### The value of a field, for any `VALUE` relationships -/

theorem filter_getLast_split {α : Type} (p : α → Bool) (l : List α) :
    ∀ x, (l.filter p).getLast? = some x →
      ∃ pre post, l = pre ++ x :: post ∧ p x = true ∧ ∀ y ∈ post, p y = false := by
  induction l using List.reverseRecOn with
  | nil => intro x h; simp at h
  | append_singleton l a ih =>
    intro x h
    rw [List.filter_append] at h
    cases hp : p a with
    | true =>
      have hx : a = x := by
        simpa [List.filter_cons, hp] using h
      subst hx
      exact ⟨l, [], rfl, hp, by simp⟩
    | false =>
      simp only [List.filter_cons, hp, List.filter_nil, List.append_nil] at h
      simp only [Bool.false_eq_true, if_false, List.append_nil] at h
      obtain ⟨pre, post, hl, hx, hpost⟩ := ih x h
      refine ⟨pre, post ++ [a], by rw [hl]; simp, hx, fun y hy => ?_⟩
      rcases List.mem_append.mp hy with hy | hy
      · exact hpost y hy
      · simp only [List.mem_singleton] at hy
        rw [hy]; exact hp

theorem NewField_valueRels_effect (vkvs : Block) (m : BlockMap) (value value' : Option FieldValue)
    (h : vkvs.Relationships.foldlM (NewField.valueRelStep vkvs m) value = some value') :
    (hasChildRel vkvs = false → value' = value) ∧
    (hasChildRel vkvs = true →
      ∃ val, value' = some val ∧ NewFieldValue vkvs (lastChildIds vkvs) m = some val) := by
  constructor
  · intro hno
    simp only [hasChildRel, List.any_eq_false] at hno
    exact foldlM_keep (NewField.valueRelStep vkvs m) (fun a b => b = a) (fun _ => rfl)
      (fun _ _ _ hab hbc => hbc.trans hab) vkvs.Relationships
      (fun x hx s s' hs => NewField_valueRelStep_other vkvs m s s' x (by simpa using hno x hx) hs)
      value value' h
  · intro hyes
    simp only [hasChildRel, List.any_eq_true] at hyes
    obtain ⟨r, hr, hrc⟩ := hyes
    have hne : vkvs.Relationships.filter (isRel "CHILD") ≠ [] :=
      List.ne_nil_of_mem (List.mem_filter.mpr ⟨hr, hrc⟩)
    obtain ⟨rc, hrc1⟩ : ∃ rc, (vkvs.Relationships.filter (isRel "CHILD")).getLast? = some rc := by
      cases hl : (vkvs.Relationships.filter (isRel "CHILD")).getLast? with
      | none => exact absurd (List.getLast?_eq_none_iff.mp hl) hne
      | some rc => exact ⟨rc, rfl⟩
    obtain ⟨pre, post, hsplit, hc, hpost⟩ := filter_getLast_split _ _ rc hrc1
    rw [hsplit] at h
    obtain ⟨val, hval, hnew⟩ := NewField_valueRels_last vkvs m value value' pre post rc hc hpost h
    refine ⟨val, hval, ?_⟩
    simp only [lastChildIds, hrc1, Option.map_some', Option.getD_some]
    exact hnew

theorem ValueFrom_nil (m : BlockMap) (value : Option FieldValue) : ValueFrom m [] value value :=
  ⟨fun _ => rfl, fun V h => by simp at h⟩

theorem ValueFrom_append (m : BlockMap) (c1 c2 : List Block) (v0 v1 v2 : Option FieldValue)
    (h1 : ValueFrom m c1 v0 v1) (h2 : ValueFrom m c2 v1 v2) : ValueFrom m (c1 ++ c2) v0 v2 := by
  constructor
  · intro h
    obtain ⟨e1, e2⟩ := List.append_eq_nil.mp h
    rw [h2.1 e2, h1.1 e1]
  · intro V hV
    cases c2 with
    | nil =>
      rw [List.append_nil] at hV
      rw [h2.1 rfl]
      exact h1.2 V hV
    | cons a l =>
      rw [List.getLast?_append_of_ne_nil _ (by simp)] at hV
      exact h2.2 V hV

theorem NewField_valueIdStep_effect (m : BlockMap) (value value' : Option FieldValue)
    (eid : Option String) (h : NewField.valueIdStep m value eid = some value') :
    ValueFrom m ((resolve m [eid]).filter isValueSource) value value' := by
  unfold NewField.valueIdStep at h
  cases eid with
  | none => simp at h
  | some e =>
    cases hl : m.lookup e with
    | none =>
      simp [hl] at h
      subst h
      simpa [resolve, hl] using ValueFrom_nil m value
    | some vkvs =>
      have hres : resolve m [some e] = [vkvs] := by simp [resolve, hl]
      cases hr : refsContainValue vkvs.EntityTypes "VALUE" with
      | none => simp [hl, hr] at h
      | some r =>
        have hrole := refsContainValue_hasRole vkvs "VALUE" r hr
        cases r with
        | false =>
          simp [hl, hr] at h
          subst h
          have : isValueSource vkvs = false := by simp [isValueSource, ← hrole]
          simpa [hres, List.filter_cons, this] using ValueFrom_nil m value
        | true =>
          simp only [hl, hr, Option.bind_eq_bind, Option.some_bind, if_true] at h
          obtain ⟨hno, hyes⟩ := NewField_valueRels_effect vkvs m value value' h
          cases hc : hasChildRel vkvs with
          | false =>
            have : isValueSource vkvs = false := by simp [isValueSource, hc]
            rw [hno hc]
            simpa [hres, List.filter_cons, this] using ValueFrom_nil m value
          | true =>
            have : isValueSource vkvs = true := by simp [isValueSource, hc, ← hrole]
            rw [hres]
            simp only [List.filter_cons, this, if_true, List.filter_nil]
            exact ⟨fun hnil => by simp at hnil, fun V hV => by
              simp only [List.getLast?_singleton, Option.some.injEq] at hV
              subst hV
              exact hyes hc⟩

theorem NewField_valueIds_effect (m : BlockMap) (ids : List (Option String)) :
    ∀ value value' : Option FieldValue,
      ids.foldlM (NewField.valueIdStep m) value = some value' →
      ValueFrom m ((resolve m ids).filter isValueSource) value value' := by
  induction ids with
  | nil =>
    intro value value' h
    simp at h; subst h
    simpa [resolve] using ValueFrom_nil m value
  | cons eid rest ih =>
    intro value value' h
    obtain ⟨v1, h1, h2⟩ := foldlM_cons_some _ _ _ _ _ h
    rw [resolve_cons, List.filter_append]
    exact ValueFrom_append m _ _ value v1 value'
      (NewField_valueIdStep_effect m value v1 eid h1) (ih v1 value' h2)

theorem NewField_rels_effect (b : Block) (m : BlockMap) (rels : List Relationship) :
    ∀ st st' : Option FieldKey × Option FieldValue,
      rels.foldlM (NewField.relStep b m) st = some st' →
      ValueFrom m ((resolve m ((rels.filter (isRel "VALUE")).flatMap fun rs => rs.Ids)).filter
        isValueSource) st.2 st'.2 := by
  induction rels with
  | nil =>
    intro st st' h
    simp at h; subst h
    simpa [resolve] using ValueFrom_nil m st.2
  | cons r rest ih =>
    intro st st' h
    obtain ⟨s1, h1, h2⟩ := foldlM_cons_some _ _ _ _ _ h
    cases hv : isRel "VALUE" r with
    | false =>
      have hkeep := NewField_relStep_keepValue b m st s1 r hv h1
      simp only [List.filter_cons, hv, Bool.false_eq_true, if_false]
      rw [← hkeep]
      exact ih s1 st' h2
    | true =>
      have hfold := NewField_relStep_value b m st s1 r hv h1
      simp only [List.filter_cons, hv, if_true, List.flatMap_cons, resolve_append,
        List.filter_append]
      exact ValueFrom_append m _ _ st.2 s1.2 st'.2
        (NewField_valueIds_effect m r.Ids st.2 s1.2 hfold) (ih s1 st' h2)

/-- C5, as amended. For every key block and index, the value of the field built by `NewField`
comes from the last value source: the last block, in the order of the `VALUE` relationships
of the key block and of their identifiers, that an identifier resolves to in the index and
that has the `VALUE` role and a `CHILD` relationship. The value is built from that block and
its last `CHILD` relationship: its `Content` is the words and selection elements built from
the identifiers that resolve to `WORD` or `SELECTION_ELEMENT` blocks, in relationship order,
and its `Text` is these items joined by single spaces, a word giving its text and a
selection element its selection status. Without a value source the field has no value. -/
theorem NewField_value_from_last_value_source (b : Block) (m : BlockMap) :
    (HasBox b → RelsOk b → IndexOk m → ∃ f, NewField b m = some f) ∧
    (∀ f, NewField b m = some f →
      (valueSources m b = [] → f.Value = none) ∧
      ∀ V, (valueSources m b).getLast? = some V →
        ∃ val, f.Value = some val ∧ val.Block = V ∧
          val.Content.map some = ((resolve m (lastChildIds V)).filter isItemKind).map buildItem ∧
          ∃ texts, val.Content.map Item.text = texts.map some ∧
            val.Text = String.intercalate " " texts) := by
  refine ⟨fun hbox hrels hm => NewField_total b m hbox hrels hm, fun f h => ?_⟩
  simp only [NewField, Option.bind_eq_bind, Option.pure_def, Option.bind_eq_some] at h
  obtain ⟨st, hst, h⟩ := h
  cases h
  obtain ⟨hnone, hlast⟩ := NewField_rels_effect b m b.Relationships (none, none) st hst
  refine ⟨fun hnil => hnone hnil, fun V hV => ?_⟩
  obtain ⟨val, hval, hnew⟩ := hlast V hV
  have hblock : val.Block = V := by
    simp only [NewFieldValue, Option.bind_eq_bind, Option.pure_def, Option.bind_eq_some] at hnew
    obtain ⟨_, _, _, _, hv⟩ := hnew
    cases hv
    rfl
  exact ⟨val, hval, hblock, NewFieldValue_sound V _ m val hnew⟩

/-- Counterexample to C5 as stated: the `VALUE` relationship of the key block refers to the
value block "v1", a `KEY_VALUE_SET` block with the `VALUE` role whose `CHILD` relationship
resolves to the word "Jane", and then to the value block "v2"; the value of the field is
built from "v2" and has the text "Doe". -/
theorem NewField_value_from_later_value_block :
    (∃ rv ∈ Example.twoValueKey.Relationships, isRel "VALUE" rv = true ∧ some "v1" ∈ rv.Ids) ∧
    Example.twoValueIndex.lookup "v1" = some Example.janeValue ∧
    isKind "KEY_VALUE_SET" Example.janeValue = true ∧
    hasRole "VALUE" Example.janeValue = true ∧ hasChildRel Example.janeValue = true ∧
    ((resolve Example.twoValueIndex (childIds Example.janeValue)).filter isItemKind).map
        (fun v => v.Text) = [some "Jane"] ∧
    (NewField Example.twoValueKey Example.twoValueIndex).map
        (fun f => f.Value.map fun v => (v.Block.Id, v.Text)) =
      some (some (some "v2", "Doe")) := by
  decide

/-- Witness for C5 as amended: the `VALUE` relationship of the key block refers to an
identifier that is not in the index and then to a value block whose `CHILD` is a selection
element with status `SELECTED`; that block is the one value source, and the value of the
field is built from it, with the text "SELECTED". -/
theorem NewField_value_from_last_value_source_witness :
    HasBox Example.ghostValueKey ∧ RelsOk Example.ghostValueKey ∧
    IndexOk (Example.index Example.checkField) ∧
    valueSources (Example.index Example.checkField) Example.ghostValueKey =
      [Example.checkValue] ∧
    ∃ f val, NewField Example.ghostValueKey (Example.index Example.checkField) = some f ∧
      f.Value = some val ∧ val.Block = Example.checkValue ∧
      val.Content.map Item.text = [some "SELECTED"] ∧ val.Text = "SELECTED" := by
  have h1 : HasBox Example.ghostValueKey := by decide
  have h2 : RelsOk Example.ghostValueKey := by decide
  have h3 : IndexOk (Example.index Example.checkField) := by decide
  have h4 : valueSources (Example.index Example.checkField) Example.ghostValueKey =
      [Example.checkValue] := by decide
  have thm := NewField_value_from_last_value_source Example.ghostValueKey
    (Example.index Example.checkField)
  obtain ⟨f, hf⟩ := thm.1 h1 h2 h3
  obtain ⟨val, hval, hblock, -, -⟩ := (thm.2 f hf).2 Example.checkValue (by rw [h4]; rfl)
  have hev : (NewField Example.ghostValueKey (Example.index Example.checkField)).map
      (fun f => f.Value.map fun v => (v.Content.map Item.text, v.Text)) =
      some (some ([some "SELECTED"], "SELECTED")) := by decide
  rw [hf] at hev
  simp only [Option.map_some', hval, Option.some.injEq, Prod.mk.injEq] at hev
  exact ⟨h1, h2, h3, h4, f, val, hf, hval, hblock, hev.1, hev.2⟩

end textractparser

namespace comprehend_processor

/-! ### The text chunker -/

theorem scan_some (l : List byte) :
    ∀ i j, chunkUpTheText.scan l i = some j →
      ∃ k, j = i + k ∧ l[k]? = some 32 ∧ ∀ n, n < k → l[n]? ≠ some 32 := by
  induction l with
  | nil => intro i j h; simp [chunkUpTheText.scan] at h
  | cons c rest ih =>
    intro i j h
    by_cases hc : c = 32
    · simp only [chunkUpTheText.scan, hc, if_true, Option.some.injEq] at h
      exact ⟨0, by omega, by simp [hc], fun n hn => by omega⟩
    · simp only [chunkUpTheText.scan, hc, if_false] at h
      obtain ⟨k, hk, hget, hbefore⟩ := ih (i + 1) j h
      refine ⟨k + 1, by omega, by simpa using hget, fun n hn => ?_⟩
      cases n with
      | zero => simpa using hc
      | succ n => simpa using hbefore n (by omega)

theorem scan_none (l : List byte) :
    ∀ i, chunkUpTheText.scan l i = none ↔ ∀ n : Nat, l[n]? ≠ some 32 := by
  induction l with
  | nil => intro i; simp [chunkUpTheText.scan]
  | cons c rest ih =>
    intro i
    by_cases hc : c = 32
    · simp only [chunkUpTheText.scan, hc, if_true]
      constructor
      · intro h; cases h
      · intro h; exact absurd (by simp) (h 0)
    · simp only [chunkUpTheText.scan, hc, if_false, ih (i + 1)]
      constructor
      · intro h n
        cases n with
        | zero => simpa using hc
        | succ n => simpa using h n
      · intro h n
        simpa using h (n + 1)

theorem loop_eq (chunksOfText : List (List byte)) (text : List byte) :
    chunkUpTheText.loop chunksOfText text =
      if text.length > COMPREHEND_CHARACTER_LIMIT then
        (chunkUpTheText.scan (text.drop COMPREHEND_CHARACTER_LIMIT)
          COMPREHEND_CHARACTER_LIMIT).bind fun indexSnip =>
            chunkUpTheText.loop (chunksOfText ++ [text.take indexSnip]) (text.drop indexSnip)
      else some (chunksOfText ++ [text]) := by
  rw [chunkUpTheText.loop]
  split
  · split <;> simp [*]
  · rfl

theorem scan_offset (text : List byte) (j : Nat)
    (h : chunkUpTheText.scan (text.drop COMPREHEND_CHARACTER_LIMIT)
      COMPREHEND_CHARACTER_LIMIT = some j) :
    COMPREHEND_CHARACTER_LIMIT ≤ j ∧ j < text.length ∧ text[j]? = some 32 ∧
      ∀ n, COMPREHEND_CHARACTER_LIMIT ≤ n → n < j → text[n]? ≠ some 32 := by
  obtain ⟨k, hk, hget, hbefore⟩ := scan_some _ _ _ h
  rw [List.getElem?_drop] at hget
  subst hk
  refine ⟨by omega, ?_, hget, fun n h1 h2 => ?_⟩
  · by_contra hlen
    rw [List.getElem?_eq_none (by omega)] at hget
    cases hget
  · have := hbefore (n - COMPREHEND_CHARACTER_LIMIT) (by omega)
    rw [List.getElem?_drop] at this
    have hn : COMPREHEND_CHARACTER_LIMIT + (n - COMPREHEND_CHARACTER_LIMIT) = n := by omega
    rwa [hn] at this

theorem loop_short (acc : List (List byte)) (text : List byte)
    (h : text.length ≤ COMPREHEND_CHARACTER_LIMIT) :
    chunkUpTheText.loop acc text = some (acc ++ [text]) := by
  rw [loop_eq, if_neg (by omega)]

theorem loop_chunks :
    ∀ (n : Nat) (text : List byte) (acc out : List (List byte)), text.length ≤ n →
      chunkUpTheText.loop acc text = some out →
      ∃ cs, out = acc ++ cs ∧ cs ≠ [] ∧ cs.flatten = text ∧
        (∀ c ∈ cs.dropLast, COMPREHEND_CHARACTER_LIMIT ≤ c.length) ∧
        (∀ c ∈ cs.tail, c.head? = some 32) ∧
        (∀ c, cs.getLast? = some c → c.length ≤ COMPREHEND_CHARACTER_LIMIT) ∧
        (∀ c, cs.head? = some c → c.head? = text.head?) ∧
        (cs = [text] ↔ text.length ≤ COMPREHEND_CHARACTER_LIMIT) := by
  intro n
  induction n with
  | zero =>
    intro text acc out hn h
    have hshort : text.length ≤ COMPREHEND_CHARACTER_LIMIT := by omega
    rw [loop_short acc text hshort] at h
    cases h
    exact ⟨[text], rfl, by simp, by simp, by simp, by simp,
      fun c hc => by simp at hc; rw [← hc]; exact hshort,
      fun c hc => by simp at hc; rw [hc], by simp [hshort]⟩
  | succ n ih =>
    intro text acc out hn h
    by_cases hshort : text.length ≤ COMPREHEND_CHARACTER_LIMIT
    · rw [loop_short acc text hshort] at h
      cases h
      exact ⟨[text], rfl, by simp, by simp, by simp, by simp,
        fun c hc => by simp at hc; rw [← hc]; exact hshort,
        fun c hc => by simp at hc; rw [hc], by simp [hshort]⟩
    · rw [loop_eq, if_pos (by omega)] at h
      cases hs : chunkUpTheText.scan (text.drop COMPREHEND_CHARACTER_LIMIT)
          COMPREHEND_CHARACTER_LIMIT with
      | none => simp [hs] at h
      | some j =>
        simp only [hs, Option.some_bind] at h
        obtain ⟨hge, hlt, hget, -⟩ := scan_offset text j hs
        have hlim : COMPREHEND_CHARACTER_LIMIT = 4096 := rfl
        have hrest : (text.drop j).length ≤ n := by
          rw [List.length_drop]; omega
        obtain ⟨cs, hout, hne, hflat, hlong, hspace, hlast, hhead, -⟩ :=
          ih (text.drop j) _ out hrest h
        obtain ⟨c0, ct, hcs⟩ := List.exists_cons_of_ne_nil hne
        have hc0 : c0.head? = some 32 := by
          rw [hhead c0 (by rw [hcs]; rfl), List.head?_drop]
          exact hget
        refine ⟨text.take j :: cs, by rw [hout]; simp, by simp, ?_, ?_, ?_, ?_, ?_, ?_⟩
        · simp [hflat]
        · intro c hc
          rw [hcs, List.dropLast_cons₂] at hc
          rcases List.mem_cons.mp hc with rfl | hc
          · rw [List.length_take]; omega
          · exact hlong c (by rw [hcs]; exact hc)
        · intro c hc
          simp only [List.tail_cons, hcs] at hc
          rcases List.mem_cons.mp hc with rfl | hc
          · exact hc0
          · exact hspace c (by rw [hcs]; exact hc)
        · intro c hc
          rw [hcs, List.getLast?_cons_cons] at hc
          exact hlast c (by rw [hcs]; exact hc)
        · intro c hc
          simp only [List.head?_cons, Option.some.injEq] at hc
          subst hc
          cases text with
          | nil => simp at hlt
          | cons a l =>
            cases j with
            | zero => omega
            | succ j => simp
        · constructor
          · intro heq
            rw [hcs] at heq
            simp at heq
          · intro hle
            omega

theorem loop_cut (acc : List (List byte)) (a rest : List byte)
    (ha : a.length = COMPREHEND_CHARACTER_LIMIT) :
    chunkUpTheText.loop acc (a ++ 32 :: rest) = chunkUpTheText.loop (acc ++ [a]) (32 :: rest) := by
  have hdrop : (a ++ 32 :: rest).drop COMPREHEND_CHARACTER_LIMIT = 32 :: rest := by
    rw [← ha]; exact List.drop_left' rfl
  have htake : (a ++ 32 :: rest).take COMPREHEND_CHARACTER_LIMIT = a := by
    rw [← ha]; exact List.take_left' rfl
  rw [loop_eq, if_pos (by simp [ha]), hdrop]
  simp only [chunkUpTheText.scan, if_true, Option.some_bind, hdrop, htake]

/-- C28. A text of at most `COMPREHEND_CHARACTER_LIMIT` bytes is returned as its single
chunk. Whenever `chunkUpTheText` returns, the list of chunks is not empty and its
concatenation is the text; every chunk but the last has at least the limit as its length,
every chunk after the first begins with a space (the cut is made right before a space), the
last chunk has at most the limit as its length, and the list is the single chunk of the
whole text exactly when the text has at most the limit as its length. -/
theorem chunkUpTheText_chunks_rebuild_text (text : List byte) :
    (text.length ≤ COMPREHEND_CHARACTER_LIMIT → chunkUpTheText text = some [text]) ∧
    (∀ chunks, chunkUpTheText text = some chunks →
      chunks ≠ [] ∧ chunks.flatten = text ∧
      (∀ c ∈ chunks.dropLast, COMPREHEND_CHARACTER_LIMIT ≤ c.length) ∧
      (∀ c ∈ chunks.tail, c.head? = some 32) ∧
      (∀ c, chunks.getLast? = some c → c.length ≤ COMPREHEND_CHARACTER_LIMIT) ∧
      (chunks = [text] ↔ text.length ≤ COMPREHEND_CHARACTER_LIMIT)) := by
  refine ⟨fun h => ?_, fun chunks h => ?_⟩
  · unfold chunkUpTheText
    rw [loop_short [] text h]
    rfl
  · obtain ⟨cs, hout, hne, hflat, hlong, hspace, hlast, -, hone⟩ :=
      loop_chunks text.length text [] chunks (Nat.le_refl _) h
    simp only [List.nil_append] at hout
    subst hout
    exact ⟨hne, hflat, hlong, hspace, hlast, hone⟩

/-- Witness for C28: the text of 4096 letters, a space and two letters is cut before the
space, into the 4096 letters and the rest. -/
theorem chunkUpTheText_chunks_rebuild_text_witness :
    chunkUpTheText Example.longText = some [List.replicate 4096 97, [32, 98, 99]] ∧
    [List.replicate 4096 (97 : byte), [32, 98, 99]].flatten = Example.longText ∧
    (∀ c ∈ [List.replicate 4096 (97 : byte), [32, 98, 99]].tail, c.head? = some 32) ∧
    ¬ Example.longText.length ≤ COMPREHEND_CHARACTER_LIMIT := by
  have hrun : chunkUpTheText Example.longText =
      some [List.replicate 4096 97, [32, 98, 99]] := by
    unfold chunkUpTheText Example.longText
    rw [loop_cut [] (List.replicate 4096 97) [98, 99] (List.length_replicate _ _),
      loop_short _ _ (by simp only [List.length_cons, List.length_nil,
        COMPREHEND_CHARACTER_LIMIT]; omega)]
    rfl
  have thm := (chunkUpTheText_chunks_rebuild_text Example.longText).2 _ hrun
  refine ⟨hrun, thm.2.1, thm.2.2.2.1, fun hle => ?_⟩
  have := congrArg List.length (thm.2.2.2.2.2.mpr hle)
  simp only [List.length_cons, List.length_nil] at this
  omega

theorem next_shorter (text rest : List byte) (h : NextText text rest) :
    rest.length + COMPREHEND_CHARACTER_LIMIT ≤ text.length := by
  obtain ⟨-, i, hi, hget, -, rfl⟩ := h
  have hlt : i < text.length := by
    by_contra hlen
    rw [List.getElem?_eq_none (by omega)] at hget
    cases hget
  rw [List.length_drop]
  omega

theorem scan_next (text : List byte) (j : Nat)
    (hlong : text.length > COMPREHEND_CHARACTER_LIMIT)
    (hs : chunkUpTheText.scan (text.drop COMPREHEND_CHARACTER_LIMIT)
      COMPREHEND_CHARACTER_LIMIT = some j) :
    NextText text (text.drop j) ∧ ∀ rest, NextText text rest → rest = text.drop j := by
  obtain ⟨hge, -, hget, hbefore⟩ := scan_offset text j hs
  refine ⟨⟨hlong, j, hge, hget, hbefore, rfl⟩, fun rest hnext => ?_⟩
  obtain ⟨-, i, hi, hgi, hbi, rfl⟩ := hnext
  have hij : i = j := by
    rcases Nat.lt_trichotomy i j with hlt | heq | hgt
    · exact absurd hgi (hbefore i hi hlt)
    · exact heq
    · exact absurd hget (hbi j hge hgt)
  rw [hij]

theorem scan_stuck (text : List byte) (hlong : text.length > COMPREHEND_CHARACTER_LIMIT) :
    chunkUpTheText.scan (text.drop COMPREHEND_CHARACTER_LIMIT) COMPREHEND_CHARACTER_LIMIT =
      none ↔ NoSpaceFromLimit text := by
  rw [scan_none]
  constructor
  · intro h
    refine ⟨hlong, fun i hi => ?_⟩
    have := h (i - COMPREHEND_CHARACTER_LIMIT)
    rw [List.getElem?_drop] at this
    have hn : COMPREHEND_CHARACTER_LIMIT + (i - COMPREHEND_CHARACTER_LIMIT) = i := by omega
    rwa [hn] at this
  · intro h n
    rw [List.getElem?_drop]
    exact h.2 _ (by omega)

theorem loop_none_iff :
    ∀ (n : Nat) (text : List byte) (acc : List (List byte)), text.length ≤ n →
      (chunkUpTheText.loop acc text = none ↔
        ∃ t, RemainingText text t ∧ NoSpaceFromLimit t) := by
  intro n
  induction n with
  | zero =>
    intro text acc hn
    have hshort : text.length ≤ COMPREHEND_CHARACTER_LIMIT := by omega
    rw [loop_short acc text hshort]
    constructor
    · intro h; cases h
    · rintro ⟨t, hrem, hstuck⟩
      cases hrem with
      | start => exact absurd hstuck.1 (by omega)
      | step _ rest _ hnext _ => exact absurd hnext.1 (by omega)
  | succ n ih =>
    intro text acc hn
    by_cases hshort : text.length ≤ COMPREHEND_CHARACTER_LIMIT
    · rw [loop_short acc text hshort]
      constructor
      · intro h; cases h
      · rintro ⟨t, hrem, hstuck⟩
        cases hrem with
        | start => exact absurd hstuck.1 (by omega)
        | step _ rest _ hnext _ => exact absurd hnext.1 (by omega)
    · have hlong : text.length > COMPREHEND_CHARACTER_LIMIT := by omega
      rw [loop_eq, if_pos hlong]
      cases hs : chunkUpTheText.scan (text.drop COMPREHEND_CHARACTER_LIMIT)
          COMPREHEND_CHARACTER_LIMIT with
      | none =>
        simp only [Option.none_bind, true_iff]
        exact ⟨text, RemainingText.start text, (scan_stuck text hlong).mp hs⟩
      | some j =>
        obtain ⟨hnext, huniq⟩ := scan_next text j hlong hs
        have hlen := next_shorter text _ hnext
        have hlim : COMPREHEND_CHARACTER_LIMIT = 4096 := rfl
        simp only [Option.some_bind]
        rw [ih (text.drop j) _ (by omega)]
        constructor
        · rintro ⟨t, hrem, hstuck⟩
          exact ⟨t, RemainingText.step text _ t hnext hrem, hstuck⟩
        · rintro ⟨t, hrem, hstuck⟩
          cases hrem with
          | start =>
            have := (scan_stuck text hlong).mpr hstuck
            rw [hs] at this
            cases this
          | step _ rest _ hn2 hrem2 =>
            rw [huniq rest hn2] at hrem2
            exact ⟨t, hrem2, hstuck⟩

/-- C29. `chunkUpTheText` is a total function: every outer iteration goes on with a text
that is shorter by at least `COMPREHEND_CHARACTER_LIMIT` bytes. It faults exactly when the
text that remains at the start of some outer iteration is longer than the limit and has no
space at any offset from the limit on, and returns its chunks in every other case; a text
longer than the limit without any space faults. -/
theorem chunkUpTheText_faults_iff_no_space (text : List byte) :
    (∀ rest, NextText text rest → rest.length + COMPREHEND_CHARACTER_LIMIT ≤ text.length) ∧
    (∀ acc rest, NextText text rest → ∃ j, rest = text.drop j ∧
      chunkUpTheText.loop acc text = chunkUpTheText.loop (acc ++ [text.take j]) rest) ∧
    (chunkUpTheText text = none ↔ ∃ t, RemainingText text t ∧ NoSpaceFromLimit t) ∧
    ((¬ ∃ t, RemainingText text t ∧ NoSpaceFromLimit t) →
      ∃ chunks, chunkUpTheText text = some chunks) ∧
    (text.length > COMPREHEND_CHARACTER_LIMIT → (∀ c ∈ text, c ≠ 32) →
      chunkUpTheText text = none) := by
  have hiff : chunkUpTheText text = none ↔ ∃ t, RemainingText text t ∧ NoSpaceFromLimit t :=
    loop_none_iff text.length text [] (Nat.le_refl _)
  refine ⟨next_shorter text, fun acc rest hnext => ?_, hiff, fun hno => ?_, fun hlong hall => ?_⟩
  · cases hs : chunkUpTheText.scan (text.drop COMPREHEND_CHARACTER_LIMIT)
        COMPREHEND_CHARACTER_LIMIT with
    | none =>
      have hstuck := (scan_stuck text hnext.1).mp hs
      obtain ⟨-, i, hi, hget, -, -⟩ := hnext
      exact absurd hget (hstuck.2 i hi)
    | some j =>
      refine ⟨j, (scan_next text j hnext.1 hs).2 rest hnext, ?_⟩
      rw [loop_eq, if_pos hnext.1, hs, (scan_next text j hnext.1 hs).2 rest hnext]
      rfl
  · cases hr : chunkUpTheText text with
    | none => exact absurd (hiff.mp hr) hno
    | some chunks => exact ⟨chunks, rfl⟩
  · refine hiff.mpr ⟨text, RemainingText.start text, hlong, fun i _ hget => ?_⟩
    exact hall 32 (List.getElem?_mem hget) rfl

/-- Witness for C29: the text of 5000 letters without a space is longer than the limit, and
`chunkUpTheText` faults on it. -/
theorem chunkUpTheText_faults_iff_no_space_witness :
    Example.solidText.length > COMPREHEND_CHARACTER_LIMIT ∧
    (∀ c ∈ Example.solidText, c ≠ 32) ∧
    chunkUpTheText Example.solidText = none := by
  have hlong : Example.solidText.length > COMPREHEND_CHARACTER_LIMIT := by
    simp only [Example.solidText, List.length_replicate, COMPREHEND_CHARACTER_LIMIT]
    omega
  have hall : ∀ c ∈ Example.solidText, c ≠ 32 := by
    intro c hc
    rw [Example.solidText, List.mem_replicate] at hc
    rw [hc.2]
    decide
  exact ⟨hlong, hall, (chunkUpTheText_faults_iff_no_space Example.solidText).2.2.2.2 hlong hall⟩

open textractparser
/-! ### The object name parser -/

theorem split_go_nil (sep : List Char) (skip : Nat) (cur : List Char) :
    strings.Split.go sep [] skip cur = [cur] := by
  cases skip <;> rfl

theorem split_go_succ (sep : List Char) (c : Char) (cs : List Char) (skip : Nat)
    (cur : List Char) :
    strings.Split.go sep (c :: cs) (skip + 1) cur = strings.Split.go sep cs skip cur := rfl

theorem split_go_zero (sep : List Char) (c : Char) (cs : List Char) (cur : List Char) :
    strings.Split.go sep (c :: cs) 0 cur =
      if sep.isPrefixOf (c :: cs) then cur :: strings.Split.go sep cs (sep.length - 1) []
      else strings.Split.go sep cs 0 (cur ++ [c]) := rfl

theorem split_go_skip (sep x : List Char) :
    ∀ (rest cur : List Char), strings.Split.go sep (x ++ rest) x.length cur =
      strings.Split.go sep rest 0 cur := by
  induction x with
  | nil => intro rest cur; rfl
  | cons c x ih =>
    intro rest cur
    rw [List.cons_append, List.length_cons, split_go_succ]
    exact ih rest cur

theorem split_go_no_match (sep : List Char) (a : List Char) :
    ∀ (tail cur : List Char),
      (∀ a1 a2, a = a1 ++ a2 → a2 ≠ [] → sep.isPrefixOf (a2 ++ tail) = false) →
      strings.Split.go sep (a ++ tail) 0 cur = strings.Split.go sep tail 0 (cur ++ a) := by
  induction a with
  | nil => intro tail cur _; simp
  | cons c a ih =>
    intro tail cur h
    have h0 := h [] (c :: a) rfl (by simp)
    simp only [List.cons_append] at h0
    rw [List.cons_append, split_go_zero, h0]
    simp only [Bool.false_eq_true, if_false]
    rw [ih tail (cur ++ [c]) (fun a1 a2 heq hne => h (c :: a1) a2 (by simp [heq]) hne)]
    simp

theorem split_go_match (sep : List Char) (hsep : sep ≠ []) (rest cur : List Char) :
    strings.Split.go sep (sep ++ rest) 0 cur = cur :: strings.Split.go sep rest 0 [] := by
  obtain ⟨c, cs, rfl⟩ := List.exists_cons_of_ne_nil hsep
  have hpre : (c :: cs).isPrefixOf (c :: (cs ++ rest)) = true := by
    rw [ List.isPrefixOf_iff_prefix]
    exact ⟨rest, rfl⟩
  rw [List.cons_append, split_go_zero, hpre]
  simp only [if_true, List.length_cons, Nat.add_sub_cancel]
  rw [split_go_skip]

theorem split_go_ne_nil (sep : List Char) :
    ∀ (s : List Char) (skip : Nat) (cur : List Char), strings.Split.go sep s skip cur ≠ [] := by
  intro s
  induction s with
  | nil => intro skip cur; simp [split_go_nil]
  | cons c cs ih =>
    intro skip cur
    cases skip with
    | succ k => rw [split_go_succ]; exact ih k cur
    | zero =>
      rw [split_go_zero]
      split
      · simp
      · exact ih 0 _

theorem join_cons (a : String) (rest : List String) (sep : String) (h : rest ≠ []) :
    strings.Join (a :: rest) sep = a ++ sep ++ strings.Join rest sep := by
  cases rest with
  | nil => exact absurd rfl h
  | cons b rest => rfl

theorem join_split_go (sep : List Char) (hsep : sep ≠ []) :
    ∀ (s : List Char) (skip : Nat) (cur : List Char),
      (strings.Join ((strings.Split.go sep s skip cur).map String.mk) (String.mk sep)).data =
        cur ++ s.drop skip := by
  intro s
  induction s with
  | nil => intro skip cur; simp [split_go_nil, strings.Join]
  | cons c cs ih =>
    intro skip cur
    cases skip with
    | succ k =>
      rw [split_go_succ, List.drop_succ_cons]
      exact ih k cur
    | zero =>
      rw [split_go_zero, List.drop_zero]
      by_cases hpre : sep.isPrefixOf (c :: cs) = true
      · simp only [hpre, if_true, List.map_cons]
        rw [join_cons _ _ _ (by simpa using split_go_ne_nil sep cs (sep.length - 1) [])]
        simp only [String.data_append, ih, List.nil_append, List.append_assoc]
        rw [ List.isPrefixOf_iff_prefix] at hpre
        obtain ⟨t, ht⟩ := hpre
        obtain ⟨d, ds, rfl⟩ := List.exists_cons_of_ne_nil hsep
        simp only [List.cons_append, List.cons.injEq] at ht
        obtain ⟨rfl, rfl⟩ := ht
        simp
      · simp only [hpre, Bool.false_eq_true, if_false]
        rw [ih 0 (cur ++ [c])]
        simp

theorem split_first_piece (sep a rest : List Char) (hsep : sep ≠ [])
    (h : ∀ a1 a2, a = a1 ++ a2 → a2 ≠ [] → sep.isPrefixOf (a2 ++ (sep ++ rest)) = false) :
    strings.Split.go sep (a ++ (sep ++ rest)) 0 [] = a :: strings.Split.go sep rest 0 [] := by
  rw [split_go_no_match sep a (sep ++ rest) [] h, split_go_match sep hsep]
  simp

theorem no_early_separator (sep x p rest : List Char) (c : Char) (hsep : sep = x ++ [c])
    (h : (p ++ x).tails.any (fun t => sep.isPrefixOf t) = false) :
    ∀ a1 a2, p = a1 ++ a2 → a2 ≠ [] → sep.isPrefixOf (a2 ++ (sep ++ rest)) = false := by
  intro a1 a2 hp hne
  rw [List.any_eq_false] at h
  have htail : a2 ++ x ∈ (p ++ x).tails := by
    rw [List.mem_tails, hp, List.append_assoc]
    exact List.suffix_append _ _
  have hno := h _ htail
  by_contra hpre
  rw [Bool.not_eq_false, List.isPrefixOf_iff_prefix] at hpre
  have hlong : (a2 ++ x) <+: a2 ++ (sep ++ rest) := by
    rw [hsep]
    exact ⟨c :: rest, by simp⟩
  have hlen : sep.length ≤ (a2 ++ x).length := by
    have := List.length_pos.mpr hne
    rw [hsep]
    simp only [List.length_append, List.length_singleton]
    omega
  have := List.prefix_of_prefix_length_le hpre hlong hlen
  rw [← List.isPrefixOf_iff_prefix] at this
  rw [this] at hno
  exact hno rfl

theorem no_slash_inside (a tail : List Char) (h : '/' ∉ a) :
    ∀ a1 a2, a = a1 ++ a2 → a2 ≠ [] → ['/'].isPrefixOf (a2 ++ tail) = false := by
  intro a1 a2 ha hne
  obtain ⟨c, cs, rfl⟩ := List.exists_cons_of_ne_nil hne
  have hc : c ≠ '/' := by
    rintro rfl
    exact h (by rw [ha]; simp)
  simp only [List.cons_append, List.isPrefixOf]
  simp [Ne.symm hc]

theorem dissect_path (documentId documentName : String) (rest : List Char)
    (hid : '/' ∉ documentId.data)
    (hname : strings.Contains (documentId ++ "/" ++ documentName ++ "/ocr-analysis")
      "/ocr-analysis/" = false) :
    dissectObjectName
        (documentId ++ "/" ++ documentName ++ "/ocr-analysis" ++ String.mk ('/' :: rest)) =
      some (documentId, documentName) := by
  have hsep : ("/ocr-analysis/" : String).data = ("/ocr-analysis" : String).data ++ ['/'] := rfl
  have hfirst : strings.Split.go ("/ocr-analysis/" : String).data
      (documentId ++ "/" ++ documentName ++ "/ocr-analysis" ++ String.mk ('/' :: rest)).data 0 [] =
      (documentId ++ "/" ++ documentName).data ::
        strings.Split.go ("/ocr-analysis/" : String).data rest 0 [] := by
    have hdata : (documentId ++ "/" ++ documentName ++ "/ocr-analysis" ++
        String.mk ('/' :: rest)).data =
        (documentId ++ "/" ++ documentName).data ++ (("/ocr-analysis/" : String).data ++ rest) := by
      rw [hsep]
      simp only [String.data_append, List.append_assoc, List.singleton_append]
    rw [hdata]
    exact split_first_piece _ _ rest (by decide)
      (no_early_separator _ _ _ rest '/' hsep (by
        simpa only [strings.Contains, String.data_append] using hname))
  have hsecond : strings.Split.go ("/" : String).data (documentId ++ "/" ++ documentName).data 0 [] =
      documentId.data :: strings.Split.go ("/" : String).data documentName.data 0 [] := by
    have hdata : (documentId ++ "/" ++ documentName).data =
        documentId.data ++ (("/" : String).data ++ documentName.data) := by
      simp only [String.data_append, List.append_assoc]
    rw [hdata]
    exact split_first_piece _ _ _ (by decide) (no_slash_inside _ _ hid)
  have hjoin := join_split_go ("/" : String).data (by decide) documentName.data 0 []
  simp only [List.nil_append, List.drop_zero] at hjoin
  simp only [dissectObjectName, strings.Split, hfirst, List.map_cons, List.getElem?_cons_zero,
    Option.bind_eq_bind, Option.some_bind, hsecond, List.drop_succ_cons, List.drop_zero,
    Option.pure_def, Option.some.injEq, Prod.mk.injEq]
  exact ⟨trivial, String.ext hjoin⟩

/-- Counterexample to C30 as stated: the document identifier "doc1" has no slash and the
document name "ocr-analysis/scan.png" does not contain "/ocr-analysis/", and
`dissectObjectName` gives the empty document name for the path of the full response,
because the separator is found where the identifier ends. -/
theorem dissectObjectName_cuts_at_first_separator :
    '/' ∉ ("doc1" : String).data ∧
    strings.Contains Example.folderName "/ocr-analysis/" = false ∧
    dissectObjectName
        ("doc1" ++ "/" ++ Example.folderName ++ "/ocr-analysis" ++ "/fullresponse.json") =
      some ("doc1", "") := by
  decide

/-- C30, as amended. When the document identifier has no slash and the output path, which
is the object name `documentId/documentName` followed by "/ocr-analysis", does not contain
"/ocr-analysis/", `dissectObjectName` returns the document identifier and the document name
for the path under which `WriteTextractOutputs` stores the full response of a generator made
by `NewOutputGenerator` for that object name, so that joining the two with a slash gives the
object name back. -/
theorem dissectObjectName_inverts_full_response_path (documentId documentName : String)
    (hid : '/' ∉ documentId.data)
    (hname : strings.Contains (documentId ++ "/" ++ documentName ++ "/ocr-analysis")
      "/ocr-analysis/" = false) :
    dissectObjectName
        (documentId ++ "/" ++ documentName ++ "/ocr-analysis" ++ "/fullresponse.json") =
      some (documentId, documentName) ∧
    ∀ (s3 : awshelper.S3Helper) (response : textract.AnalyzeDocumentOutput)
      (bucketName : String) (isForms isTables : Bool) (o : OutputGenerator)
      (taggingStr : Option String),
      NewOutputGenerator s3 response documentId bucketName (documentId ++ "/" ++ documentName)
        isForms isTables = some o →
      (fullWrite o taggingStr).s3FileName =
        o.ObjectName ++ "/ocr-analysis" ++ "/fullresponse.json" ∧
      dissectObjectName (fullWrite o taggingStr).s3FileName =
        some (documentId, documentName) ∧
      documentId ++ "/" ++ documentName = o.ObjectName := by
  have hmain := dissect_path documentId documentName ("fullresponse.json" : String).data hid hname
  have hmain1 : dissectObjectName
      (documentId ++ "/" ++ documentName ++ "/ocr-analysis" ++ "/fullresponse.json") =
      some (documentId, documentName) := hmain
  refine ⟨hmain1, fun s3 response bucketName isForms isTables o taggingStr ho => ?_⟩
  simp only [NewOutputGenerator, Option.bind_eq_bind, Option.pure_def, Option.bind_eq_some,
    Option.some.injEq] at ho
  obtain ⟨d, -, rfl⟩ := ho
  exact ⟨rfl, hmain1, rfl⟩

/-- Witness for C30 as amended: for the document identifier "doc1" and the document name
"in/scan.png", the path of the full response is dissected into the two. -/
theorem dissectObjectName_inverts_full_response_path_witness :
    '/' ∉ ("doc1" : String).data ∧
    strings.Contains ("doc1" ++ "/" ++ "in/scan.png" ++ "/ocr-analysis") "/ocr-analysis/" =
      false ∧
    dissectObjectName ("doc1" ++ "/" ++ "in/scan.png" ++ "/ocr-analysis" ++ "/fullresponse.json") =
      some ("doc1", "in/scan.png") :=
  ⟨by decide, by decide,
    (dissectObjectName_inverts_full_response_path "doc1" "in/scan.png" (by decide)
      (by decide)).1⟩

end comprehend_processor
